import Mathlib

/-!
# Irredundant difference matrix: accumulator, partitioner and block processor

A shallow embedding of `irredundant_matrix.cpp` (the `std::list` storage variant,
built without `USE_LOCAL_LOCK` and without `IRREDUNTANT_VECTOR`) and of
`input_matrix.cpp` (the sequential `calculate`), together with the properties
proved about them. The vector storage variant and the variant built with
`USE_LOCAL_LOCK`, run by one thread, follow the partitioner under names of their own
(`addRowInternalVector`, `LocalLock.IrredundantMatrix`).

Conventions of the embedding.
* A `Row` is the list of its cells; the width of a row is the length of the list.
* C++ `int` cells, weights and multipliers are `Int`; the arithmetic is the
  mathematical one (the properties below are about runs without overflow).
  Row indices, class ids and class sizes are `Nat`.
* An `N × W` matrix kept by the program in one flat array and read through
  `m[i * W + j]` is the list of its `N` rows.
* A loop `for (i = 0; i < n; ++i)` is a left fold over `List.range n`; an array write
  `a[i] = v` is `List.set`, an array read `a[i]` is `List.getD`.
* The library call `std::sort` is a parameter `sort` of `sortMatrix`; `IsStdSort` is what
  the C++ standard promises of it.
-/

/-- A row of cells. -/
abbrev Row := List Int

/-- The "any value" sentinel, `std::numeric_limits<int>::min()` (what `printMatrix`
renders as a dash). -/
def DASH : Int := -2147483648

/-- Modelled from the spec: `Row::isInclude` is declared in a header that is not part
of the sources. `a.isInclude(b)` is true iff at every position `k` either
`a[k] == DASH` or `a[k] == b[k]`. -/
def Row.isInclude (a b : Row) : Bool :=
  (List.zip a b).all fun p => p.1 == DASH || p.1 == p.2

/-- Modelled from the spec: `Row::createAsDifference` is declared in a header that is
not part of the sources. Position-wise the result holds `DASH` where the two cells are
equal and `|a[k] - b[k]|` otherwise. -/
def Row.createAsDifference (a b : Row) : Row :=
  List.zipWith (fun x y => if x = y then DASH else |x - y|) a b

/-- The accumulator: its width, the column weights `_r` and the stored rows `_rows`
(a `std::list<Row>`, head of the list first). -/
structure IrredundantMatrix where
  _width : Nat
  _r : List Int
  _rows : List Row
  deriving DecidableEq, Repr

/-- The constructor `IrredundantMatrix::IrredundantMatrix(width)`: `_r.resize(width)`
gives `width` zero weights, and there are no rows. -/
def IrredundantMatrix.create (width : Nat) : IrredundantMatrix :=
  { _width := width, _r := List.replicate width 0, _rows := [] }

/-- The `while` loop of `addRowInternal` run from the iterator position whose remaining
elements are `rows`. The result is the flag "the loop ran to `_rows.end()`" (false: the
function returned early because a stored row includes `row`) and what this part of the
list holds afterwards: rows included by `row` that were met before the exit are erased. -/
def addRowScan (row : Row) : List Row → Bool × List Row
  | [] => (true, [])
  | r :: rest =>
    if Row.isInclude r row then (false, r :: rest)
    else if Row.isInclude row r then addRowScan row rest
    else ((addRowScan row rest).1, r :: (addRowScan row rest).2)

/-- The function `IrredundantMatrix::addRowInternal` (list storage): scan, then
`push_front` when the scan did not return early. -/
def IrredundantMatrix.addRowInternal (m : IrredundantMatrix) (row : Row) : IrredundantMatrix :=
  if (addRowScan row m._rows).1 then { m with _rows := row :: (addRowScan row m._rows).2 }
  else { m with _rows := (addRowScan row m._rows).2 }

/-- The function `IrredundantMatrix::addRow`: `_r[i] += r[i]` for `i < _width`, then
`addRowInternal`. -/
def IrredundantMatrix.addRow (m : IrredundantMatrix) (row : Row) (r : List Int) : IrredundantMatrix :=
  IrredundantMatrix.addRowInternal
    ((List.range m._width).foldl
      (fun acc i => { acc with _r := acc._r.set i (acc._r.getD i 0 + r.getD i 0) }) m)
    row

/-- The accumulator states that arise from an empty accumulator by insertions of rows
of the accumulator's width, through `addRow` or directly through `addRowInternal`. -/
inductive Reachable : IrredundantMatrix → Prop
  | empty (width : Nat) : Reachable (IrredundantMatrix.create width)
  | addRow (m : IrredundantMatrix) (row : Row) (r : List Int) :
      Reachable m → row.length = m._width → Reachable (m.addRow row r)
  | addRowInternal (m : IrredundantMatrix) (row : Row) :
      Reachable m → row.length = m._width → Reachable (m.addRowInternal row)

/-- No stored row includes another stored row (in either direction, at distinct
positions of the list). -/
def NoDominance (rows : List Row) : Prop :=
  rows.Pairwise fun a b => Row.isInclude a b = false ∧ Row.isInclude b a = false

/-- The accumulator invariant: every stored row has the accumulator's width and no
stored row includes another one. -/
def AccInv (m : IrredundantMatrix) : Prop :=
  (∀ r ∈ m._rows, r.length = m._width) ∧ NoDominance m._rows


/-! ## The input matrix (`input_matrix.cpp`) -/

/-- The part of `DataFile` that the constructor of `InputMatrix` reads through its
getters: the three sizes, the feature and label ("pfeature") matrices of the learning
set and the two range vectors. -/
structure DataFile where
  learningSetLen : Nat
  featuresLen : Nat
  pfeaturesLen : Nat
  learningSetFeatures : List (List Int)
  learningSetPfeatures : List (List Int)
  rangesMin : List Int
  rangesMax : List Int
  deriving DecidableEq, Repr

/-- A well-formed dataset: the matrices and range vectors have the declared sizes. -/
def DataFile.WellFormed (d : DataFile) : Prop :=
  d.learningSetFeatures.length = d.learningSetLen ∧
  d.learningSetPfeatures.length = d.learningSetLen ∧
  (∀ row ∈ d.learningSetFeatures, row.length = d.featuresLen) ∧
  (∀ row ∈ d.learningSetPfeatures, row.length = d.pfeaturesLen) ∧
  d.rangesMin.length = d.featuresLen ∧
  d.rangesMax.length = d.featuresLen

/-- The fields of `InputMatrix`. `_qMatrix` holds the feature rows, `_rMatrix` the label
rows, `_r2Matrix` the class id of every row, `_r2Indexes` / `_r2Counts` the first row and
the size of every class. -/
structure InputMatrix where
  _rowsCount : Nat
  _qColsCount : Nat
  _rColsCount : Nat
  _qMatrix : List (List Int)
  _qMinimum : List Int
  _qMaximum : List Int
  _rMatrix : List (List Int)
  _r2Matrix : List Nat
  _r2Count : Nat
  _r2Indexes : List Nat
  _r2Counts : List Nat
  deriving DecidableEq, Repr

/-- The state of the loop of `calcR2Matrix`: `currentId`, the `std::map` from label row
to class id (as an association list) and the array `_r2Matrix`. -/
structure R2MatrixState where
  currentId : Nat
  mappings : List (List Int × Nat)
  r2Matrix : List Nat
  deriving DecidableEq, Repr

/-- One iteration of the loop of `calcR2Matrix`, for row `i`. Modelled from the spec:
the ordering of the `WorkRow` keys of the map is declared in a header that is not part of
the sources; the map is keyed by label vector, and two keys are the same key iff the
label vectors are identical. -/
def calcR2MatrixStep (rMatrix : List (List Int)) (s : R2MatrixState) (i : Nat) : R2MatrixState :=
  match s.mappings.lookup (rMatrix.getD i []) with
  | some id => { s with r2Matrix := s.r2Matrix.set i id }
  | none =>
    { currentId := s.currentId + 1
      mappings := (rMatrix.getD i [], s.currentId) :: s.mappings
      r2Matrix := s.r2Matrix.set i s.currentId }

/-- The function `InputMatrix::calcR2Matrix`: a first-seen numbering of the label rows. -/
def InputMatrix.calcR2Matrix (m : InputMatrix) : InputMatrix :=
  let s := (List.range m._rowsCount).foldl (calcR2MatrixStep m._rMatrix)
    { currentId := 0, mappings := [], r2Matrix := m._r2Matrix }
  { m with _r2Matrix := s.r2Matrix, _r2Count := s.currentId }

/-- The first loop of `sortMatrix`: `counts[_r2Matrix[i]] += 1` for every row. -/
def sortMatrixCounts (rowsCount r2Count : Nat) (r2Matrix : List Nat) : List Nat :=
  (List.range rowsCount).foldl
    (fun counts i => counts.set (r2Matrix.getD i 0) (counts.getD (r2Matrix.getD i 0) 0 + 1))
    (List.replicate r2Count 0)

/-- The array `sortedCounts` of `sortMatrix` before it is sorted: the pairs
`(i, counts[i])`. -/
def sortMatrixTuples (r2Count : Nat) (counts : List Nat) : List (Nat × Nat) :=
  (List.range r2Count).map fun i => (i, counts.getD i 0)

/-- What the C++ standard promises of `std::sort` with the comparator of `sortMatrix`
(`get<1>(a) > get<1>(b)`): the result is a permutation of the input in which no element
is ordered before an earlier one. The order of elements with equal counts is left open. -/
def IsStdSort (sort : List (Nat × Nat) → List (Nat × Nat)) : Prop :=
  ∀ l, (sort l).Perm l ∧ (sort l).Pairwise fun a b => ¬ b.2 > a.2

/-- The third loop of `sortMatrix`: `indexes[get<0>(sortedCounts[i])] = currentIndex;
currentIndex += get<1>(sortedCounts[i])`. The state is `(indexes, currentIndex)`. -/
def sortMatrixIndexes (r2Count : Nat) (sortedCounts : List (Nat × Nat)) : List Nat :=
  ((List.range r2Count).foldl
    (fun (s : List Nat × Nat) i =>
      (s.1.set (sortedCounts.getD i (0, 0)).1 s.2, s.2 + (sortedCounts.getD i (0, 0)).2))
    (List.replicate r2Count 0, 0)).1

/-- The fourth loop of `sortMatrix`: `newIndexes[i] = indexes[_r2Matrix[i]];
indexes[_r2Matrix[i]] += 1`. The state is `(newIndexes, indexes)`. -/
def sortMatrixNewIndexes (rowsCount : Nat) (r2Matrix indexes : List Nat) : List Nat :=
  ((List.range rowsCount).foldl
    (fun (s : List Nat × List Nat) i =>
      (s.1.set i (s.2.getD (r2Matrix.getD i 0) 0),
        s.2.set (r2Matrix.getD i 0) (s.2.getD (r2Matrix.getD i 0) 0 + 1)))
    (List.replicate rowsCount 0, indexes)).1

/-- The last loop of `sortMatrix` for one of the three arrays: element `i` of the old
array is written at position `newIndexes[i]` of a new array of `rowsCount` elements. -/
def sortMatrixMove {α : Type} (rowsCount : Nat) (newIndexes : List Nat) (old : List α)
    (dflt : α) : List α :=
  (List.range rowsCount).foldl
    (fun acc i => acc.set (newIndexes.getD i 0) (old.getD i dflt))
    (List.replicate rowsCount dflt)

/-- The array `newIndexes` that `sortMatrix` computes for `m`, `sort` being the
behaviour of `std::sort`. -/
def InputMatrix.newIndexes (sort : List (Nat × Nat) → List (Nat × Nat)) (m : InputMatrix) :
    List Nat :=
  sortMatrixNewIndexes m._rowsCount m._r2Matrix
    (sortMatrixIndexes m._r2Count
      (sort (sortMatrixTuples m._r2Count (sortMatrixCounts m._rowsCount m._r2Count m._r2Matrix))))

/-- The function `InputMatrix::sortMatrix`, `sort` being the behaviour of `std::sort`:
feature rows, label rows and class ids move to their new positions. -/
def InputMatrix.sortMatrix (sort : List (Nat × Nat) → List (Nat × Nat)) (m : InputMatrix) :
    InputMatrix :=
  { m with
    _qMatrix := sortMatrixMove m._rowsCount (m.newIndexes sort) m._qMatrix []
    _rMatrix := sortMatrixMove m._rowsCount (m.newIndexes sort) m._rMatrix []
    _r2Matrix := sortMatrixMove m._rowsCount (m.newIndexes sort) m._r2Matrix 0 }

/-- The state of the loop of `calcR2Indexes`. -/
structure R2IndexesState where
  newId : Nat
  startIndex : Nat
  currentId : Nat
  r2Indexes : List Nat
  r2Counts : List Nat
  r2Matrix : List Nat
  deriving DecidableEq, Repr

/-- One iteration of the loop of `calcR2Indexes`, for row `i`. -/
def calcR2IndexesStep (s : R2IndexesState) (i : Nat) : R2IndexesState :=
  if s.r2Matrix.getD i 0 ≠ s.currentId then
    { newId := s.newId + 1
      startIndex := i
      currentId := s.r2Matrix.getD i 0
      r2Indexes := s.r2Indexes ++ [i]
      r2Counts := s.r2Counts ++ [i - s.startIndex]
      r2Matrix := s.r2Matrix.set i (s.newId + 1) }
  else { s with r2Matrix := s.r2Matrix.set i s.newId }

/-- The function `InputMatrix::calcR2Indexes`. On an empty dataset the C++ reads
`_r2Matrix[0]` past the end of the array; the embedding reads `0` there. -/
def InputMatrix.calcR2Indexes (m : InputMatrix) : InputMatrix :=
  let s := (List.range m._rowsCount).foldl calcR2IndexesStep
    { newId := 0, startIndex := 0, currentId := m._r2Matrix.getD 0 0,
      r2Indexes := m._r2Indexes ++ [0], r2Counts := m._r2Counts, r2Matrix := m._r2Matrix }
  { m with
    _r2Matrix := s.r2Matrix
    _r2Indexes := s.r2Indexes
    _r2Counts := s.r2Counts ++ [m._rowsCount - s.startIndex] }

/-- The constructor `InputMatrix::InputMatrix(datafile)`, `sort` being the behaviour of
`std::sort`: copy the dataset, then `calcR2Matrix`, `sortMatrix`, `calcR2Indexes`. -/
def InputMatrix.create (sort : List (Nat × Nat) → List (Nat × Nat)) (d : DataFile) :
    InputMatrix :=
  InputMatrix.calcR2Indexes (InputMatrix.sortMatrix sort (InputMatrix.calcR2Matrix
    { _rowsCount := d.learningSetLen
      _qColsCount := d.featuresLen
      _rColsCount := d.pfeaturesLen
      _qMatrix := d.learningSetFeatures
      _qMinimum := d.rangesMin
      _qMaximum := d.rangesMax
      _rMatrix := d.learningSetPfeatures
      _r2Matrix := List.replicate d.learningSetLen 0
      _r2Count := 0
      _r2Indexes := []
      _r2Counts := [] }))

/-- The accessor `getFeature(row, col)`, i.e. `_qMatrix[row * _qColsCount + col]`. -/
def InputMatrix.getFeature (m : InputMatrix) (row col : Nat) : Int :=
  (m._qMatrix.getD row []).getD col 0

/-- Modelled from the spec: `getFeatureValuesCount` is declared in a header that is not
part of the sources; `valuesCount(k) = max[k] - min[k] + 1`. -/
def InputMatrix.getFeatureValuesCount (m : InputMatrix) (k : Nat) : Int :=
  m._qMaximum.getD k 0 - m._qMinimum.getD k 0 + 1

/-- The values `lo, lo + 1, ..., hi` that a loop `for (i = lo; i <= hi; ++i)` visits. -/
def intRange (lo hi : Int) : List Int :=
  (List.range (hi + 1 - lo).toNat).map fun (t : Nat) => lo + (t : Int)

/-- The first loop of `calcRVector`: the pair `(multiplier1, multiplier2)`. -/
def InputMatrix.calcMultipliers (m : InputMatrix) (row1 row2 : Nat) : Int × Int :=
  (List.range m._qColsCount).foldl
    (fun (s : Int × Int) k =>
      (if m.getFeature row1 k = DASH then s.1 * m.getFeatureValuesCount k else s.1,
        if m.getFeature row2 k = DASH then s.2 * m.getFeatureValuesCount k else s.2))
    (1, 1)

/-- The lambda `calcLimits` of `calcRVector`. -/
def InputMatrix.calcLimits (m : InputMatrix) (row col : Nat) : Int × Int :=
  if m.getFeature row col = DASH then (m._qMinimum.getD col 0, m._qMaximum.getD col 0)
  else (m.getFeature row col, m.getFeature row col)

/-- The value `multiplier` of column `k` in the second loop of `calcRVector`; the C++
`/=` on `int` is the truncating division (the divisor is positive when `max[k] ≥ min[k]`). -/
def InputMatrix.calcMultiplier (m : InputMatrix) (row1 row2 k : Nat) : Int :=
  let multiplier := (m.calcMultipliers row1 row2).1 * (m.calcMultipliers row1 row2).2
  let multiplier :=
    if m.getFeature row1 k = DASH then multiplier.tdiv (m.getFeatureValuesCount k)
    else multiplier
  if m.getFeature row2 k = DASH then multiplier.tdiv (m.getFeatureValuesCount k)
  else multiplier

/-- The function `InputMatrix::calcRVector`: the weight delta `r[0..Q)` of the pair of
rows `row1`, `row2`. -/
def InputMatrix.calcRVector (m : InputMatrix) (row1 row2 : Nat) : List Int :=
  (List.range m._qColsCount).map fun k =>
    (intRange (m.calcLimits row1 k).1 (m.calcLimits row1 k).2).foldl
      (fun acc i =>
        (intRange (m.calcLimits row2 k).1 (m.calcLimits row2 k).2).foldl
          (fun acc j => acc + |i - j| * m.calcMultiplier row1 row2 k) acc)
      0

/-- The function `InputMatrix::processBlock` (built without `ADD_ROW_CONCURRENT`): one
`addRow` per pair of a row of the first range and a row of the second range. -/
def InputMatrix.processBlock (m : InputMatrix) (irredundantMatrix : IrredundantMatrix)
    (offset1 length1 offset2 length2 : Nat) : IrredundantMatrix :=
  (List.range length1).foldl
    (fun acc i =>
      (List.range length2).foldl
        (fun acc j =>
          acc.addRow
            (Row.createAsDifference (m._qMatrix.getD (offset1 + i) [])
              (m._qMatrix.getD (offset2 + j) []))
            (m.calcRVector (offset1 + i) (offset2 + j)))
        acc)
    irredundantMatrix

/-- The sequential `InputMatrix::calculate` (built without `MULTITHREAD` and without
`DIFFERENT_MATRICES`): `processBlock` for every pair of classes `i < j`. The bound
`_r2Indexes.size() - 1` is computed on `_r2Indexes` as the constructor leaves it, which
is never empty. -/
def InputMatrix.calculate (m : InputMatrix) (irredundantMatrix : IrredundantMatrix) :
    IrredundantMatrix :=
  (List.range (m._r2Indexes.length - 1)).foldl
    (fun acc i =>
      (List.range' (i + 1) (m._r2Indexes.length - (i + 1))).foldl
        (fun acc j =>
          m.processBlock acc (m._r2Indexes.getD i 0) (m._r2Counts.getD i 0)
            (m._r2Indexes.getD j 0) (m._r2Counts.getD j 0))
        acc)
    irredundantMatrix

/-- A conforming `std::sort` for `sortMatrix`: insertion sort by descending count. -/
def insertionSortDesc (l : List (Nat × Nat)) : List (Nat × Nat) :=
  l.insertionSort fun a b => a.2 ≥ b.2

/-! ## The weight delta as the specification defines it -/

/-- Specification side: `range(row, k)` is `[min[k], max[k]]` if `row[k] = DASH` and
`[row[k], row[k]]` otherwise. -/
def specRange (m : InputMatrix) (row k : Nat) : Finset Int :=
  if m.getFeature row k = DASH then Finset.Icc (m._qMinimum.getD k 0) (m._qMaximum.getD k 0)
  else Finset.Icc (m.getFeature row k) (m.getFeature row k)

/-- Specification side: the product of `valuesCount(c)` over the columns `c ≠ k` in
which `row` holds `DASH`. -/
def specDashProduct (m : InputMatrix) (row k : Nat) : Int :=
  ∏ c in (Finset.range m._qColsCount).filter (fun c => c ≠ k ∧ m.getFeature row c = DASH),
    m.getFeatureValuesCount c

/-- Specification side: `w[k] = scale_k * Σ_{i ∈ range(row1,k)} Σ_{j ∈ range(row2,k)} |i - j|`
with `scale_k` the product of the two products over the other `DASH` columns. -/
def specWeight (m : InputMatrix) (row1 row2 k : Nat) : Int :=
  (specDashProduct m row1 k * specDashProduct m row2 k) *
    ∑ i in specRange m row1 k, ∑ j in specRange m row2 k, |i - j|

/-! ## Loop invariants of the partitioner -/

/-- The invariant of the loop of `calcR2Matrix` before iteration `i`, over the label rows
`labels` of a dataset of `n` rows. -/
structure R2MatrixInv (labels : List (List Int)) (n i : Nat) (s : R2MatrixState) : Prop where
  length_eq : s.r2Matrix.length = n
  mapped : ∀ j < i, s.mappings.lookup (labels.getD j []) = some (s.r2Matrix.getD j 0)
  mapping_from : ∀ key id, s.mappings.lookup key = some id →
    ∃ j < i, labels.getD j [] = key ∧ s.r2Matrix.getD j 0 = id
  id_lt : ∀ j < i, s.r2Matrix.getD j 0 < s.currentId
  id_used : ∀ c < s.currentId, ∃ j < i, s.r2Matrix.getD j 0 = c
  first_seen : ∀ j < i, ∀ c < s.r2Matrix.getD j 0, ∃ k < j, s.r2Matrix.getD k 0 = c
  same_id_iff : ∀ j k, j < i → k < i →
    (s.r2Matrix.getD j 0 = s.r2Matrix.getD k 0 ↔ labels.getD j [] = labels.getD k [])

/-- The number of rows `j < i` whose class id in `ids` is `c`. -/
def occ (ids : List Nat) (c i : Nat) : Nat :=
  ((List.range i).filter fun j => ids.getD j 0 = c).length

/-- The sum of the sizes of the first `p` entries of `sortedCounts`. -/
def prefixSum (sc : List (Nat × Nat)) (p : Nat) : Nat :=
  ((sc.take p).map Prod.snd).sum

/-- What the later loops of `sortMatrix` use of the sorted array `sc` of
`(class id, size)` pairs, for class ids `ids` of `n` rows and `C` classes. -/
structure SortedCountsSpec (ids : List Nat) (n C : Nat) (sc : List (Nat × Nat)) : Prop where
  length_eq : sc.length = C
  id_lt : ∀ p < C, (sc.getD p (0, 0)).1 < C
  size_eq : ∀ p < C, (sc.getD p (0, 0)).2 = occ ids (sc.getD p (0, 0)).1 n
  id_inj : ∀ p q, p < C → q < C → (sc.getD p (0, 0)).1 = (sc.getD q (0, 0)).1 → p = q
  id_surj : ∀ c < C, ∃ p < C, (sc.getD p (0, 0)).1 = c
  sorted : ∀ p q, p ≤ q → q < C → (sc.getD q (0, 0)).2 ≤ (sc.getD p (0, 0)).2
  total : prefixSum sc C = n
  size_pos : ∀ p < C, 1 ≤ (sc.getD p (0, 0)).2

/-- What the rest of the program uses of the map `σ` from old to new row positions
(`σ j = newIndexes[j]`). -/
structure NewIndexesSpec (ids : List Nat) (n C : Nat) (sc : List (Nat × Nat)) (σ : Nat → Nat) :
    Prop where
  in_block : ∀ j < n, ∃ p < C, (sc.getD p (0, 0)).1 = ids.getD j 0 ∧
    σ j = prefixSum sc p + occ ids (ids.getD j 0) j ∧ σ j < prefixSum sc (p + 1)
  lt : ∀ j < n, σ j < n
  inj : ∀ j k, j < n → k < n → σ j = σ k → j = k
  surj : ∀ q < n, ∃ j < n, σ j = q

/-- The invariant of the loop of `calcR2Indexes` before iteration `i`, when the array `A`
of `n` class ids it starts from holds the classes of `sc` block after block. -/
structure R2IndexesInv (A : List Nat) (n C : Nat) (sc : List (Nat × Nat)) (i : Nat)
    (s : R2IndexesState) : Prop where
  newId_lt : s.newId < C
  block_le : prefixSum sc s.newId ≤ i
  le_block : i ≤ prefixSum sc (s.newId + 1)
  currentId_eq : s.currentId = (sc.getD s.newId (0, 0)).1
  startIndex_eq : s.startIndex = prefixSum sc s.newId
  r2Indexes_eq : s.r2Indexes = (List.range (s.newId + 1)).map (prefixSum sc)
  r2Counts_eq : s.r2Counts = (sc.take s.newId).map Prod.snd
  length_eq : s.r2Matrix.length = n
  rest_eq : ∀ q, i ≤ q → s.r2Matrix.getD q 0 = A.getD q 0
  renumbered : ∀ q < i, s.r2Matrix.getD q 0 < C ∧ prefixSum sc (s.r2Matrix.getD q 0) ≤ q ∧
    q < prefixSum sc (s.r2Matrix.getD q 0 + 1)

/-- What the constructor of `InputMatrix` establishes for the dataset `d`: `ids` are the
first-seen class ids of the input rows (`C` of them), `sc` is the sorted array of
`(class id, size)` pairs, `σ` maps the input position of a row to its position in the
reordered storage of `m`. -/
structure PartitionSpec (d : DataFile) (m : InputMatrix) (ids : List Nat) (C : Nat)
    (sc : List (Nat × Nat)) (σ : Nat → Nat) : Prop where
  rowsCount_eq : m._rowsCount = d.learningSetLen
  qColsCount_eq : m._qColsCount = d.featuresLen
  qMinimum_eq : m._qMinimum = d.rangesMin
  qMaximum_eq : m._qMaximum = d.rangesMax
  ids_lt : ∀ j < d.learningSetLen, ids.getD j 0 < C
  ids_used : ∀ c < C, ∃ j < d.learningSetLen, ids.getD j 0 = c
  first_seen : ∀ j < d.learningSetLen, ∀ c < ids.getD j 0, ∃ k < j, ids.getD k 0 = c
  same_id_iff : ∀ j k, j < d.learningSetLen → k < d.learningSetLen →
    (ids.getD j 0 = ids.getD k 0 ↔
      d.learningSetPfeatures.getD j [] = d.learningSetPfeatures.getD k [])
  sorted_counts : SortedCountsSpec ids d.learningSetLen C sc
  new_indexes : NewIndexesSpec ids d.learningSetLen C sc σ
  qMatrix_length : m._qMatrix.length = d.learningSetLen
  rMatrix_length : m._rMatrix.length = d.learningSetLen
  r2Matrix_length : m._r2Matrix.length = d.learningSetLen
  qMatrix_moved : ∀ j < d.learningSetLen,
    m._qMatrix.getD (σ j) [] = d.learningSetFeatures.getD j []
  rMatrix_moved : ∀ j < d.learningSetLen,
    m._rMatrix.getD (σ j) [] = d.learningSetPfeatures.getD j []
  r2Indexes_eq : m._r2Indexes = (List.range C).map (prefixSum sc)
  r2Counts_eq : m._r2Counts = sc.map Prod.snd
  renumbered : ∀ q < d.learningSetLen, m._r2Matrix.getD q 0 < C ∧
    prefixSum sc (m._r2Matrix.getD q 0) ≤ q ∧ q < prefixSum sc (m._r2Matrix.getD q 0 + 1)

/-! ## The order of classes of equal size -/

/-- A sort that keeps the relative order of the entries of equal size, which
`std::sort` does not promise (`std::stable_sort` does). -/
def IsStableSort (sort : List (Nat × Nat) → List (Nat × Nat)) : Prop :=
  ∀ l k, (sort l).filter (fun a => a.2 = k) = l.filter (fun a => a.2 = k)

/-- Another conforming `std::sort` for `sortMatrix`: it sorts by descending count but
leaves entries of equal count in the reverse of their input order. -/
def reverseInsertionSortDesc (l : List (Nat × Nat)) : List (Nat × Nat) :=
  insertionSortDesc l.reverse

/-- Specification side: ties are broken by first appearance. Whenever the rows stored at
positions `p` and `q` after partitioning belong to classes of equal size and the label
vector of `p` appears in the input before every occurrence of the label vector of `q`,
the class of `p` has the smaller class id and the smaller offset. -/
def FirstAppearanceTieBreak (sort : List (Nat × Nat) → List (Nat × Nat)) (d : DataFile) : Prop :=
  ∀ p q, p < d.learningSetLen → q < d.learningSetLen →
    (InputMatrix.create sort d)._r2Counts.getD ((InputMatrix.create sort d)._r2Matrix.getD p 0) 0
      = (InputMatrix.create sort d)._r2Counts.getD
          ((InputMatrix.create sort d)._r2Matrix.getD q 0) 0 →
    (∃ j0 < d.learningSetLen,
      d.learningSetPfeatures.getD j0 [] = (InputMatrix.create sort d)._rMatrix.getD p [] ∧
      ∀ i < d.learningSetLen,
        d.learningSetPfeatures.getD i [] = (InputMatrix.create sort d)._rMatrix.getD q [] →
          j0 < i) →
    (InputMatrix.create sort d)._r2Matrix.getD p 0
        < (InputMatrix.create sort d)._r2Matrix.getD q 0 ∧
      (InputMatrix.create sort d)._r2Indexes.getD
          ((InputMatrix.create sort d)._r2Matrix.getD p 0) 0
        < (InputMatrix.create sort d)._r2Indexes.getD
          ((InputMatrix.create sort d)._r2Matrix.getD q 0) 0

/-! ## The sequence of `addRow` calls of `calculate` -/

/-- The `addRow` calls that `processBlock` makes, in order: the difference row and the
weight delta of every pair of a row of the first range and a row of the second. -/
def InputMatrix.blockCalls (m : InputMatrix) (offset1 length1 offset2 length2 : Nat) :
    List (Row × List Int) :=
  (List.range length1).flatMap fun i =>
    (List.range length2).map fun j =>
      (Row.createAsDifference (m._qMatrix.getD (offset1 + i) []) (m._qMatrix.getD (offset2 + j) []),
        m.calcRVector (offset1 + i) (offset2 + j))

/-- The `addRow` calls that the sequential `calculate` makes, in order. -/
def InputMatrix.calculateCalls (m : InputMatrix) : List (Row × List Int) :=
  (List.range (m._r2Indexes.length - 1)).flatMap fun i =>
    (List.range' (i + 1) (m._r2Indexes.length - (i + 1))).flatMap fun j =>
      m.blockCalls (m._r2Indexes.getD i 0) (m._r2Counts.getD i 0)
        (m._r2Indexes.getD j 0) (m._r2Counts.getD j 0)

/-- Specification side: `x` is the difference of the feature rows of two training rows
of `d` with different label vectors. -/
def IsDifference (d : DataFile) (x : Row) : Prop :=
  ∃ j k, j < d.learningSetLen ∧ k < d.learningSetLen ∧
    d.learningSetPfeatures.getD j [] ≠ d.learningSetPfeatures.getD k [] ∧
    x = Row.createAsDifference (d.learningSetFeatures.getD j []) (d.learningSetFeatures.getD k [])

/-- A dataset of `n` rows with one feature column and pairwise different label vectors
`[0]`, `[1]`, ..., so that every row is a class of its own. -/
def singletonClasses (n : Nat) : DataFile :=
  { learningSetLen := n, featuresLen := 1, pfeaturesLen := 1
    learningSetFeatures := List.replicate n [1]
    learningSetPfeatures := (List.range n).map fun (i : Nat) => [(i : Int)]
    rangesMin := [1], rangesMax := [2] }


/-! ## Folding one accumulator into another (`irredundant_matrix.cpp`) -/

/-- The function `IrredundantMatrix::addMatrixConcurrent` (mutex variant) as one thread
runs it: `_r[i] += matrix._r[i]` for `i < _width`, then `addRowInternal` for every row of
`matrix._rows` from `begin()` to `end()`. -/
def IrredundantMatrix.addMatrixConcurrent (m matrix : IrredundantMatrix) : IrredundantMatrix :=
  matrix._rows.foldl IrredundantMatrix.addRowInternal
    ((List.range m._width).foldl
      (fun acc i => { acc with _r := acc._r.set i (acc._r.getD i 0 + matrix._r.getD i 0) }) m)

/-- The function `IrredundantMatrix::clear` (mutex variant): `_r[i] = 0` for `i < _width`,
then `_rows.clear()`. -/
def IrredundantMatrix.clear (m : IrredundantMatrix) : IrredundantMatrix :=
  { ((List.range m._width).foldl (fun acc i => { acc with _r := acc._r.set i 0 }) m) with
    _rows := [] }

/-- The body of the inner loop of the sequential `InputMatrix::calculate` built with
`DIFFERENT_MATRICES`, for the pair of classes `i`, `j`: the private accumulator
`matrixForThread` is cleared and filled by `processBlock`, then folded into
`irredundantMatrix` by `addMatrixConcurrent`. The state is the pair
`(matrixForThread, irredundantMatrix)`. -/
def InputMatrix.differentMatricesStep (m : InputMatrix)
    (s : IrredundantMatrix × IrredundantMatrix) (i j : Nat) :
    IrredundantMatrix × IrredundantMatrix :=
  (m.processBlock s.1.clear (m._r2Indexes.getD i 0) (m._r2Counts.getD i 0)
      (m._r2Indexes.getD j 0) (m._r2Counts.getD j 0),
    s.2.addMatrixConcurrent
      (m.processBlock s.1.clear (m._r2Indexes.getD i 0) (m._r2Counts.getD i 0)
        (m._r2Indexes.getD j 0) (m._r2Counts.getD j 0)))

/-- The sequential `InputMatrix::calculate` built with `DIFFERENT_MATRICES`:
`matrixForThread` starts as a fresh accumulator of the feature width, and the loop body
runs for every pair of classes `i < j`. -/
def InputMatrix.calculateDifferentMatrices (m : InputMatrix)
    (irredundantMatrix : IrredundantMatrix) : IrredundantMatrix :=
  ((List.range (m._r2Indexes.length - 1)).foldl
    (fun (s : IrredundantMatrix × IrredundantMatrix) i =>
      (List.range' (i + 1) (m._r2Indexes.length - (i + 1))).foldl
        (fun (s : IrredundantMatrix × IrredundantMatrix) j => m.differentMatricesStep s i j) s)
    (IrredundantMatrix.create m._qColsCount, irredundantMatrix)).2

/-- The pairs of classes `(i, j)`, `i < j`, in the order in which the two loops of
`calculate` visit them. -/
def InputMatrix.classPairs (m : InputMatrix) : List (Nat × Nat) :=
  (List.range (m._r2Indexes.length - 1)).flatMap fun i =>
    (List.range' (i + 1) (m._r2Indexes.length - (i + 1))).map fun j => (i, j)

/-- The invariant of the loops of `calculate` built with `DIFFERENT_MATRICES`, after the
`addRow` calls `P` have been made on private accumulators: the shared accumulator holds
the sum of their weight deltas and an antichain of their rows that covers them all. -/
structure DifferentMatricesInv (Q : Nat) (s : IrredundantMatrix × IrredundantMatrix)
    (P : List (Row × List Int)) : Prop where
  private_length : s.1._r.length = s.1._width
  private_width : s.1._width = Q
  shared_inv : AccInv s.2
  shared_width : s.2._width = Q
  shared_length : s.2._r.length = Q
  weights : ∀ k < Q, s.2._r.getD k 0 = (P.map fun c => c.2.getD k 0).sum
  stored_from : ∀ x ∈ s.2._rows, x ∈ P.map Prod.fst
  covered : ∀ p ∈ P.map Prod.fst, ∃ x ∈ s.2._rows, Row.isInclude x p = true

/-! ## The weight arithmetic on 32-bit `int` -/

/-- The value a 32-bit `int` holds after an operation whose mathematical result is `x`:
the two's-complement wrap-around (signed overflow is undefined in C++; the usual
compilers produce this value). -/
def wrapInt32 (x : Int) : Int :=
  (x + 2147483648) % 4294967296 - 2147483648

/-- The helper `getFeatureValuesCount` (see `InputMatrix.getFeatureValuesCount`) on
32-bit `int`. -/
def InputMatrix.getFeatureValuesCount32 (m : InputMatrix) (k : Nat) : Int :=
  wrapInt32 (wrapInt32 (m._qMaximum.getD k 0 - m._qMinimum.getD k 0) + 1)

/-- The first loop of `calcRVector` on 32-bit `int`: `multiplier1 *= ...`,
`multiplier2 *= ...`, every product wrapped. Nothing in the loop tests for overflow. -/
def InputMatrix.calcMultipliers32 (m : InputMatrix) (row1 row2 : Nat) : Int × Int :=
  (List.range m._qColsCount).foldl
    (fun (s : Int × Int) k =>
      (if m.getFeature row1 k = DASH then wrapInt32 (s.1 * m.getFeatureValuesCount32 k) else s.1,
        if m.getFeature row2 k = DASH then wrapInt32 (s.2 * m.getFeatureValuesCount32 k) else s.2))
    (1, 1)

/-- The operation `a /= b` on 32-bit `int`: the truncating division. There is no value
when `b` is zero or when the quotient is not an `int` (the smallest `int` divided by
`-1`): C++ leaves these divisions undefined and the usual machines trap. -/
def divInt32 (a b : Int) : Option Int :=
  if b = 0 ∨ (a = -2147483648 ∧ b = -1) then none else some (wrapInt32 (a.tdiv b))

/-- The value `multiplier` of column `k` in the second loop of `calcRVector` on 32-bit
`int`: the wrapped product `multiplier1 * multiplier2`, divided by the value count once
for each of the two rows that holds `DASH` in column `k`. -/
def InputMatrix.calcMultiplier32 (m : InputMatrix) (row1 row2 k : Nat) : Option Int :=
  (if m.getFeature row1 k = DASH then
      divInt32 (wrapInt32 ((m.calcMultipliers32 row1 row2).1 * (m.calcMultipliers32 row1 row2).2))
        (m.getFeatureValuesCount32 k)
    else some (wrapInt32 ((m.calcMultipliers32 row1 row2).1 * (m.calcMultipliers32 row1 row2).2))).bind
    fun multiplier =>
      if m.getFeature row2 k = DASH then divInt32 multiplier (m.getFeatureValuesCount32 k)
      else some multiplier

/-- A loop `for (auto i = lo; i <= hi; ++i) body` whose counter is a 32-bit `int`, entered
with the counter at `i` and the state `s`: the increment wraps like every other
operation, so the test `i <= hi` never fails when `hi` is the largest `int`. The loop has
no bound of its own: `fuel` is the number of iterations the embedding follows, and the
result is `none` when the loop is still running after them, or when the body has no
result. -/
def forLoop32 {σ : Type} (hi : Int) (body : σ → Int → Option σ) : Nat → Int → σ → Option σ
  | 0, i, s => if i ≤ hi then none else some s
  | fuel + 1, i, s =>
    if i ≤ hi then
      match body s i with
      | none => none
      | some s2 => forLoop32 hi body fuel (wrapInt32 (i + 1)) s2
    else some s

/-- The value that the second loop of `calcRVector` leaves in `r[k]` on 32-bit `int`:
from `r[k] = 0`, the two nested loops over the limits of the two rows run
`r[k] += std::abs(i - j) * multiplier` with every operation wrapped. Each loop is followed
for `fuel` iterations. -/
def InputMatrix.calcRColumn32 (m : InputMatrix) (fuel row1 row2 k : Nat) : Option Int :=
  match m.calcMultiplier32 row1 row2 k with
  | none => none
  | some multiplier =>
    forLoop32 (m.calcLimits row1 k).2
      (fun acc i =>
        forLoop32 (m.calcLimits row2 k).2
          (fun acc j =>
            some (wrapInt32 (acc + wrapInt32 (wrapInt32 |wrapInt32 (i - j)| * multiplier))))
          fuel (m.calcLimits row2 k).1 acc)
      fuel (m.calcLimits row1 k).1 0

/-- The values of a sequence of computations run one after the other: no result as soon
as one of them has none. -/
def collectResults {α : Type} : List (Option α) → Option (List α)
  | [] => some []
  | none :: _ => none
  | some a :: rest =>
    match collectResults rest with
    | none => none
    | some l => some (a :: l)

/-- The function `InputMatrix::calcRVector` on 32-bit `int`, every loop over values
followed for `fuel` iterations: the array `r`, column after column, or `none` when the
function does not return it (a loop that does not end, a division without a value).
Nothing in the function tests for overflow, and it has no error exit. -/
def InputMatrix.calcRVector32 (m : InputMatrix) (fuel row1 row2 : Nat) : Option (List Int) :=
  collectResults ((List.range m._qColsCount).map fun k => m.calcRColumn32 fuel row1 row2 k)

/-- The function `IrredundantMatrix::addRow` on 32-bit `int`: `_r[i] += r[i]` wrapped,
then `addRowInternal`. The function has no error exit. -/
def IrredundantMatrix.addRow32 (m : IrredundantMatrix) (row : Row) (r : List Int) :
    IrredundantMatrix :=
  IrredundantMatrix.addRowInternal
    ((List.range m._width).foldl
      (fun acc i => { acc with _r := acc._r.set i (wrapInt32 (acc._r.getD i 0 + r.getD i 0)) }) m)
    row

/-- An input matrix of two rows and one feature column whose range is the single value
`2147483647`, the largest 32-bit `int`, both rows holding `DASH` in it. -/
def largestIntColumn : InputMatrix :=
  { _rowsCount := 2, _qColsCount := 1, _rColsCount := 1
    _qMatrix := [[DASH], [DASH]]
    _qMinimum := [2147483647], _qMaximum := [2147483647]
    _rMatrix := [[0], [1]], _r2Matrix := [0, 1], _r2Count := 2
    _r2Indexes := [0, 1], _r2Counts := [1, 1] }

/-! ## The bisection planner (`fast_plan.cpp`) -/

/-- The fields of `FastPlan`: the class sizes `_counts` and the two arrays of class ids
`_indexes` and `_lastIndexes`. -/
structure FastPlan where
  _counts : List Nat
  _indexes : List Nat
  _lastIndexes : List Nat
  deriving DecidableEq, Repr

/-- The constructor `FastPlan::FastPlan(counts, len)`: both arrays get `len` elements and
`_indexes[i] = i`. -/
def FastPlan.create (counts : List Nat) (len : Nat) : FastPlan :=
  { _counts := counts
    _indexes := (List.range len).foldl (fun idx i => idx.set i i) (List.replicate len 0)
    _lastIndexes := List.replicate len 0 }

/-- The state of the second loop of `FindNextStep`. -/
structure FindNextStepState where
  sum1 : Nat
  index1 : Nat
  sum2 : Nat
  index2 : Nat
  indexes : List Nat
  deriving DecidableEq, Repr

/-- One iteration of the second loop of `FindNextStep`, for position `i`. -/
def findNextStepBody (counts lastIndexes : List Nat) (endIdx : Nat) (s : FindNextStepState)
    (i : Nat) : FindNextStepState :=
  if s.sum1 ≤ s.sum2 ∨ s.index2 = endIdx + 1 then
    { s with
      sum1 := s.sum1 + counts.getD (lastIndexes.getD i 0) 0
      indexes := s.indexes.set s.index1 (lastIndexes.getD i 0)
      index1 := s.index1 + 1 }
  else
    { s with
      sum2 := s.sum2 + counts.getD (lastIndexes.getD i 0) 0
      indexes := s.indexes.set s.index2 (lastIndexes.getD i 0)
      index2 := s.index2 + 1 }

/-- The function `FastPlan::FindNextStep(begin, end)`, called with `begin ≤ end`: the
segment is copied to `_lastIndexes`, then its class ids are dealt to the positions from
`begin` on or from `median + 1` on. The result is the returned `median` and the plan
afterwards. -/
def FastPlan.FindNextStep (p : FastPlan) (begin endIdx : Nat) : Nat × FastPlan :=
  let median := begin + (endIdx - begin) / 2
  let lastIndexes := (List.range' begin (endIdx + 1 - begin)).foldl
    (fun last i => last.set i (p._indexes.getD i 0)) p._lastIndexes
  let s := (List.range' begin (endIdx + 1 - begin)).foldl
    (findNextStepBody p._counts lastIndexes endIdx)
    { sum1 := 0, index1 := begin, sum2 := 0, index2 := median + 1, indexes := p._indexes }
  (median, { p with _indexes := s.indexes, _lastIndexes := lastIndexes })

/-! ## The vector storage variant (`IRREDUNTANT_VECTOR`) -/

/-- The `while (i < _rows.size())` loop of the vector `addRowInternal`, run from index `i`
on the vector `rows`. The loop has no bound of its own: `fuel` is the number of
iterations the embedding follows, and the result is `none` when the loop is still running
after them. Otherwise the result is the flag "the function returned from inside the loop
because a stored row includes `row`" and the vector as the loop leaves it. A row included
by `row` is overwritten by the last row of the vector, unless it is the last row itself,
then `pop_back` drops the last row; the index is not advanced. -/
def vectorScan (row : Row) : Nat → List Row → Nat → Option (Bool × List Row)
  | 0, rows, i => if i < rows.length then none else some (false, rows)
  | fuel + 1, rows, i =>
    if i < rows.length then
      if Row.isInclude (rows.getD i []) row then some (true, rows)
      else if Row.isInclude row (rows.getD i []) then
        vectorScan row fuel
          (if i ≠ rows.length - 1 then (rows.set i (rows.getD (rows.length - 1) [])).dropLast
            else rows.dropLast)
          i
      else vectorScan row fuel rows (i + 1)
    else some (false, rows)

/-- The function `IrredundantMatrix::addRowInternal` of the vector variant: the loop from
index `0`, then `push_back` when the loop ran to the end of the vector. The loop is
followed for `_rows.size()` iterations, which is as many as it can make (every iteration
advances the index or shrinks the vector). -/
def IrredundantMatrix.addRowInternalVector (m : IrredundantMatrix) (row : Row) :
    Option IrredundantMatrix :=
  match vectorScan row m._rows.length m._rows 0 with
  | none => none
  | some (true, rows) => some { m with _rows := rows }
  | some (false, rows) => some { m with _rows := rows ++ [row] }

/-- The flag "the vector `addRowInternal` returned without storing `row`". -/
def IrredundantMatrix.discardsVector (m : IrredundantMatrix) (row : Row) : Bool :=
  match vectorScan row m._rows.length m._rows 0 with
  | some (true, _) => true
  | _ => false

/-- A sequence of calls of the vector `addRowInternal`, one per row of `rows`. -/
def IrredundantMatrix.addRowsVector : IrredundantMatrix → List Row → Option IrredundantMatrix
  | m, [] => some m
  | m, row :: rest =>
    match m.addRowInternalVector row with
    | none => none
    | some m1 => IrredundantMatrix.addRowsVector m1 rest

/-! ## The fine-grained variant (`USE_LOCAL_LOCK`) run by one thread -/

/-- Modelled from the spec: the node type `IrredundantRowNode` of the variant built with
`USE_LOCAL_LOCK` is declared in a header that is not part of the sources; a node holds the
row `data`, the `age`, the `next` link and the spin lock flag `sync`. The links are the
order of the list of nodes; `addr` is the address of the node, by which pointers to nodes
compare. The flag `sync` is left out: in a run by one thread every flag is clear when the
thread comes to set it (a new node is taken to start with a clear flag). -/
structure IrredundantRowNode where
  addr : Nat
  data : Row
  age : Int
  deriving DecidableEq, Repr

/-- The accumulator of the variant built with `USE_LOCAL_LOCK`: `_headAge` is `_head.age`
and `_nodes` is the chain `_head.next`, `_head.next->next`, ... up to the null pointer. -/
structure LocalLock.IrredundantMatrix where
  _width : Nat
  _r : List Int
  _headAge : Int
  _nodes : List IrredundantRowNode
  deriving DecidableEq, Repr

/-- The constructor of the variant built with `USE_LOCAL_LOCK`. The initial value of
`_head.age` is set in the header that is not part of the sources, so it is the parameter
`age0`; the list is empty. -/
def LocalLock.IrredundantMatrix.create (width : Nat) (age0 : Int) :
    LocalLock.IrredundantMatrix :=
  { _width := width, _r := List.replicate width 0, _headAge := age0, _nodes := [] }

/-- The pointer to the first node of a chain: `none` is the null pointer. -/
def LocalLock.firstAddr (nodes : List IrredundantRowNode) : Option Nat :=
  nodes.head?.map IrredundantRowNode.addr

/-- The inner `for (;;)` of the fine-grained `addRowInternal`, from a node `prev` whose
successors are the given chain, run by one thread (every `test_and_set` succeeds at
once). The result is the flag "the function returned because a stored row includes `row`"
and the successors of `prev` afterwards. The loop stops at the end of the chain and at a
node of age below `ageBoundMin`; a node whose row `row` includes is unlinked and deleted
and `prev` stays; past any other node `prev` advances. -/
def LocalLock.traverse (row : Row) (ageBoundMin : Int) :
    List IrredundantRowNode → Bool × List IrredundantRowNode
  | [] => (false, [])
  | current :: rest =>
    if current.age < ageBoundMin then (false, current :: rest)
    else if Row.isInclude current.data row then (true, current :: rest)
    else if Row.isInclude row current.data then LocalLock.traverse row ageBoundMin rest
    else ((LocalLock.traverse row ageBoundMin rest).1,
      current :: (LocalLock.traverse row ageBoundMin rest).2)

/-- The outer `for (;;)` of the fine-grained `addRowInternal`, run by one thread, entered
with the given `ageBoundMin`. Every pass reads `start = _head.next` and
`ageBoundMax = _head.age`, traverses, and then either appends the new node (when
`_head.next == start`) or retries with `ageBoundMin = ageBoundMax`. `alloc` is the
behaviour of `new`: the address it returns, given the addresses of the nodes of the list.
The loop has no bound of its own: `fuel` is the number of passes the embedding follows,
and the result is `none` when the function has not returned after them. Otherwise the
result is the accumulator afterwards and the values that `ageBoundMin` had in the passes
made, in order. -/
def LocalLock.addRowInternalLoop (alloc : List Nat → Nat) (row : Row) :
    Nat → Int → LocalLock.IrredundantMatrix → Option (LocalLock.IrredundantMatrix × List Int)
  | 0, _, _ => none
  | fuel + 1, ageBoundMin, m =>
    if (LocalLock.traverse row ageBoundMin m._nodes).1 then
      some ({ m with _nodes := (LocalLock.traverse row ageBoundMin m._nodes).2 }, [ageBoundMin])
    else if LocalLock.firstAddr (LocalLock.traverse row ageBoundMin m._nodes).2
        = LocalLock.firstAddr m._nodes then
      some ({ m with
          _headAge := m._headAge + 1
          _nodes :=
            { addr := alloc ((LocalLock.traverse row ageBoundMin m._nodes).2.map
                IrredundantRowNode.addr)
              data := row
              age := m._headAge + 1 } :: (LocalLock.traverse row ageBoundMin m._nodes).2 },
        [ageBoundMin])
    else
      (LocalLock.addRowInternalLoop alloc row fuel m._headAge
        { m with _nodes := (LocalLock.traverse row ageBoundMin m._nodes).2 }).map
        fun res => (res.1, ageBoundMin :: res.2)

/-- The function `IrredundantMatrix::addRowInternal` of the variant built with
`USE_LOCAL_LOCK`, run by one thread: the outer loop entered with `ageBoundMin = 0`. -/
def LocalLock.IrredundantMatrix.addRowInternal (alloc : List Nat → Nat) (fuel : Nat)
    (m : LocalLock.IrredundantMatrix) (row : Row) :
    Option (LocalLock.IrredundantMatrix × List Int) :=
  LocalLock.addRowInternalLoop alloc row fuel 0 m

/-- A sequence of calls of the fine-grained `addRowInternal` by one thread, one per row
of `rows`. -/
def LocalLock.addRows (alloc : List Nat → Nat) (fuel : Nat) :
    LocalLock.IrredundantMatrix → List Row → Option LocalLock.IrredundantMatrix
  | m, [] => some m
  | m, row :: rest =>
    match LocalLock.IrredundantMatrix.addRowInternal alloc fuel m row with
    | none => none
    | some res => LocalLock.addRows alloc fuel res.1 rest

/-- What `new` promises: the address of the new node is the address of no node of the
list. -/
def IsAllocator (alloc : List Nat → Nat) : Prop :=
  ∀ live, alloc live ∉ live

/-- An allocator that never reuses an address: one past the largest address in use. -/
def bumpAllocator (live : List Nat) : Nat :=
  live.foldl max 0 + 1

/-- The shape of the list of the fine-grained variant between two calls: the nodes have
distinct addresses, the ages fall strictly from the head on, are positive and are at
most `_head.age`, which is not negative. -/
structure LocalLock.WellFormed (m : LocalLock.IrredundantMatrix) : Prop where
  addr_nodup : (m._nodes.map IrredundantRowNode.addr).Nodup
  age_sorted : m._nodes.Pairwise fun a b => b.age < a.age
  age_pos : ∀ n ∈ m._nodes, 0 < n.age
  age_le : ∀ n ∈ m._nodes, n.age ≤ m._headAge
  head_age_nonneg : 0 ≤ m._headAge

/-- The dataset as the constructor of `InputMatrix` copies it, before `calcR2Matrix`. -/
def InputMatrix.load (d : DataFile) : InputMatrix :=
  { _rowsCount := d.learningSetLen
    _qColsCount := d.featuresLen
    _rColsCount := d.pfeaturesLen
    _qMatrix := d.learningSetFeatures
    _qMinimum := d.rangesMin
    _qMaximum := d.rangesMax
    _rMatrix := d.learningSetPfeatures
    _r2Matrix := List.replicate d.learningSetLen 0
    _r2Count := 0
    _r2Indexes := []
    _r2Counts := [] }

/-! ## Inclusion of rows -/

theorem Row.isInclude_cons (x y : Int) (a b : Row) :
    Row.isInclude (x :: a) (y :: b) = ((x == DASH || x == y) && Row.isInclude a b) := by
  simp [Row.isInclude]

theorem Row.isInclude_refl (a : Row) : Row.isInclude a a = true := by
  induction a with
  | nil => rfl
  | cons x a ih => simp [Row.isInclude_cons, ih]

theorem Row.isInclude_trans : ∀ (a b c : Row), a.length = b.length → b.length = c.length →
    Row.isInclude a b = true → Row.isInclude b c = true → Row.isInclude a c = true
  | [], _, _, _, _, _, _ => by simp [Row.isInclude]
  | _ :: _, [], _, h, _, _, _ => by simp at h
  | _ :: _, _ :: _, [], _, h, _, _ => by simp at h
  | x :: a, y :: b, z :: c, hab, hbc, h1, h2 => by
    simp only [Row.isInclude_cons, Bool.and_eq_true, Bool.or_eq_true, beq_iff_eq] at h1 h2 ⊢
    simp only [List.length_cons, Nat.add_right_cancel_iff] at hab hbc
    refine ⟨?_, Row.isInclude_trans a b c hab hbc h1.2 h2.2⟩
    rcases h1.1 with h | h
    · exact Or.inl h
    · subst h
      exact h2.1

theorem Row.isInclude_antisymm : ∀ (a b : Row), a.length = b.length →
    Row.isInclude a b = true → Row.isInclude b a = true → a = b
  | [], [], _, _, _ => rfl
  | [], _ :: _, h, _, _ => by simp at h
  | _ :: _, [], h, _, _ => by simp at h
  | x :: a, y :: b, hab, h1, h2 => by
    simp only [Row.isInclude_cons, Bool.and_eq_true, Bool.or_eq_true, beq_iff_eq] at h1 h2
    simp only [List.length_cons, Nat.add_right_cancel_iff] at hab
    have ht := Row.isInclude_antisymm a b hab h1.2 h2.2
    subst ht
    have hx : x = y := by
      rcases h1.1 with h | h
      · rcases h2.1 with h3 | h3
        · rw [h, h3]
        · exact h3.symm
      · exact h
    rw [hx]

/-! ## The dominance filter -/

theorem pairwise_mem_cases {α : Type} {R : α → α → Prop} {l : List α} (h : l.Pairwise R)
    {a b : α} (ha : a ∈ l) (hb : b ∈ l) : a = b ∨ R a b ∨ R b a := by
  induction h with
  | nil => simp at ha
  | cons hx _ ih =>
    rcases List.mem_cons.1 ha with rfl | ha1
    · rcases List.mem_cons.1 hb with rfl | hb1
      · exact Or.inl rfl
      · exact Or.inr (Or.inl (hx _ hb1))
    · rcases List.mem_cons.1 hb with rfl | hb1
      · exact Or.inr (Or.inr (hx _ ha1))
      · exact ih ha1 hb1

theorem addRowScan_of_not_dominated (row : Row) (rows : List Row)
    (h : ∀ r ∈ rows, Row.isInclude r row = false) :
    addRowScan row rows = (true, rows.filter fun r => !Row.isInclude row r) := by
  induction rows with
  | nil => rfl
  | cons r rest ih =>
    have hr : Row.isInclude r row = false := h r (List.mem_cons_self _ _)
    have ih1 := ih fun x hx => h x (List.mem_cons_of_mem _ hx)
    by_cases hc : Row.isInclude row r = true
    · simp [addRowScan, hr, hc, ih1]
    · simp [addRowScan, hr, hc, ih1]

theorem addRowScan_of_dominated (row : Row) (rows : List Row)
    (hd : ∃ r ∈ rows, Row.isInclude r row = true)
    (hc : ∀ r ∈ rows, Row.isInclude row r = true → Row.isInclude r row = true) :
    addRowScan row rows = (false, rows) := by
  induction rows with
  | nil => simp at hd
  | cons r rest ih =>
    by_cases hr : Row.isInclude r row = true
    · simp [addRowScan, hr]
    · have hr2 : ¬ Row.isInclude row r = true := fun h2 => hr (hc r (List.mem_cons_self _ _) h2)
      have hd1 : ∃ x ∈ rest, Row.isInclude x row = true := by
        obtain ⟨x, hx, hxi⟩ := hd
        rcases List.mem_cons.1 hx with rfl | hx1
        · exact absurd hxi hr
        · exact ⟨x, hx1, hxi⟩
      have ih1 := ih hd1 fun x hx => hc x (List.mem_cons_of_mem _ hx)
      simp [addRowScan, hr, hr2, ih1]

/-- In a state that satisfies the invariant, a candidate that some stored row includes
includes no stored row other than one that includes it back. -/
theorem dominated_includes_back (Q : Nat) (rows : List Row) (row : Row)
    (hw : ∀ r ∈ rows, r.length = Q) (hn : NoDominance rows) (hrow : row.length = Q)
    (hd : ∃ r ∈ rows, Row.isInclude r row = true) :
    ∀ r ∈ rows, Row.isInclude row r = true → Row.isInclude r row = true := by
  intro r1 hr1 h1
  obtain ⟨r, hr, hi⟩ := hd
  have ht : Row.isInclude r r1 = true :=
    Row.isInclude_trans r row r1 (by rw [hw r hr, hrow]) (by rw [hrow, hw r1 hr1]) hi h1
  rcases pairwise_mem_cases hn hr hr1 with heq | h2 | h2
  · rw [← heq]; exact hi
  · rw [h2.1] at ht; exact absurd ht (by simp)
  · rw [h2.2] at ht; exact absurd ht (by simp)

theorem addRowInternal_rows_of_dominated (m : IrredundantMatrix) (row : Row)
    (hinv : AccInv m) (hrow : row.length = m._width)
    (hd : ∃ r ∈ m._rows, Row.isInclude r row = true) :
    (m.addRowInternal row)._rows = m._rows := by
  have hs := addRowScan_of_dominated row m._rows hd
    (dominated_includes_back m._width m._rows row hinv.1 hinv.2 hrow hd)
  simp [IrredundantMatrix.addRowInternal, hs]

theorem addRowInternal_rows_of_not_dominated (m : IrredundantMatrix) (row : Row)
    (hd : ∀ r ∈ m._rows, Row.isInclude r row = false) :
    (m.addRowInternal row)._rows = row :: m._rows.filter fun r => !Row.isInclude row r := by
  have hs := addRowScan_of_not_dominated row m._rows hd
  simp [IrredundantMatrix.addRowInternal, hs]

theorem addRowInternal_width (m : IrredundantMatrix) (row : Row) :
    (m.addRowInternal row)._width = m._width := by
  unfold IrredundantMatrix.addRowInternal
  split <;> rfl

theorem addRowInternal_r (m : IrredundantMatrix) (row : Row) :
    (m.addRowInternal row)._r = m._r := by
  unfold IrredundantMatrix.addRowInternal
  split <;> rfl

theorem dominated_or_not (row : Row) (rows : List Row) :
    (∃ r ∈ rows, Row.isInclude r row = true) ∨ (∀ r ∈ rows, Row.isInclude r row = false) := by
  by_cases h : ∃ r ∈ rows, Row.isInclude r row = true
  · exact Or.inl h
  · refine Or.inr fun r hr => ?_
    by_contra hc
    exact h ⟨r, hr, by simpa using hc⟩

theorem addRowInternal_inv (m : IrredundantMatrix) (row : Row)
    (hinv : AccInv m) (hrow : row.length = m._width) : AccInv (m.addRowInternal row) := by
  rcases dominated_or_not row m._rows with hd | hd
  · constructor
    · rw [addRowInternal_rows_of_dominated m row hinv hrow hd, addRowInternal_width]
      exact hinv.1
    · rw [addRowInternal_rows_of_dominated m row hinv hrow hd]
      exact hinv.2
  · constructor
    · rw [addRowInternal_rows_of_not_dominated m row hd, addRowInternal_width]
      intro r hr
      rcases List.mem_cons.1 hr with rfl | hr1
      · exact hrow
      · exact hinv.1 r (List.mem_filter.1 hr1).1
    · rw [addRowInternal_rows_of_not_dominated m row hd]
      refine List.Pairwise.cons ?_ (List.Pairwise.sublist (List.filter_sublist _) hinv.2)
      intro r hr
      have hf := List.mem_filter.1 hr
      exact ⟨by simpa using hf.2, hd r hf.1⟩

theorem addWeights_fields (r : List Int) (l : List Nat) (m : IrredundantMatrix) :
    (l.foldl (fun acc i => { acc with _r := acc._r.set i (acc._r.getD i 0 + r.getD i 0) }) m)._rows
      = m._rows ∧
    (l.foldl (fun acc i => { acc with _r := acc._r.set i (acc._r.getD i 0 + r.getD i 0) }) m)._width
      = m._width := by
  induction l generalizing m with
  | nil => exact ⟨rfl, rfl⟩
  | cons i l ih =>
    simp only [List.foldl_cons]
    exact ih _

theorem addRow_rows (m : IrredundantMatrix) (row : Row) (r : List Int) :
    (m.addRow row r)._rows = (m.addRowInternal row)._rows := by
  unfold IrredundantMatrix.addRow
  have h := (addWeights_fields r (List.range m._width) m).1
  simp only [IrredundantMatrix.addRowInternal, h]
  split <;> rfl

theorem addRow_width (m : IrredundantMatrix) (row : Row) (r : List Int) :
    (m.addRow row r)._width = m._width := by
  unfold IrredundantMatrix.addRow
  rw [addRowInternal_width]
  exact (addWeights_fields r (List.range m._width) m).2

theorem addRow_inv (m : IrredundantMatrix) (row : Row) (r : List Int)
    (hinv : AccInv m) (hrow : row.length = m._width) : AccInv (m.addRow row r) := by
  have h := addRowInternal_inv m row hinv hrow
  unfold AccInv at h ⊢
  rw [addRow_rows, addRow_width]
  rw [addRowInternal_width] at h
  exact h

theorem create_inv (width : Nat) : AccInv (IrredundantMatrix.create width) := by
  constructor
  · intro r hr
    simp [IrredundantMatrix.create] at hr
  · exact List.Pairwise.nil

theorem reachable_inv (m : IrredundantMatrix) (h : Reachable m) : AccInv m := by
  induction h with
  | empty width => exact create_inv width
  | addRow m row r _ hrow ih => exact addRow_inv m row r ih hrow
  | addRowInternal m row _ hrow ih => exact addRowInternal_inv m row ih hrow
theorem foldl_addRow_inv (calls : List (Row × List Int)) (m : IrredundantMatrix)
    (hinv : AccInv m) (hw : ∀ c ∈ calls, c.1.length = m._width) :
    AccInv (calls.foldl (fun acc c => acc.addRow c.1 c.2) m) := by
  induction calls generalizing m with
  | nil => exact hinv
  | cons c calls ih =>
    simp only [List.foldl_cons]
    apply ih
    · exact addRow_inv m c.1 c.2 hinv (hw c (List.mem_cons_self _ _))
    · intro d hd
      rw [addRow_width]
      exact hw d (List.mem_cons_of_mem _ hd)

/-- C1. No-dominance invariant: after any sequence of `addRow` calls on an empty
accumulator, with rows of the accumulator's width, no stored row includes a stored row
at another position of the row collection. -/
theorem no_dominance_after_addRow_calls (width : Nat) (calls : List (Row × List Int))
    (hw : ∀ c ∈ calls, c.1.length = width) (i j : Nat)
    (hi : i < (calls.foldl (fun acc c => acc.addRow c.1 c.2)
      (IrredundantMatrix.create width))._rows.length)
    (hj : j < (calls.foldl (fun acc c => acc.addRow c.1 c.2)
      (IrredundantMatrix.create width))._rows.length)
    (hij : i ≠ j) :
    Row.isInclude
      ((calls.foldl (fun acc c => acc.addRow c.1 c.2) (IrredundantMatrix.create width))._rows[i])
      ((calls.foldl (fun acc c => acc.addRow c.1 c.2) (IrredundantMatrix.create width))._rows[j])
      = false := by
  have hinv := foldl_addRow_inv calls (IrredundantMatrix.create width) (create_inv width) hw
  have hp := List.pairwise_iff_getElem.1 hinv.2
  rcases Nat.lt_or_gt_of_ne hij with h | h
  · exact (hp i j hi hj h).1
  · exact (hp j i hj hi h).2

theorem no_dominance_after_addRow_calls_witness :
    Row.isInclude
      (([(([DASH, 1] : Row), ([1, 0] : List Int)), ([1, DASH], [0, 1]), ([1, 1], [2, 2])].foldl
        (fun acc c => acc.addRow c.1 c.2) (IrredundantMatrix.create 2))._rows[0])
      (([(([DASH, 1] : Row), ([1, 0] : List Int)), ([1, DASH], [0, 1]), ([1, 1], [2, 2])].foldl
        (fun acc c => acc.addRow c.1 c.2) (IrredundantMatrix.create 2))._rows[1])
      = false :=
  no_dominance_after_addRow_calls 2 [([DASH, 1], [1, 0]), ([1, DASH], [0, 1]), ([1, 1], [2, 2])]
    (by decide) 0 1 (by decide) (by decide) (by decide)
theorem noDominance_nodup (rows : List Row) (h : NoDominance rows) : rows.Nodup := by
  refine List.Pairwise.imp ?_ h
  intro a b hab heq
  subst heq
  rw [Row.isInclude_refl] at hab
  exact absurd hab.1 (by simp)

theorem addRowInternal_stored_or_dominated (m : IrredundantMatrix) (row : Row)
    (hinv : AccInv m) (hrow : row.length = m._width) :
    ∃ r ∈ (m.addRowInternal row)._rows, Row.isInclude r row = true := by
  rcases dominated_or_not row m._rows with hd | hd
  · rw [addRowInternal_rows_of_dominated m row hinv hrow hd]
    exact hd
  · rw [addRowInternal_rows_of_not_dominated m row hd]
    exact ⟨row, List.mem_cons_self _ _, Row.isInclude_refl row⟩

/-- C9. Inserting a dominated row is a no-op: in a state reached from the empty
accumulator by insertions, a candidate (of the accumulator's width) that some stored
row includes, in particular one equal to a stored row, leaves the row collection
unchanged; so inserting a row twice gives the same rows as inserting it once. -/
theorem insert_dominated_is_noop (m : IrredundantMatrix) (row : Row)
    (hm : Reachable m) (hrow : row.length = m._width) :
    ((∃ r ∈ m._rows, Row.isInclude r row = true) → (m.addRowInternal row)._rows = m._rows) ∧
    (row ∈ m._rows → (m.addRowInternal row)._rows = m._rows) ∧
    ((m.addRowInternal row).addRowInternal row)._rows = (m.addRowInternal row)._rows := by
  have hinv := reachable_inv m hm
  refine ⟨addRowInternal_rows_of_dominated m row hinv hrow, ?_, ?_⟩
  · intro hmem
    exact addRowInternal_rows_of_dominated m row hinv hrow ⟨row, hmem, Row.isInclude_refl row⟩
  · have hinv1 := addRowInternal_inv m row hinv hrow
    have hrow1 : row.length = (m.addRowInternal row)._width := by
      rw [addRowInternal_width]; exact hrow
    exact addRowInternal_rows_of_dominated _ row hinv1 hrow1
      (addRowInternal_stored_or_dominated m row hinv hrow)

theorem insert_dominated_is_noop_witness :
    ((∃ r ∈ ((IrredundantMatrix.create 2).addRow [DASH, 1] [1, 2])._rows,
        Row.isInclude r [1, 1] = true) →
      (((IrredundantMatrix.create 2).addRow [DASH, 1] [1, 2]).addRowInternal [1, 1])._rows
        = ((IrredundantMatrix.create 2).addRow [DASH, 1] [1, 2])._rows) ∧
    (([1, 1] : Row) ∈ ((IrredundantMatrix.create 2).addRow [DASH, 1] [1, 2])._rows →
      (((IrredundantMatrix.create 2).addRow [DASH, 1] [1, 2]).addRowInternal [1, 1])._rows
        = ((IrredundantMatrix.create 2).addRow [DASH, 1] [1, 2])._rows) ∧
    ((((IrredundantMatrix.create 2).addRow [DASH, 1] [1, 2]).addRowInternal
        [1, 1]).addRowInternal [1, 1])._rows
      = (((IrredundantMatrix.create 2).addRow [DASH, 1] [1, 2]).addRowInternal [1, 1])._rows :=
  insert_dominated_is_noop ((IrredundantMatrix.create 2).addRow [DASH, 1] [1, 2]) [1, 1]
    (Reachable.addRow _ _ _ (Reachable.empty 2) (by decide)) (by decide)

/-- C10. Inserting a dominating row removes exactly the dominated rows: in a state
reached from the empty accumulator by insertions, after inserting a candidate (of the
accumulator's width) that includes at least one stored row, the stored rows are the
candidate together with the previously stored rows that the candidate does not include,
each once. -/
theorem insert_dominating_removes_dominated (m : IrredundantMatrix) (row : Row)
    (hm : Reachable m) (hrow : row.length = m._width)
    (hinc : ∃ r ∈ m._rows, Row.isInclude row r = true) :
    (m.addRowInternal row)._rows.Perm (row :: m._rows.filter fun r => !Row.isInclude row r) ∧
    ∀ x, x ∈ (m.addRowInternal row)._rows ↔
      x = row ∨ (x ∈ m._rows ∧ Row.isInclude row x = false) := by
  have hinv := reachable_inv m hm
  have hperm : (m.addRowInternal row)._rows.Perm
      (row :: m._rows.filter fun r => !Row.isInclude row r) := by
    rcases dominated_or_not row m._rows with hd | hd
    · rw [addRowInternal_rows_of_dominated m row hinv hrow hd]
      obtain ⟨r0, hr0, h0⟩ := hinc
      have hback := dominated_includes_back m._width m._rows row hinv.1 hinv.2 hrow hd r0 hr0 h0
      have heq : row = r0 :=
        Row.isInclude_antisymm row r0 (by rw [hrow, hinv.1 r0 hr0]) h0 hback
      subst heq
      have hnd := noDominance_nodup _ hinv.2
      refine (List.perm_ext_iff_of_nodup hnd ?_).2 ?_
      · refine List.nodup_cons.2 ⟨?_, hnd.filter _⟩
        intro hmem
        have h2 := (List.mem_filter.1 hmem).2
        simp [Row.isInclude_refl] at h2
      · intro x
        simp only [List.mem_cons, List.mem_filter, Bool.not_eq_true', Bool.not_eq_eq_eq_not,
          Bool.not_true]
        constructor
        · intro hx
          rcases pairwise_mem_cases hinv.2 hr0 hx with h | h | h
          · exact Or.inl h.symm
          · exact Or.inr ⟨hx, h.1⟩
          · exact Or.inr ⟨hx, h.2⟩
        · rintro (h | h)
          · rw [h]; exact hr0
          · exact h.1
    · rw [addRowInternal_rows_of_not_dominated m row hd]
  refine ⟨hperm, fun x => ?_⟩
  rw [hperm.mem_iff]
  simp [List.mem_filter]

theorem insert_dominating_removes_dominated_witness :
    ((((IrredundantMatrix.create 2).addRowInternal [1, 1]).addRowInternal
        [2, 2]).addRowInternal [DASH, 1])._rows.Perm
      ([DASH, 1] :: (((IrredundantMatrix.create 2).addRowInternal [1, 1]).addRowInternal
        [2, 2])._rows.filter fun r => !Row.isInclude [DASH, 1] r) ∧
    ∀ x, x ∈ ((((IrredundantMatrix.create 2).addRowInternal [1, 1]).addRowInternal
        [2, 2]).addRowInternal [DASH, 1])._rows ↔
      x = [DASH, 1] ∨ (x ∈ (((IrredundantMatrix.create 2).addRowInternal [1, 1]).addRowInternal
        [2, 2])._rows ∧ Row.isInclude [DASH, 1] x = false) :=
  insert_dominating_removes_dominated
    (((IrredundantMatrix.create 2).addRowInternal [1, 1]).addRowInternal [2, 2]) [DASH, 1]
    (Reachable.addRowInternal _ _ (Reachable.addRowInternal _ _ (Reachable.empty 2) (by decide))
      (by decide))
    (by decide) ⟨[1, 1], by decide, by decide⟩
/-- One insertion keeps "the stored rows are rows of the input seen so far and every
input row seen so far is included by a stored row". -/
theorem addRowInternal_covers (m : IrredundantMatrix) (P : List Row) (row : Row)
    (hinv : AccInv m) (hrow : row.length = m._width) (hP : ∀ p ∈ P, p.length = m._width)
    (hsub : ∀ s ∈ m._rows, s ∈ P)
    (hcov : ∀ p ∈ P, ∃ s ∈ m._rows, Row.isInclude s p = true) :
    (∀ s ∈ (m.addRowInternal row)._rows, s ∈ P ++ [row]) ∧
    (∀ p ∈ P ++ [row], ∃ s ∈ (m.addRowInternal row)._rows, Row.isInclude s p = true) := by
  rcases dominated_or_not row m._rows with hd | hd
  · rw [addRowInternal_rows_of_dominated m row hinv hrow hd]
    refine ⟨fun s hs => List.mem_append_left _ (hsub s hs), fun p hp => ?_⟩
    rcases List.mem_append.1 hp with h | h
    · exact hcov p h
    · rw [List.mem_singleton.1 h]; exact hd
  · rw [addRowInternal_rows_of_not_dominated m row hd]
    constructor
    · intro s hs
      rcases List.mem_cons.1 hs with h | h
      · rw [h]; simp
      · exact List.mem_append_left _ (hsub s (List.mem_filter.1 h).1)
    · intro p hp
      rcases List.mem_append.1 hp with h | h
      · obtain ⟨s, hs, hsp⟩ := hcov p h
        by_cases hrs : Row.isInclude row s = true
        · refine ⟨row, List.mem_cons_self _ _, ?_⟩
          exact Row.isInclude_trans row s p (by rw [hrow, hinv.1 s hs])
            (by rw [hinv.1 s hs, hP p h]) hrs hsp
        · exact ⟨s, List.mem_cons_of_mem _ (List.mem_filter.2 ⟨hs, by simpa using hrs⟩), hsp⟩
      · rw [List.mem_singleton.1 h]
        exact ⟨row, List.mem_cons_self _ _, Row.isInclude_refl row⟩

theorem foldl_addRowInternal_covers (rows : List Row) (m : IrredundantMatrix) (P : List Row)
    (hinv : AccInv m) (hrows : ∀ r ∈ rows, r.length = m._width)
    (hP : ∀ p ∈ P, p.length = m._width) (hsub : ∀ s ∈ m._rows, s ∈ P)
    (hcov : ∀ p ∈ P, ∃ s ∈ m._rows, Row.isInclude s p = true) :
    AccInv (rows.foldl IrredundantMatrix.addRowInternal m) ∧
    (rows.foldl IrredundantMatrix.addRowInternal m)._width = m._width ∧
    (∀ s ∈ (rows.foldl IrredundantMatrix.addRowInternal m)._rows, s ∈ P ++ rows) ∧
    (∀ p ∈ P ++ rows,
      ∃ s ∈ (rows.foldl IrredundantMatrix.addRowInternal m)._rows, Row.isInclude s p = true) := by
  induction rows generalizing m P with
  | nil => simpa using ⟨hinv, hsub, hcov⟩
  | cons row rows ih =>
    have hrow : row.length = m._width := hrows row (List.mem_cons_self _ _)
    have h1 := addRowInternal_covers m P row hinv hrow hP hsub hcov
    have hw1 := addRowInternal_width m row
    have h2 := ih (m.addRowInternal row) (P ++ [row]) (addRowInternal_inv m row hinv hrow)
      (fun r hr => by rw [hw1]; exact hrows r (List.mem_cons_of_mem _ hr))
      (fun p hp => by
        rw [hw1]
        rcases List.mem_append.1 hp with h | h
        · exact hP p h
        · rw [List.mem_singleton.1 h]; exact hrow)
      h1.1 h1.2
    simp only [List.foldl_cons]
    rw [List.append_assoc, List.singleton_append, hw1] at h2
    exact h2

/-- An antichain of rows of `P` that covers `P` consists of the rows of `P` that no
different row of `P` includes. -/
theorem stored_iff_undominated (Q : Nat) (S P : List Row)
    (hP : ∀ p ∈ P, p.length = Q) (hn : NoDominance S) (hsub : ∀ s ∈ S, s ∈ P)
    (hcov : ∀ p ∈ P, ∃ s ∈ S, Row.isInclude s p = true) (x : Row) :
    x ∈ S ↔ x ∈ P ∧ ∀ y ∈ P, y ≠ x → Row.isInclude y x = false := by
  constructor
  · intro hx
    refine ⟨hsub x hx, fun y hy hne => ?_⟩
    by_contra hc
    have hyx : Row.isInclude y x = true := by simpa using hc
    obtain ⟨s, hs, hsy⟩ := hcov y hy
    have hsx : Row.isInclude s x = true :=
      Row.isInclude_trans s y x (by rw [hP s (hsub s hs), hP y hy])
        (by rw [hP y hy, hP x (hsub x hx)]) hsy hyx
    rcases pairwise_mem_cases hn hs hx with h | h | h
    · subst h
      exact hne (Row.isInclude_antisymm y s (by rw [hP y hy, hP s (hsub s hs)]) hyx hsy)
    · rw [h.1] at hsx; exact absurd hsx (by simp)
    · rw [h.2] at hsx; exact absurd hsx (by simp)
  · rintro ⟨hx, hmax⟩
    obtain ⟨s, hs, hsx⟩ := hcov x hx
    by_cases hsx2 : s = x
    · rw [← hsx2]; exact hs
    · rw [hmax s (hsub s hs) hsx2] at hsx
      exact absurd hsx (by simp)

theorem insert_all_iff_undominated (Q : Nat) (rows : List Row)
    (hw : ∀ r ∈ rows, r.length = Q) (x : Row) :
    x ∈ (rows.foldl IrredundantMatrix.addRowInternal (IrredundantMatrix.create Q))._rows ↔
      x ∈ rows ∧ ∀ y ∈ rows, y ≠ x → Row.isInclude y x = false := by
  have h := foldl_addRowInternal_covers rows (IrredundantMatrix.create Q) [] (create_inv Q) hw
    (by simp) (by simp [IrredundantMatrix.create]) (by simp)
  rw [List.nil_append] at h
  exact stored_iff_undominated Q _ rows hw h.1.2 h.2.2.1 h.2.2.2 x

/-- C2. Order independence of the filter: inserting the rows of a sequence (all of one
width) one by one into an empty accumulator leaves the same set of stored rows for
every permutation of the sequence, namely the rows of the sequence that no different
row of the sequence includes; and the rows `[DASH,1]`, `[1,1]`, `[DASH,DASH]` leave
exactly `[DASH,DASH]` in each of their six orders. -/
theorem insertion_order_independent (Q : Nat) (rows rows2 : List Row)
    (hw : ∀ r ∈ rows, r.length = Q) (hperm : rows.Perm rows2) :
    (∀ x, x ∈ (rows.foldl IrredundantMatrix.addRowInternal (IrredundantMatrix.create Q))._rows ↔
      x ∈ (rows2.foldl IrredundantMatrix.addRowInternal (IrredundantMatrix.create Q))._rows) ∧
    (∀ x, x ∈ (rows2.foldl IrredundantMatrix.addRowInternal (IrredundantMatrix.create Q))._rows ↔
      x ∈ rows ∧ ∀ y ∈ rows, y ≠ x → Row.isInclude y x = false) ∧
    (∀ p ∈ ([[[DASH, 1], [1, 1], [DASH, DASH]], [[DASH, 1], [DASH, DASH], [1, 1]],
        [[1, 1], [DASH, 1], [DASH, DASH]], [[1, 1], [DASH, DASH], [DASH, 1]],
        [[DASH, DASH], [DASH, 1], [1, 1]], [[DASH, DASH], [1, 1], [DASH, 1]]] : List (List Row)),
      (p.foldl IrredundantMatrix.addRowInternal (IrredundantMatrix.create 2))._rows
        = [[DASH, DASH]]) := by
  have hw2 : ∀ r ∈ rows2, r.length = Q := fun r hr => hw r (hperm.mem_iff.2 hr)
  have h2 : ∀ x, x ∈ (rows2.foldl IrredundantMatrix.addRowInternal
      (IrredundantMatrix.create Q))._rows ↔
      x ∈ rows ∧ ∀ y ∈ rows, y ≠ x → Row.isInclude y x = false := by
    intro x
    rw [insert_all_iff_undominated Q rows2 hw2 x, hperm.mem_iff]
    constructor
    · rintro ⟨h, hmax⟩
      exact ⟨h, fun y hy => hmax y (hperm.mem_iff.1 hy)⟩
    · rintro ⟨h, hmax⟩
      exact ⟨h, fun y hy => hmax y (hperm.mem_iff.2 hy)⟩
  refine ⟨fun x => ?_, h2, by decide⟩
  rw [insert_all_iff_undominated Q rows hw x, h2 x]

theorem insertion_order_independent_witness :
    (∀ x, x ∈ (([[DASH, 1], [1, 1], [DASH, DASH]] : List Row).foldl
        IrredundantMatrix.addRowInternal (IrredundantMatrix.create 2))._rows ↔
      x ∈ (([[1, 1], [DASH, 1], [DASH, DASH]] : List Row).foldl
        IrredundantMatrix.addRowInternal (IrredundantMatrix.create 2))._rows) ∧
    (∀ x, x ∈ (([[1, 1], [DASH, 1], [DASH, DASH]] : List Row).foldl
        IrredundantMatrix.addRowInternal (IrredundantMatrix.create 2))._rows ↔
      x ∈ ([[DASH, 1], [1, 1], [DASH, DASH]] : List Row) ∧
        ∀ y ∈ ([[DASH, 1], [1, 1], [DASH, DASH]] : List Row), y ≠ x →
          Row.isInclude y x = false) ∧
    (∀ p ∈ ([[[DASH, 1], [1, 1], [DASH, DASH]], [[DASH, 1], [DASH, DASH], [1, 1]],
        [[1, 1], [DASH, 1], [DASH, DASH]], [[1, 1], [DASH, DASH], [DASH, 1]],
        [[DASH, DASH], [DASH, 1], [1, 1]], [[DASH, DASH], [1, 1], [DASH, 1]]] : List (List Row)),
      (p.foldl IrredundantMatrix.addRowInternal (IrredundantMatrix.create 2))._rows
        = [[DASH, DASH]]) :=
  insertion_order_independent 2 [[DASH, 1], [1, 1], [DASH, DASH]]
    [[1, 1], [DASH, 1], [DASH, DASH]] (by decide) (List.Perm.swap _ _ _)
/-! ## The weight delta -/

theorem mem_intRange (lo hi x : Int) : x ∈ intRange lo hi ↔ lo ≤ x ∧ x ≤ hi := by
  simp only [intRange, List.mem_map, List.mem_range]
  constructor
  · rintro ⟨t, ht, rfl⟩
    omega
  · rintro ⟨h1, h2⟩
    exact ⟨(x - lo).toNat, by omega, by omega⟩

theorem nodup_intRange (lo hi : Int) : (intRange lo hi).Nodup := by
  unfold intRange
  refine List.Nodup.map ?_ (List.nodup_range _)
  intro a b h
  simpa using h

theorem foldl_add_eq_sum {α : Type} (f : α → Int) (l : List α) (a : Int) :
    l.foldl (fun acc x => acc + f x) a = a + (l.map f).sum := by
  induction l generalizing a with
  | nil => simp
  | cons x l ih => simp [ih, add_assoc]

theorem foldl_intRange (f : Int → Int) (lo hi a : Int) :
    (intRange lo hi).foldl (fun acc x => acc + f x) a = a + ∑ x in Finset.Icc lo hi, f x := by
  have h : ((intRange lo hi).map f).sum = ∑ x in Finset.Icc lo hi, f x := by
    rw [← List.sum_toFinset f (nodup_intRange lo hi)]
    apply Finset.sum_congr _ (fun _ _ => rfl)
    ext x
    simp [mem_intRange]
  rw [foldl_add_eq_sum, h]

theorem calcMultipliers_loop (m : InputMatrix) (row1 row2 n : Nat) :
    (List.range n).foldl
      (fun (s : Int × Int) k =>
        (if m.getFeature row1 k = DASH then s.1 * m.getFeatureValuesCount k else s.1,
          if m.getFeature row2 k = DASH then s.2 * m.getFeatureValuesCount k else s.2))
      (1, 1)
    = (∏ c in (Finset.range n).filter (fun c => m.getFeature row1 c = DASH),
          m.getFeatureValuesCount c,
       ∏ c in (Finset.range n).filter (fun c => m.getFeature row2 c = DASH),
          m.getFeatureValuesCount c) := by
  induction n with
  | zero => simp
  | succ n ih =>
    rw [List.range_succ, List.foldl_append, ih, Finset.range_succ]
    simp only [List.foldl_cons, List.foldl_nil]
    by_cases h1 : m.getFeature row1 n = DASH <;> by_cases h2 : m.getFeature row2 n = DASH <;>
      simp [Finset.filter_insert, h1, h2, mul_comm]

theorem dashProduct_split (m : InputMatrix) (row k : Nat) (hk : k < m._qColsCount) :
    ∏ c in (Finset.range m._qColsCount).filter (fun c => m.getFeature row c = DASH),
        m.getFeatureValuesCount c
      = (if m.getFeature row k = DASH then m.getFeatureValuesCount k else 1) *
        specDashProduct m row k := by
  unfold specDashProduct
  by_cases h : m.getFeature row k = DASH
  · have hmem : k ∈ (Finset.range m._qColsCount).filter (fun c => m.getFeature row c = DASH) := by
      simp [hk, h]
    rw [← Finset.mul_prod_erase _ _ hmem, if_pos h]
    congr 1
    apply Finset.prod_congr _ (fun _ _ => rfl)
    ext c
    simp only [Finset.mem_erase, Finset.mem_filter, Finset.mem_range]
    tauto
  · rw [if_neg h, one_mul]
    apply Finset.prod_congr _ (fun _ _ => rfl)
    ext c
    simp only [Finset.mem_filter, Finset.mem_range]
    constructor
    · rintro ⟨h1, h2⟩
      exact ⟨h1, fun hc => h (hc ▸ h2), h2⟩
    · rintro ⟨h1, _, h2⟩
      exact ⟨h1, h2⟩

theorem valuesCount_pos (m : InputMatrix) (k : Nat)
    (h : m._qMinimum.getD k 0 ≤ m._qMaximum.getD k 0) : 0 < m.getFeatureValuesCount k := by
  unfold InputMatrix.getFeatureValuesCount
  omega

theorem calcMultiplier_eq (m : InputMatrix) (row1 row2 k : Nat)
    (hrange : ∀ c < m._qColsCount, m._qMinimum.getD c 0 ≤ m._qMaximum.getD c 0)
    (hk : k < m._qColsCount) :
    m.calcMultiplier row1 row2 k = specDashProduct m row1 k * specDashProduct m row2 k ∧
    (m.getFeature row1 k = DASH → m.getFeatureValuesCount k ∣
      (m.calcMultipliers row1 row2).1 * (m.calcMultipliers row1 row2).2) ∧
    (m.getFeature row2 k = DASH → m.getFeatureValuesCount k ∣
      (if m.getFeature row1 k = DASH then
        ((m.calcMultipliers row1 row2).1 * (m.calcMultipliers row1 row2).2).tdiv
          (m.getFeatureValuesCount k)
       else (m.calcMultipliers row1 row2).1 * (m.calcMultipliers row1 row2).2)) := by
  have hv : m.getFeatureValuesCount k ≠ 0 := (valuesCount_pos m k (hrange k hk)).ne'
  have hm : m.calcMultipliers row1 row2 =
      ((if m.getFeature row1 k = DASH then m.getFeatureValuesCount k else 1) *
          specDashProduct m row1 k,
       (if m.getFeature row2 k = DASH then m.getFeatureValuesCount k else 1) *
          specDashProduct m row2 k) := by
    unfold InputMatrix.calcMultipliers
    rw [calcMultipliers_loop, dashProduct_split m row1 k hk, dashProduct_split m row2 k hk]
  unfold InputMatrix.calcMultiplier
  rw [hm]
  generalize specDashProduct m row1 k = A
  generalize specDashProduct m row2 k = B
  generalize m.getFeatureValuesCount k = v at hv ⊢
  have e1 : (v * A * B).tdiv v = A * B := by
    rw [mul_assoc]; exact Int.mul_tdiv_cancel_left _ hv
  have e2 : (A * (v * B)).tdiv v = A * B := by
    rw [show A * (v * B) = v * (A * B) by ring]; exact Int.mul_tdiv_cancel_left _ hv
  have e3 : (v * A * (v * B)).tdiv v = v * (A * B) := by
    rw [show v * A * (v * B) = v * (v * (A * B)) by ring]; exact Int.mul_tdiv_cancel_left _ hv
  have e4 : (v * (A * B)).tdiv v = A * B := Int.mul_tdiv_cancel_left _ hv
  by_cases h1 : m.getFeature row1 k = DASH <;> by_cases h2 : m.getFeature row2 k = DASH
  · simp only [h1, h2, if_true, e3, e4, true_implies, true_and]
    exact ⟨⟨v * (A * B), by ring⟩, ⟨A * B, rfl⟩⟩
  · simp only [h1, h2, if_true, if_false, one_mul, e1, true_implies, false_implies, true_and,
      and_true]
    exact ⟨A * B, by ring⟩
  · simp only [h1, h2, if_true, if_false, one_mul, e2, true_implies, false_implies, true_and]
    exact ⟨A * B, by ring⟩
  · simp only [h1, h2, if_false, one_mul, false_implies, and_self]

theorem calcLimits_Icc (m : InputMatrix) (row k : Nat) :
    Finset.Icc (m.calcLimits row k).1 (m.calcLimits row k).2 = specRange m row k := by
  unfold InputMatrix.calcLimits specRange
  split <;> rfl

theorem calcRVector_getD (m : InputMatrix) (row1 row2 k : Nat) (hk : k < m._qColsCount) :
    (m.calcRVector row1 row2).getD k 0 =
      m.calcMultiplier row1 row2 k *
        ∑ i in specRange m row1 k, ∑ j in specRange m row2 k, |i - j| := by
  unfold InputMatrix.calcRVector
  rw [List.getD_eq_getElem?_getD, List.getElem?_map, List.getElem?_range hk]
  simp only [Option.map_some', Option.getD_some]
  have hinner : ∀ (i acc : Int),
      (intRange (m.calcLimits row2 k).1 (m.calcLimits row2 k).2).foldl
          (fun acc j => acc + |i - j| * m.calcMultiplier row1 row2 k) acc
        = acc + (∑ j in specRange m row2 k, |i - j|) * m.calcMultiplier row1 row2 k := by
    intro i acc
    rw [foldl_intRange (fun j => |i - j| * m.calcMultiplier row1 row2 k), calcLimits_Icc,
      Finset.sum_mul]
  simp only [hinner]
  rw [foldl_intRange (fun i => (∑ j in specRange m row2 k, |i - j|) * m.calcMultiplier row1 row2 k),
    calcLimits_Icc, zero_add, ← Finset.sum_mul, mul_comm]

/-- C8. Weight delta equals its definition: when `max[c] ≥ min[c]` in every column,
`calcRVector` writes in column `k` the value
`scale_k * Σ_{i ∈ range(row1,k)} Σ_{j ∈ range(row2,k)} |i - j|`, where `scale_k` is the
product of `valuesCount` over the other `DASH` columns of `row1` times the same product
for `row2`; both divisions by `valuesCount(k)` are exact; and for width 1, range
`[0..2]`, rows `[DASH]` and `[1]` the value is `2`. -/
theorem calcRVector_eq_specWeight (m : InputMatrix) (row1 row2 k : Nat)
    (hrange : ∀ c < m._qColsCount, m._qMinimum.getD c 0 ≤ m._qMaximum.getD c 0)
    (hk : k < m._qColsCount) :
    (m.calcRVector row1 row2).getD k 0 = specWeight m row1 row2 k ∧
    (m.getFeature row1 k = DASH → m.getFeatureValuesCount k ∣
      (m.calcMultipliers row1 row2).1 * (m.calcMultipliers row1 row2).2) ∧
    (m.getFeature row2 k = DASH → m.getFeatureValuesCount k ∣
      (if m.getFeature row1 k = DASH then
        ((m.calcMultipliers row1 row2).1 * (m.calcMultipliers row1 row2).2).tdiv
          (m.getFeatureValuesCount k)
       else (m.calcMultipliers row1 row2).1 * (m.calcMultipliers row1 row2).2)) ∧
    InputMatrix.calcRVector
      { _rowsCount := 2, _qColsCount := 1, _rColsCount := 1, _qMatrix := [[DASH], [1]],
        _qMinimum := [0], _qMaximum := [2], _rMatrix := [[0], [1]], _r2Matrix := [0, 1],
        _r2Count := 2, _r2Indexes := [0, 1], _r2Counts := [1, 1] } 0 1 = [2] := by
  have h := calcMultiplier_eq m row1 row2 k hrange hk
  refine ⟨?_, h.2.1, h.2.2, by decide⟩
  rw [calcRVector_getD m row1 row2 k hk, h.1]
  rfl
/-! ## Loops over `0..n` and array writes -/

/-- The rule for a loop `for (i = 0; i < n; ++i)`: a property that holds before the loop
and is kept by every iteration holds after it. -/
theorem foldl_range_inv {σ : Type} (P : Nat → σ → Prop) (f : σ → Nat → σ) (s0 : σ) (n : Nat)
    (h0 : P 0 s0) (hstep : ∀ i s, i < n → P i s → P (i + 1) (f s i)) :
    P n ((List.range n).foldl f s0) := by
  induction n with
  | zero => simpa using h0
  | succ n ih =>
    rw [List.range_succ, List.foldl_append]
    simp only [List.foldl_cons, List.foldl_nil]
    exact hstep n _ (Nat.lt_succ_self n) (ih fun i s hi => hstep i s (Nat.lt_succ_of_lt hi))

theorem getD_set_self {α : Type} (l : List α) (i : Nat) (a d : α) (h : i < l.length) :
    (l.set i a).getD i d = a := by
  simp [List.getD_eq_getElem?_getD, List.getElem?_set_self h]

theorem getD_set_ne {α : Type} (l : List α) (i j : Nat) (a d : α) (h : i ≠ j) :
    (l.set i a).getD j d = l.getD j d := by
  simp [List.getD_eq_getElem?_getD, List.getElem?_set_ne h]

/-! ## `calcR2Matrix` -/

theorem calcR2MatrixStep_inv (labels : List (List Int)) (n i : Nat) (s : R2MatrixState)
    (hi : i < n) (h : R2MatrixInv labels n i s) :
    R2MatrixInv labels n (i + 1) (calcR2MatrixStep labels s i) := by
  have hil : i < s.r2Matrix.length := by rw [h.length_eq]; exact hi
  unfold calcR2MatrixStep
  cases hlook : s.mappings.lookup (labels.getD i []) with
  | some id =>
    simp only
    obtain ⟨j0, hj0, hkey0, hid0⟩ := h.mapping_from _ _ hlook
    have hold : ∀ j < i, (s.r2Matrix.set i id).getD j 0 = s.r2Matrix.getD j 0 :=
      fun j hj => getD_set_ne _ _ _ _ _ (Nat.ne_of_gt hj)
    have hnew : (s.r2Matrix.set i id).getD i 0 = id := getD_set_self _ _ _ _ hil
    have hval : ∀ j < i + 1, (s.r2Matrix.set i id).getD j 0
        = s.r2Matrix.getD (if j = i then j0 else j) 0 ∧
        labels.getD j [] = labels.getD (if j = i then j0 else j) [] ∧
        (if j = i then j0 else j) < i := by
      intro j hj
      by_cases hji : j = i
      · subst hji
        simp only [if_true]
        exact ⟨by rw [hnew, hid0], hkey0.symm, hj0⟩
      · rw [if_neg hji]
        exact ⟨hold j (by omega), rfl, by omega⟩
    refine ⟨by simpa using h.length_eq, ?_, ?_, ?_, ?_, ?_, ?_⟩
    · intro j hj
      obtain ⟨h1, h2, h3⟩ := hval j hj
      rw [h1, h2]
      exact h.mapped _ h3
    · intro key id2 hk
      obtain ⟨j, hj, hkey, hid⟩ := h.mapping_from key id2 hk
      exact ⟨j, Nat.lt_succ_of_lt hj, hkey, by rw [hold j hj]; exact hid⟩
    · intro j hj
      obtain ⟨h1, _, h3⟩ := hval j hj
      rw [h1]
      exact h.id_lt _ h3
    · intro c hc
      obtain ⟨j, hj, hjc⟩ := h.id_used c hc
      exact ⟨j, Nat.lt_succ_of_lt hj, by rw [hold j hj]; exact hjc⟩
    · intro j hj c hc
      obtain ⟨h1, _, h3⟩ := hval j hj
      rw [h1] at hc
      obtain ⟨k, hk, hkc⟩ := h.first_seen _ h3 c hc
      have hkj : k < j := by
        by_cases hji : j = i
        · simp only [if_pos hji] at hk
          omega
        · simp only [if_neg hji] at hk
          exact hk
      exact ⟨k, hkj, by rw [hold k (by omega)]; exact hkc⟩
    · intro j k hj hk
      obtain ⟨h1, h2, h3⟩ := hval j hj
      obtain ⟨k1, k2, k3⟩ := hval k hk
      rw [h1, h2, k1, k2]
      exact h.same_id_iff _ _ h3 k3
  | none =>
    simp only
    have hold : ∀ j < i, (s.r2Matrix.set i s.currentId).getD j 0 = s.r2Matrix.getD j 0 :=
      fun j hj => getD_set_ne _ _ _ _ _ (Nat.ne_of_gt hj)
    have hnew : (s.r2Matrix.set i s.currentId).getD i 0 = s.currentId :=
      getD_set_self _ _ _ _ hil
    have hkey : ∀ j < i, labels.getD j [] ≠ labels.getD i [] := by
      intro j hj heq
      have := h.mapped j hj
      rw [heq, hlook] at this
      exact absurd this (by simp)
    refine ⟨by simpa using h.length_eq, ?_, ?_, ?_, ?_, ?_, ?_⟩
    · intro j hj
      by_cases hji : j = i
      · subst hji
        rw [hnew]
        simp [List.lookup_cons]
      · have hj1 : j < i := by omega
        rw [hold j hj1, List.lookup_cons]
        have : (labels.getD j [] == labels.getD i []) = false := by
          simpa using hkey j hj1
        rw [this]
        exact h.mapped j hj1
    · intro key id hk
      rw [List.lookup_cons] at hk
      by_cases hke : key = labels.getD i []
      · subst hke
        simp only [beq_self_eq_true, Option.some.injEq] at hk
        exact ⟨i, Nat.lt_succ_self i, rfl, by rw [hnew]; exact hk⟩
      · have : (key == labels.getD i []) = false := by simpa using hke
        rw [this] at hk
        obtain ⟨j, hj, hjk, hid⟩ := h.mapping_from key id hk
        exact ⟨j, Nat.lt_succ_of_lt hj, hjk, by rw [hold j hj]; exact hid⟩
    · intro j hj
      by_cases hji : j = i
      · subst hji
        rw [hnew]
        exact Nat.lt_succ_self _
      · have hj1 : j < i := by omega
        rw [hold j hj1]
        exact Nat.lt_succ_of_lt (h.id_lt j hj1)
    · intro c hc
      have hc1 : c < s.currentId + 1 := hc
      by_cases hcc : c = s.currentId
      · exact ⟨i, Nat.lt_succ_self i, by rw [hnew, hcc]⟩
      · obtain ⟨j, hj, hjc⟩ := h.id_used c (by omega)
        exact ⟨j, Nat.lt_succ_of_lt hj, by rw [hold j hj]; exact hjc⟩
    · intro j hj c hc
      by_cases hji : j = i
      · subst hji
        rw [hnew] at hc
        obtain ⟨k, hk, hkc⟩ := h.id_used c hc
        exact ⟨k, hk, by rw [hold k hk]; exact hkc⟩
      · have hj1 : j < i := by omega
        rw [hold j hj1] at hc
        obtain ⟨k, hk, hkc⟩ := h.first_seen j hj1 c hc
        exact ⟨k, hk, by rw [hold k (by omega)]; exact hkc⟩
    · intro j k hj hk
      by_cases hji : j = i <;> by_cases hki : k = i
      · subst hji; subst hki
        simp
      · subst hji
        have hk1 : k < j := by omega
        rw [hnew, hold k hk1]
        constructor
        · intro he
          have := h.id_lt k hk1
          omega
        · intro he
          exact absurd he.symm (hkey k hk1)
      · subst hki
        have hj1 : j < k := by omega
        rw [hnew, hold j hj1]
        constructor
        · intro he
          have := h.id_lt j hj1
          omega
        · intro he
          exact absurd he (hkey j hj1)
      · have hj1 : j < i := by omega
        have hk1 : k < i := by omega
        rw [hold j hj1, hold k hk1]
        exact h.same_id_iff j k hj1 hk1

theorem calcR2Matrix_loop_inv (labels : List (List Int)) (n : Nat) (r0 : List Nat)
    (hr0 : r0.length = n) :
    R2MatrixInv labels n n ((List.range n).foldl (calcR2MatrixStep labels)
      { currentId := 0, mappings := [], r2Matrix := r0 }) := by
  apply foldl_range_inv (fun i s => R2MatrixInv labels n i s)
  · refine ⟨hr0, ?_, ?_, ?_, ?_, ?_, ?_⟩ <;> intros <;> simp_all
  · intro i s hi h
    exact calcR2MatrixStep_inv labels n i s hi h
/-! ## `sortMatrix` -/

theorem occ_zero (ids : List Nat) (c : Nat) : occ ids c 0 = 0 := rfl

theorem occ_succ (ids : List Nat) (c i : Nat) :
    occ ids c (i + 1) = occ ids c i + (if ids.getD i 0 = c then 1 else 0) := by
  unfold occ
  rw [List.range_succ, List.filter_append, List.length_append]
  congr 1
  by_cases h : ids.getD i 0 = c
  · rw [if_pos h]
    simp only [List.filter_cons, h, decide_True, if_true, List.filter_nil, List.length_singleton]
  · rw [if_neg h]
    simp only [List.filter_cons, h, decide_False, List.filter_nil, List.length_nil]
    rfl

theorem occ_mono (ids : List Nat) (c : Nat) {i j : Nat} (h : i ≤ j) : occ ids c i ≤ occ ids c j := by
  induction h with
  | refl => exact Nat.le_refl _
  | step _ ih => rw [occ_succ]; omega

theorem occ_lt_of_mem (ids : List Nat) (j n : Nat) (h : j < n) :
    occ ids (ids.getD j 0) j < occ ids (ids.getD j 0) n := by
  have h1 := occ_succ ids (ids.getD j 0) j
  rw [if_pos rfl] at h1
  have h2 := occ_mono ids (ids.getD j 0) (show j + 1 ≤ n from h)
  omega

theorem sum_occ (ids : List Nat) (C : Nat) (i : Nat) (h : ∀ j < i, ids.getD j 0 < C) :
    ∑ c in Finset.range C, occ ids c i = i := by
  induction i with
  | zero => simp [occ_zero]
  | succ i ih =>
    simp only [occ_succ, Finset.sum_add_distrib]
    rw [ih fun j hj => h j (Nat.lt_succ_of_lt hj)]
    rw [Finset.sum_ite_eq, if_pos (Finset.mem_range.2 (h i (Nat.lt_succ_self i)))]

theorem sortMatrixCounts_spec (n C : Nat) (ids : List Nat) :
    (sortMatrixCounts n C ids).length = C ∧
    ∀ c, c < C → (sortMatrixCounts n C ids).getD c 0 = occ ids c n := by
  unfold sortMatrixCounts
  apply foldl_range_inv (fun i (counts : List Nat) =>
    counts.length = C ∧ ∀ c, c < C → counts.getD c 0 = occ ids c i)
  · refine ⟨by simp, fun c hc => ?_⟩
    simp [occ_zero, List.getElem?_replicate, hc]
  · rintro i counts hi ⟨hlen, hc⟩
    refine ⟨by simpa using hlen, fun c hcC => ?_⟩
    rw [occ_succ]
    by_cases hic : ids.getD i 0 = c
    · rw [if_pos hic, hic, getD_set_self _ _ _ _ (by rw [hlen]; exact hcC), hc c hcC]
    · rw [if_neg hic, getD_set_ne _ _ _ _ _ hic, hc c hcC, Nat.add_zero]

theorem prefixSum_zero (sc : List (Nat × Nat)) : prefixSum sc 0 = 0 := by
  simp [prefixSum]

theorem prefixSum_succ (sc : List (Nat × Nat)) (p : Nat) (h : p < sc.length) :
    prefixSum sc (p + 1) = prefixSum sc p + (sc.getD p (0, 0)).2 := by
  unfold prefixSum
  rw [List.take_succ, List.map_append, List.sum_append, List.getD_eq_getElem?_getD,
    List.getElem?_eq_getElem h]
  simp

theorem prefixSum_mono (sc : List (Nat × Nat)) {p q : Nat} (h : p ≤ q) (hq : q ≤ sc.length) :
    prefixSum sc p ≤ prefixSum sc q := by
  induction h with
  | refl => exact Nat.le_refl _
  | @step q _ ih =>
    have hq1 : q < sc.length := hq
    rw [prefixSum_succ sc q hq1]
    have := ih (Nat.le_of_lt hq1)
    omega

theorem prefixSum_length (sc : List (Nat × Nat)) :
    prefixSum sc sc.length = (sc.map Prod.snd).sum := by
  simp [prefixSum]

theorem sortMatrixIndexes_spec (C : Nat) (sc : List (Nat × Nat)) (hlen : sc.length = C)
    (hlt : ∀ p < C, (sc.getD p (0, 0)).1 < C)
    (hinj : ∀ p q, p < C → q < C → (sc.getD p (0, 0)).1 = (sc.getD q (0, 0)).1 → p = q) :
    (sortMatrixIndexes C sc).length = C ∧
    ∀ p < C, (sortMatrixIndexes C sc).getD (sc.getD p (0, 0)).1 0 = prefixSum sc p := by
  unfold sortMatrixIndexes
  have h := foldl_range_inv (fun i (s : List Nat × Nat) =>
      s.1.length = C ∧ s.2 = prefixSum sc i ∧
      ∀ p < i, s.1.getD (sc.getD p (0, 0)).1 0 = prefixSum sc p)
    (fun (s : List Nat × Nat) i =>
      (s.1.set (sc.getD i (0, 0)).1 s.2, s.2 + (sc.getD i (0, 0)).2))
    (List.replicate C 0, 0) C
    ⟨by simp, by simp [prefixSum_zero], fun p hp => absurd hp (Nat.not_lt_zero p)⟩
    (by
      rintro i s hi ⟨h1, h2, h3⟩
      refine ⟨by simpa using h1, ?_, fun p hp => ?_⟩
      · simp only
        rw [h2, prefixSum_succ sc i (by rw [hlen]; exact hi)]
      · simp only
        by_cases hpi : p = i
        · subst hpi
          rw [getD_set_self _ _ _ _ (by rw [h1]; exact hlt p hi), h2]
        · have hp1 : p < i := by omega
          have hne : (sc.getD i (0, 0)).1 ≠ (sc.getD p (0, 0)).1 := fun he =>
            hpi (hinj i p hi (by omega) he).symm
          rw [getD_set_ne _ _ _ _ _ hne]
          exact h3 p hp1)
  exact ⟨h.1, h.2.2⟩

theorem sortMatrixNewIndexes_spec (n C : Nat) (ids start : List Nat)
    (hstart : start.length = C) (hids : ∀ j < n, ids.getD j 0 < C) :
    (sortMatrixNewIndexes n ids start).length = n ∧
    ∀ j < n, (sortMatrixNewIndexes n ids start).getD j 0
      = start.getD (ids.getD j 0) 0 + occ ids (ids.getD j 0) j := by
  unfold sortMatrixNewIndexes
  have h := foldl_range_inv (fun i (s : List Nat × List Nat) =>
      s.1.length = n ∧ s.2.length = C ∧
      (∀ c < C, s.2.getD c 0 = start.getD c 0 + occ ids c i) ∧
      ∀ j < i, s.1.getD j 0 = start.getD (ids.getD j 0) 0 + occ ids (ids.getD j 0) j)
    (fun (s : List Nat × List Nat) i =>
      (s.1.set i (s.2.getD (ids.getD i 0) 0),
        s.2.set (ids.getD i 0) (s.2.getD (ids.getD i 0) 0 + 1)))
    (List.replicate n 0, start) n
    ⟨by simp, hstart, fun c _ => by simp [occ_zero], fun j hj => absurd hj (Nat.not_lt_zero j)⟩
    (by
      rintro i s hi ⟨h1, h2, h3, h4⟩
      refine ⟨by simpa using h1, by simpa using h2, fun c hc => ?_, fun j hj => ?_⟩
      · simp only
        rw [occ_succ]
        by_cases hic : ids.getD i 0 = c
        · rw [if_pos hic, hic, getD_set_self _ _ _ _ (by rw [h2]; exact hc), h3 c hc]
          omega
        · rw [if_neg hic, getD_set_ne _ _ _ _ _ hic, h3 c hc, Nat.add_zero]
      · simp only
        by_cases hji : j = i
        · subst hji
          rw [getD_set_self _ _ _ _ (by rw [h1]; exact hi), h3 _ (hids j hi)]
        · rw [getD_set_ne _ _ _ _ _ (Ne.symm hji)]
          exact h4 j (by omega))
  exact ⟨h.1, h.2.2.2⟩

theorem sortMatrixMove_spec {α : Type} (n : Nat) (newIndexes : List Nat) (old : List α) (dflt : α)
    (hlt : ∀ j < n, newIndexes.getD j 0 < n)
    (hinj : ∀ j k, j < n → k < n → newIndexes.getD j 0 = newIndexes.getD k 0 → j = k) :
    (sortMatrixMove n newIndexes old dflt).length = n ∧
    ∀ j < n, (sortMatrixMove n newIndexes old dflt).getD (newIndexes.getD j 0) dflt
      = old.getD j dflt := by
  unfold sortMatrixMove
  apply foldl_range_inv (fun i (acc : List α) =>
    acc.length = n ∧ ∀ j < i, acc.getD (newIndexes.getD j 0) dflt = old.getD j dflt)
  · exact ⟨by simp, fun j hj => absurd hj (Nat.not_lt_zero j)⟩
  · rintro i acc hi ⟨h1, h2⟩
    refine ⟨by simpa using h1, fun j hj => ?_⟩
    by_cases hji : j = i
    · subst hji
      rw [getD_set_self _ _ _ _ (by rw [h1]; exact hlt j hi)]
    · have hne : newIndexes.getD i 0 ≠ newIndexes.getD j 0 := fun he =>
        hji (hinj i j hi (by omega) he).symm
      rw [getD_set_ne _ _ _ _ _ hne]
      exact h2 j (by omega)
theorem sortMatrixTuples_map_fst (C : Nat) (counts : List Nat) :
    (sortMatrixTuples C counts).map Prod.fst = List.range C := by
  unfold sortMatrixTuples
  rw [List.map_map]
  exact List.map_id'' (fun _ => rfl) _

theorem sum_map_range (f : Nat → Nat) (C : Nat) :
    ((List.range C).map f).sum = ∑ c in Finset.range C, f c := by
  induction C with
  | zero => simp
  | succ C ih => rw [List.range_succ, List.map_append, List.sum_append, ih, Finset.sum_range_succ]; simp

theorem sortedCounts_spec (sort : List (Nat × Nat) → List (Nat × Nat)) (hsort : IsStdSort sort)
    (ids : List Nat) (n C : Nat) (hids : ∀ j < n, ids.getD j 0 < C)
    (hused : ∀ c < C, ∃ j < n, ids.getD j 0 = c) :
    SortedCountsSpec ids n C (sort (sortMatrixTuples C (sortMatrixCounts n C ids))) := by
  obtain ⟨hperm, hsorted⟩ := hsort (sortMatrixTuples C (sortMatrixCounts n C ids))
  generalize hsc : sort (sortMatrixTuples C (sortMatrixCounts n C ids)) = sc at hperm hsorted
  have hcounts := sortMatrixCounts_spec n C ids
  have hfst : (sc.map Prod.fst).Perm (List.range C) := by
    rw [← sortMatrixTuples_map_fst C (sortMatrixCounts n C ids)]
    exact hperm.map _
  have hlen : sc.length = C := by
    have := hfst.length_eq
    simpa using this
  have hget : ∀ p, p < C → ∃ h : p < sc.length, sc.getD p (0, 0) = sc[p] := by
    intro p hp
    have h : p < sc.length := by rw [hlen]; exact hp
    exact ⟨h, List.getD_eq_getElem _ _ h⟩
  have hmem : ∀ p < C, sc.getD p (0, 0) ∈ sortMatrixTuples C (sortMatrixCounts n C ids) := by
    intro p hp
    obtain ⟨h, he⟩ := hget p hp
    rw [he]
    exact hperm.mem_iff.1 (List.getElem_mem _)
  have helem : ∀ p < C, (sc.getD p (0, 0)).1 < C ∧
      (sc.getD p (0, 0)).2 = occ ids (sc.getD p (0, 0)).1 n := by
    intro p hp
    have := hmem p hp
    unfold sortMatrixTuples at this
    obtain ⟨i, hi, hie⟩ := List.mem_map.1 this
    rw [← hie]
    have hiC : i < C := List.mem_range.1 hi
    exact ⟨hiC, hcounts.2 i hiC⟩
  have hnodup : (sc.map Prod.fst).Nodup := hfst.nodup_iff.2 (List.nodup_range C)
  refine ⟨hlen, fun p hp => (helem p hp).1, fun p hp => (helem p hp).2, ?_, ?_, ?_, ?_, ?_⟩
  · intro p q hp hq he
    obtain ⟨h1, e1⟩ := hget p hp
    obtain ⟨h2, e2⟩ := hget q hq
    rw [e1, e2] at he
    have h1m : p < (sc.map Prod.fst).length := by simpa using h1
    have h2m : q < (sc.map Prod.fst).length := by simpa using h2
    have : (sc.map Prod.fst)[p] = (sc.map Prod.fst)[q] := by simpa using he
    exact (List.Nodup.getElem_inj_iff hnodup).1 this
  · intro c hc
    have hcm : c ∈ sc.map Prod.fst := hfst.mem_iff.2 (List.mem_range.2 hc)
    obtain ⟨p, hp, hpe⟩ := List.getElem_of_mem hcm
    have hp1 : p < sc.length := by simpa using hp
    refine ⟨p, by rw [← hlen]; exact hp1, ?_⟩
    rw [List.getD_eq_getElem _ _ hp1]
    simpa using hpe
  · intro p q hpq hq
    obtain ⟨h1, e1⟩ := hget p (by omega)
    obtain ⟨h2, e2⟩ := hget q hq
    rw [e1, e2]
    rcases Nat.lt_or_eq_of_le hpq with hlt | heq
    · have := List.pairwise_iff_getElem.1 hsorted p q h1 h2 hlt
      omega
    · subst heq
      exact Nat.le_refl _
  · rw [← hlen, prefixSum_length, (hperm.map Prod.snd).sum_eq]
    unfold sortMatrixTuples
    rw [List.map_map, sum_map_range]
    have : ∀ c ∈ Finset.range C, (Prod.snd ∘ fun i => (i, (sortMatrixCounts n C ids).getD i 0)) c
        = occ ids c n := by
      intro c hc
      exact hcounts.2 c (Finset.mem_range.1 hc)
    rw [Finset.sum_congr rfl this]
    exact sum_occ ids C n hids
  · intro p hp
    rw [(helem p hp).2]
    obtain ⟨j, hj, hjc⟩ := hused _ (helem p hp).1
    have := occ_lt_of_mem ids j n hj
    rw [hjc] at this
    omega

theorem block_unique (sc : List (Nat × Nat)) (p q x : Nat) (hp : p < sc.length)
    (hq : q < sc.length) (h1 : prefixSum sc p ≤ x) (h2 : x < prefixSum sc (p + 1))
    (h3 : prefixSum sc q ≤ x) (h4 : x < prefixSum sc (q + 1)) : p = q := by
  rcases Nat.lt_trichotomy p q with h | h | h
  · have := prefixSum_mono sc (show p + 1 ≤ q from h) (Nat.le_of_lt hq)
    omega
  · exact h
  · have := prefixSum_mono sc (show q + 1 ≤ p from h) (Nat.le_of_lt hp)
    omega
theorem surj_of_inj_lt (n : Nat) (σ : Nat → Nat) (hlt : ∀ j < n, σ j < n)
    (hinj : ∀ j k, j < n → k < n → σ j = σ k → j = k) : ∀ q < n, ∃ j < n, σ j = q := by
  have himg : (Finset.range n).image σ = Finset.range n := by
    apply Finset.eq_of_subset_of_card_le
    · intro x hx
      obtain ⟨j, hj, rfl⟩ := Finset.mem_image.1 hx
      exact Finset.mem_range.2 (hlt j (Finset.mem_range.1 hj))
    · rw [Finset.card_image_of_injOn]
      intro j hj k hk he
      exact hinj j k (Finset.mem_range.1 hj) (Finset.mem_range.1 hk) he
  intro q hq
  have : q ∈ (Finset.range n).image σ := by rw [himg]; exact Finset.mem_range.2 hq
  obtain ⟨j, hj, hje⟩ := Finset.mem_image.1 this
  exact ⟨j, Finset.mem_range.1 hj, hje⟩

theorem newIndexes_spec (ids : List Nat) (n C : Nat) (sc : List (Nat × Nat))
    (hsc : SortedCountsSpec ids n C sc) (hids : ∀ j < n, ids.getD j 0 < C) :
    NewIndexesSpec ids n C sc
      (fun j => (sortMatrixNewIndexes n ids (sortMatrixIndexes C sc)).getD j 0) := by
  have hidx := sortMatrixIndexes_spec C sc hsc.length_eq hsc.id_lt hsc.id_inj
  have hni := sortMatrixNewIndexes_spec n C ids (sortMatrixIndexes C sc) hidx.1 hids
  have hblock : ∀ j < n, ∃ p < C, (sc.getD p (0, 0)).1 = ids.getD j 0 ∧
      (sortMatrixNewIndexes n ids (sortMatrixIndexes C sc)).getD j 0
        = prefixSum sc p + occ ids (ids.getD j 0) j ∧
      (sortMatrixNewIndexes n ids (sortMatrixIndexes C sc)).getD j 0 < prefixSum sc (p + 1) := by
    intro j hj
    obtain ⟨p, hp, hpc⟩ := hsc.id_surj _ (hids j hj)
    have h1 := hni.2 j hj
    rw [← hpc, hidx.2 p hp, hpc] at h1
    refine ⟨p, hp, hpc, h1, ?_⟩
    rw [h1, prefixSum_succ sc p (by rw [hsc.length_eq]; exact hp), hsc.size_eq p hp, hpc]
    have := occ_lt_of_mem ids j n hj
    omega
  have hlt : ∀ j < n, (sortMatrixNewIndexes n ids (sortMatrixIndexes C sc)).getD j 0 < n := by
    intro j hj
    obtain ⟨p, hp, _, _, h2⟩ := hblock j hj
    have := prefixSum_mono sc (show p + 1 ≤ C from hp) (by rw [hsc.length_eq])
    rw [hsc.total] at this
    omega
  have hinj : ∀ j k, j < n → k < n →
      (sortMatrixNewIndexes n ids (sortMatrixIndexes C sc)).getD j 0
        = (sortMatrixNewIndexes n ids (sortMatrixIndexes C sc)).getD k 0 → j = k := by
    intro j k hj hk he
    obtain ⟨p, hp, hpc, h1, h2⟩ := hblock j hj
    obtain ⟨q, hq, hqc, h3, h4⟩ := hblock k hk
    have hpq : p = q := by
      apply block_unique sc p q ((sortMatrixNewIndexes n ids (sortMatrixIndexes C sc)).getD j 0)
        (by rw [hsc.length_eq]; exact hp) (by rw [hsc.length_eq]; exact hq)
      · omega
      · exact h2
      · rw [he]; omega
      · rw [he]; exact h4
    subst hpq
    have hcls : ids.getD j 0 = ids.getD k 0 := by rw [← hpc, ← hqc]
    have hocc : occ ids (ids.getD j 0) j = occ ids (ids.getD j 0) k := by
      rw [hcls] at h1 ⊢
      omega
    rcases Nat.lt_trichotomy j k with h | h | h
    · have := occ_lt_of_mem ids j (j + 1) (Nat.lt_succ_self j)
      have := occ_mono ids (ids.getD j 0) (show j + 1 ≤ k from h)
      omega
    · exact h
    · rw [hcls] at hocc
      have := occ_lt_of_mem ids k (k + 1) (Nat.lt_succ_self k)
      have := occ_mono ids (ids.getD k 0) (show k + 1 ≤ j from h)
      omega
  exact ⟨hblock, hlt, hinj, surj_of_inj_lt n _ hlt hinj⟩
/-! ## `calcR2Indexes` -/

theorem calcR2IndexesStep_inv (A : List Nat) (n C : Nat) (sc : List (Nat × Nat))
    (hlen : sc.length = C) (htotal : prefixSum sc C = n)
    (hpos : ∀ p < C, 1 ≤ (sc.getD p (0, 0)).2)
    (hinj : ∀ p q, p < C → q < C → (sc.getD p (0, 0)).1 = (sc.getD q (0, 0)).1 → p = q)
    (hA : ∀ p < C, ∀ q, prefixSum sc p ≤ q → q < prefixSum sc (p + 1) →
      A.getD q 0 = (sc.getD p (0, 0)).1)
    (i : Nat) (s : R2IndexesState) (hi : i < n) (h : R2IndexesInv A n C sc i s) :
    R2IndexesInv A n C sc (i + 1) (calcR2IndexesStep s i) := by
  have hil : i < s.r2Matrix.length := by rw [h.length_eq]; exact hi
  have hv : s.r2Matrix.getD i 0 = A.getD i 0 := h.rest_eq i (Nat.le_refl i)
  have hsucc : ∀ p < C, prefixSum sc (p + 1) = prefixSum sc p + (sc.getD p (0, 0)).2 :=
    fun p hp => prefixSum_succ sc p (by rw [hlen]; exact hp)
  have hold : ∀ v q, q ≠ i → (s.r2Matrix.set i v).getD q 0 = s.r2Matrix.getD q 0 :=
    fun v q hq => getD_set_ne _ _ _ _ _ (Ne.symm hq)
  unfold calcR2IndexesStep
  rcases Nat.lt_or_eq_of_le h.le_block with hlt | heq
  · -- row `i` is still in the current class
    have hcur : s.r2Matrix.getD i 0 = s.currentId := by
      rw [hv, h.currentId_eq]
      exact hA s.newId h.newId_lt i h.block_le hlt
    rw [if_neg (not_not.2 hcur)]
    refine ⟨h.newId_lt, Nat.le_succ_of_le h.block_le, hlt, h.currentId_eq, h.startIndex_eq,
      h.r2Indexes_eq, h.r2Counts_eq, by simpa using h.length_eq, ?_, ?_⟩
    · intro q hq
      simp only
      rw [hold _ q (by omega)]
      exact h.rest_eq q (by omega)
    · intro q hq
      simp only
      by_cases hqi : q = i
      · subst hqi
        rw [getD_set_self _ _ _ _ hil]
        exact ⟨h.newId_lt, h.block_le, hlt⟩
      · rw [hold _ q hqi]
        exact h.renumbered q (by omega)
  · -- row `i` is the first row of the next class
    have hnext : s.newId + 1 < C := by
      by_contra hc
      have hC : s.newId + 1 = C := by have := h.newId_lt; omega
      rw [hC, htotal] at heq
      omega
    have hs1 := hsucc (s.newId + 1) hnext
    have hp1 := hpos (s.newId + 1) hnext
    have hAi : A.getD i 0 = (sc.getD (s.newId + 1) (0, 0)).1 :=
      hA (s.newId + 1) hnext i (by omega) (by omega)
    have hne : s.r2Matrix.getD i 0 ≠ s.currentId := by
      rw [hv, hAi, h.currentId_eq]
      intro he
      have := hinj _ _ hnext h.newId_lt he
      omega
    rw [if_pos hne]
    refine ⟨hnext, by simp only; omega, by simp only; omega, by simp only; rw [hv, hAi],
      by simp only; exact heq, ?_, ?_, by simpa using h.length_eq, ?_, ?_⟩
    · simp only
      rw [h.r2Indexes_eq, List.range_succ (s.newId + 1), List.map_append, heq]
      rfl
    · simp only
      rw [h.r2Counts_eq, List.take_succ, List.map_append,
        List.getElem?_eq_getElem (by rw [hlen]; exact h.newId_lt)]
      have := hsucc s.newId h.newId_lt
      rw [List.getD_eq_getElem _ _ (by rw [hlen]; exact h.newId_lt)] at this
      simp only [Option.toList_some, List.map_cons, List.map_nil, List.append_cancel_left_eq,
        List.cons.injEq, and_true]
      rw [h.startIndex_eq]
      omega
    · intro q hq
      simp only
      rw [hold _ q (by omega)]
      exact h.rest_eq q (by omega)
    · intro q hq
      simp only
      by_cases hqi : q = i
      · subst hqi
        rw [getD_set_self _ _ _ _ hil]
        exact ⟨hnext, by omega, by omega⟩
      · rw [hold _ q hqi]
        exact h.renumbered q (by omega)

theorem calcR2Indexes_loop (A : List Nat) (n C : Nat) (sc : List (Nat × Nat)) (hn : 0 < n)
    (hAlen : A.length = n)
    (hlen : sc.length = C) (htotal : prefixSum sc C = n)
    (hpos : ∀ p < C, 1 ≤ (sc.getD p (0, 0)).2)
    (hinj : ∀ p q, p < C → q < C → (sc.getD p (0, 0)).1 = (sc.getD q (0, 0)).1 → p = q)
    (hA : ∀ p < C, ∀ q, prefixSum sc p ≤ q → q < prefixSum sc (p + 1) →
      A.getD q 0 = (sc.getD p (0, 0)).1) :
    R2IndexesInv A n C sc n ((List.range n).foldl calcR2IndexesStep
      { newId := 0, startIndex := 0, currentId := A.getD 0 0,
        r2Indexes := [] ++ [0], r2Counts := [], r2Matrix := A }) := by
  have hC : 0 < C := by
    by_contra hc
    have : C = 0 := by omega
    rw [this, prefixSum_zero] at htotal
    omega
  have h1 : prefixSum sc 1 = prefixSum sc 0 + (sc.getD 0 (0, 0)).2 :=
    prefixSum_succ sc 0 (by rw [hlen]; exact hC)
  rw [prefixSum_zero] at h1
  have hp0 := hpos 0 hC
  apply foldl_range_inv (fun i s => R2IndexesInv A n C sc i s)
  · refine ⟨hC, by simp [prefixSum_zero], Nat.zero_le _, ?_, by simp [prefixSum_zero], ?_, by simp,
      hAlen, fun q _ => rfl, fun q hq => absurd hq (Nat.not_lt_zero q)⟩
    · exact hA 0 hC 0 (by simp [prefixSum_zero]) (by show 0 < prefixSum sc 1; omega)
    · simp [List.range_succ, prefixSum_zero]
  · intro i s hi h
    exact calcR2IndexesStep_inv A n C sc hlen htotal hpos hinj hA i s hi h
/-! ## The constructor of `InputMatrix` -/

theorem create_spec (sort : List (Nat × Nat) → List (Nat × Nat)) (hsort : IsStdSort sort)
    (d : DataFile) (hn : 0 < d.learningSetLen) :
    ∃ ids C σ, PartitionSpec d (InputMatrix.create sort d) ids C
      (sort (sortMatrixTuples C (sortMatrixCounts d.learningSetLen C ids))) σ := by
  have h1 := calcR2Matrix_loop_inv d.learningSetPfeatures d.learningSetLen
    (List.replicate d.learningSetLen 0) (by simp)
  generalize hs1 : (List.range d.learningSetLen).foldl (calcR2MatrixStep d.learningSetPfeatures)
    { currentId := 0, mappings := [], r2Matrix := List.replicate d.learningSetLen 0 } = s1 at h1
  have hsc := sortedCounts_spec sort hsort s1.r2Matrix d.learningSetLen s1.currentId
    h1.id_lt h1.id_used
  generalize hscd : sort (sortMatrixTuples s1.currentId
    (sortMatrixCounts d.learningSetLen s1.currentId s1.r2Matrix)) = sc at hsc
  have hni := newIndexes_spec s1.r2Matrix d.learningSetLen s1.currentId sc hsc h1.id_lt
  generalize hnid : sortMatrixNewIndexes d.learningSetLen s1.r2Matrix
    (sortMatrixIndexes s1.currentId sc) = ni at hni
  have hmq := sortMatrixMove_spec d.learningSetLen ni d.learningSetFeatures [] hni.lt hni.inj
  have hmr := sortMatrixMove_spec d.learningSetLen ni d.learningSetPfeatures [] hni.lt hni.inj
  have hm2 := sortMatrixMove_spec d.learningSetLen ni s1.r2Matrix 0 hni.lt hni.inj
  have hA : ∀ p < s1.currentId, ∀ q, prefixSum sc p ≤ q → q < prefixSum sc (p + 1) →
      (sortMatrixMove d.learningSetLen ni s1.r2Matrix 0).getD q 0 = (sc.getD p (0, 0)).1 := by
    intro p hp q hq1 hq2
    have hqn : q < d.learningSetLen := by
      have := prefixSum_mono sc (show p + 1 ≤ s1.currentId from hp) (by rw [hsc.length_eq])
      rw [hsc.total] at this
      omega
    obtain ⟨j, hj, hjq⟩ := hni.surj q hqn
    obtain ⟨p2, hp2, hp2c, hp2e, hp2l⟩ := hni.in_block j hj
    have hpp : p = p2 := by
      apply block_unique sc p p2 q (by rw [hsc.length_eq]; exact hp)
        (by rw [hsc.length_eq]; exact hp2) hq1 hq2
      · rw [← hjq]; omega
      · rw [← hjq]; exact hp2l
    rw [← hjq, hm2.2 j hj, hpp, hp2c]
  have hloop := calcR2Indexes_loop (sortMatrixMove d.learningSetLen ni s1.r2Matrix 0)
    d.learningSetLen s1.currentId sc hn hm2.1 hsc.length_eq hsc.total hsc.size_pos hsc.id_inj hA
  have hlast : (hloopState : R2IndexesState) → R2IndexesInv
      (sortMatrixMove d.learningSetLen ni s1.r2Matrix 0) d.learningSetLen s1.currentId sc
      d.learningSetLen hloopState →
      hloopState.newId + 1 = s1.currentId := by
    intro st hst
    by_contra hc
    have hlt : st.newId + 1 < s1.currentId := by have := hst.newId_lt; omega
    have e1 := prefixSum_succ sc (st.newId + 1) (by rw [hsc.length_eq]; exact hlt)
    have e2 := hsc.size_pos (st.newId + 1) hlt
    have e3 := prefixSum_mono sc (show st.newId + 1 + 1 ≤ s1.currentId from hlt)
      (by rw [hsc.length_eq])
    rw [hsc.total] at e3
    have := hst.le_block
    omega
  refine ⟨s1.r2Matrix, s1.currentId, fun j => ni.getD j 0, ?_⟩
  rw [hscd]
  have hcreate : InputMatrix.create sort d = InputMatrix.calcR2Indexes
      { _rowsCount := d.learningSetLen, _qColsCount := d.featuresLen,
        _rColsCount := d.pfeaturesLen,
        _qMatrix := sortMatrixMove d.learningSetLen ni d.learningSetFeatures [],
        _qMinimum := d.rangesMin, _qMaximum := d.rangesMax,
        _rMatrix := sortMatrixMove d.learningSetLen ni d.learningSetPfeatures [],
        _r2Matrix := sortMatrixMove d.learningSetLen ni s1.r2Matrix 0,
        _r2Count := s1.currentId, _r2Indexes := [], _r2Counts := [] } := by
    simp only [InputMatrix.create, InputMatrix.calcR2Matrix, InputMatrix.sortMatrix,
      InputMatrix.newIndexes, hs1, hscd, hnid]
  rw [hcreate]
  unfold InputMatrix.calcR2Indexes
  simp only
  generalize hst : (List.range d.learningSetLen).foldl calcR2IndexesStep
    { newId := 0, startIndex := 0,
      currentId := (sortMatrixMove d.learningSetLen ni s1.r2Matrix 0).getD 0 0,
      r2Indexes := [] ++ [0], r2Counts := [],
      r2Matrix := sortMatrixMove d.learningSetLen ni s1.r2Matrix 0 } = st at hloop
  have hC := hlast st hloop
  refine ⟨rfl, rfl, rfl, rfl, h1.id_lt, h1.id_used, h1.first_seen, h1.same_id_iff, hsc, hni,
    hmq.1, hmr.1, hloop.length_eq, hmq.2, hmr.2, ?_, ?_, hloop.renumbered⟩
  · simp only
    rw [hloop.r2Indexes_eq, hC]
  · simp only
    rw [hloop.r2Counts_eq, hloop.startIndex_eq]
    have e1 := prefixSum_succ sc st.newId (by rw [hsc.length_eq]; exact hloop.newId_lt)
    have e2 := hloop.le_block
    have e3 := hloop.block_le
    have e4 := prefixSum_mono sc (show st.newId + 1 ≤ s1.currentId from hloop.newId_lt)
      (by rw [hsc.length_eq])
    rw [hsc.total] at e4
    have hlast2 : d.learningSetLen - prefixSum sc st.newId = (sc.getD st.newId (0, 0)).2 := by
      omega
    rw [hlast2]
    have htake : sc = sc.take (st.newId + 1) := by
      rw [List.take_of_length_le]
      rw [hsc.length_eq, hC]
    conv_rhs => rw [htake]
    rw [List.take_succ, List.map_append,
      List.getElem?_eq_getElem (by rw [hsc.length_eq]; exact hloop.newId_lt),
      List.getD_eq_getElem _ _ (by rw [hsc.length_eq]; exact hloop.newId_lt)]
    simp
theorem insertionSortDesc_isStdSort : IsStdSort insertionSortDesc := by
  intro l
  refine ⟨List.perm_insertionSort _ l, ?_⟩
  have hs : (insertionSortDesc l).Sorted (fun a b : Nat × Nat => a.2 ≥ b.2) := by
    haveI : IsTotal (Nat × Nat) (fun a b => a.2 ≥ b.2) := ⟨fun a b => Nat.le_total b.2 a.2⟩
    haveI : IsTrans (Nat × Nat) (fun a b => a.2 ≥ b.2) := ⟨fun a b c h1 h2 => Nat.le_trans h2 h1⟩
    exact List.sorted_insertionSort _ l
  exact List.Pairwise.imp (fun h => Nat.not_lt.2 h) hs

theorem getD_map_range {α : Type} (f : Nat → α) (C c : Nat) (h : c < C) (dflt : α) :
    ((List.range C).map f).getD c dflt = f c := by
  simp [List.getD_eq_getElem?_getD, List.getElem?_range h]

theorem getD_map_snd (sc : List (Nat × Nat)) (c : Nat) :
    (sc.map Prod.snd).getD c 0 = (sc.getD c (0, 0)).2 := by
  simp only [List.getD_eq_getElem?_getD, List.getElem?_map]
  cases sc[c]? <;> rfl

/-- C5. Class-index invariants: after the constructor has run `calcR2Matrix`,
`sortMatrix` and `calcR2Indexes` on a non-empty dataset of `N` rows, `_r2Indexes` and
`_r2Counts` have the same length, `_r2Indexes[0] = 0`,
`_r2Indexes[c+1] = _r2Indexes[c] + _r2Counts[c]`, `_r2Counts` is non-increasing, every
count is at least 1, and the counts sum to `N`. -/
theorem class_index_invariants (sort : List (Nat × Nat) → List (Nat × Nat))
    (hsort : IsStdSort sort) (d : DataFile) (hn : 0 < d.learningSetLen) :
    (InputMatrix.create sort d)._r2Indexes.length = (InputMatrix.create sort d)._r2Counts.length ∧
    (InputMatrix.create sort d)._r2Indexes.getD 0 0 = 0 ∧
    (∀ c, c + 1 < (InputMatrix.create sort d)._r2Indexes.length →
      (InputMatrix.create sort d)._r2Indexes.getD (c + 1) 0
        = (InputMatrix.create sort d)._r2Indexes.getD c 0
          + (InputMatrix.create sort d)._r2Counts.getD c 0) ∧
    (∀ c c2, c ≤ c2 → c2 < (InputMatrix.create sort d)._r2Counts.length →
      (InputMatrix.create sort d)._r2Counts.getD c2 0
        ≤ (InputMatrix.create sort d)._r2Counts.getD c 0) ∧
    (∀ c, c < (InputMatrix.create sort d)._r2Counts.length →
      1 ≤ (InputMatrix.create sort d)._r2Counts.getD c 0) ∧
    (InputMatrix.create sort d)._r2Counts.sum = d.learningSetLen := by
  obtain ⟨ids, C, σ, h⟩ := create_spec sort hsort d hn
  generalize sort (sortMatrixTuples C (sortMatrixCounts d.learningSetLen C ids)) = sc at h
  have hsc := h.sorted_counts
  have hC : 0 < C := by
    obtain ⟨p, hp, _⟩ := h.new_indexes.in_block 0 hn
    omega
  rw [h.r2Indexes_eq, h.r2Counts_eq]
  simp only [List.length_map, List.length_range, hsc.length_eq, getD_map_snd]
  refine ⟨trivial, ?_, ?_, ?_, ?_, ?_⟩
  · rw [getD_map_range _ _ _ hC, prefixSum_zero]
  · intro c hc
    rw [getD_map_range _ _ _ hc, getD_map_range _ _ _ (Nat.lt_of_succ_lt hc)]
    exact prefixSum_succ sc c (by rw [hsc.length_eq]; omega)
  · intro c c2 hcc hc2
    exact hsc.sorted c c2 hcc hc2
  · intro c hc
    exact hsc.size_pos c hc
  · rw [← prefixSum_length, hsc.length_eq, hsc.total]

theorem class_index_invariants_witness :
    (InputMatrix.create insertionSortDesc
      ⟨5, 2, 1, [[1, 1], [2, 2], [1, 2], [2, 1], [DASH, 1]], [[0], [1], [0], [2], [1]],
        [1, 1], [2, 2]⟩)._r2Indexes.length =
    (InputMatrix.create insertionSortDesc
      ⟨5, 2, 1, [[1, 1], [2, 2], [1, 2], [2, 1], [DASH, 1]], [[0], [1], [0], [2], [1]],
        [1, 1], [2, 2]⟩)._r2Counts.length ∧
    (InputMatrix.create insertionSortDesc
      ⟨5, 2, 1, [[1, 1], [2, 2], [1, 2], [2, 1], [DASH, 1]], [[0], [1], [0], [2], [1]],
        [1, 1], [2, 2]⟩)._r2Counts = [2, 2, 1] :=
  ⟨(class_index_invariants insertionSortDesc insertionSortDesc_isStdSort
      ⟨5, 2, 1, [[1, 1], [2, 2], [1, 2], [2, 1], [DASH, 1]], [[0], [1], [0], [2], [1]],
        [1, 1], [2, 2]⟩ (by decide)).1, by decide⟩
theorem calcRVector_eq_specWeight_witness :
    (InputMatrix.calcRVector
        { _rowsCount := 2, _qColsCount := 1, _rColsCount := 1, _qMatrix := [[DASH], [1]],
          _qMinimum := [0], _qMaximum := [2], _rMatrix := [[0], [1]], _r2Matrix := [0, 1],
          _r2Count := 2, _r2Indexes := [0, 1], _r2Counts := [1, 1] } 0 1).getD 0 0
      = specWeight
        { _rowsCount := 2, _qColsCount := 1, _rColsCount := 1, _qMatrix := [[DASH], [1]],
          _qMinimum := [0], _qMaximum := [2], _rMatrix := [[0], [1]], _r2Matrix := [0, 1],
          _r2Count := 2, _r2Indexes := [0, 1], _r2Counts := [1, 1] } 0 1 0 ∧
    specWeight
        { _rowsCount := 2, _qColsCount := 1, _rColsCount := 1, _qMatrix := [[DASH], [1]],
          _qMinimum := [0], _qMaximum := [2], _rMatrix := [[0], [1]], _r2Matrix := [0, 1],
          _r2Count := 2, _r2Indexes := [0, 1], _r2Counts := [1, 1] } 0 1 0 = 2 :=
  ⟨(calcRVector_eq_specWeight
      { _rowsCount := 2, _qColsCount := 1, _rColsCount := 1, _qMatrix := [[DASH], [1]],
        _qMinimum := [0], _qMaximum := [2], _rMatrix := [[0], [1]], _r2Matrix := [0, 1],
        _r2Count := 2, _r2Indexes := [0, 1], _r2Counts := [1, 1] } 0 1 0
      (by decide) (by decide)).1, by decide⟩
/-! ## Classes and label vectors -/

theorem exists_first_occurrence {β : Type} (g : Nat → β) (j : Nat) :
    ∃ k, k ≤ j ∧ g k = g j ∧ ∀ i < k, g i ≠ g k := by
  induction j using Nat.strong_induction_on with
  | _ j ih =>
    by_cases h : ∀ i < j, g i ≠ g j
    · exact ⟨j, Nat.le_refl j, rfl, h⟩
    · push_neg at h
      obtain ⟨i, hi, hie⟩ := h
      obtain ⟨k, hk, hke, hkf⟩ := ih i hi
      exact ⟨k, by omega, by rw [hke, hie], hkf⟩

theorem card_image_eq_of_same_kernel {α β : Type} [DecidableEq α] [DecidableEq β] (n : Nat)
    (f : Nat → α) (g : Nat → β)
    (h : ∀ j k, j < n → k < n → (f j = f k ↔ g j = g k)) :
    ((Finset.range n).image f).card = ((Finset.range n).image g).card := by
  classical
  have key : ∀ {γ : Type} [DecidableEq γ] (e : Nat → γ),
      (∀ j k, j < n → k < n → (e j = e k ↔ g j = g k)) →
      ((Finset.range n).image e).card
        = ((Finset.range n).filter fun j => ∀ i < j, g i ≠ g j).card := by
    intro γ _ e he
    have himg : (Finset.range n).image e
        = ((Finset.range n).filter fun j => ∀ i < j, g i ≠ g j).image e := by
      ext x
      simp only [Finset.mem_image, Finset.mem_range, Finset.mem_filter]
      constructor
      · rintro ⟨j, hj, rfl⟩
        obtain ⟨k, hk, hke, hkf⟩ := exists_first_occurrence g j
        exact ⟨k, ⟨by omega, hkf⟩, (he k j (by omega) hj).2 hke⟩
      · rintro ⟨j, ⟨hj, _⟩, rfl⟩
        exact ⟨j, hj, rfl⟩
    rw [himg, Finset.card_image_of_injOn]
    intro j hj k hk hjk
    simp only [Finset.coe_filter, Finset.mem_range, Set.mem_setOf_eq] at hj hk
    have hg : g j = g k := (he j k hj.1 hk.1).1 hjk
    rcases Nat.lt_trichotomy j k with hlt | heq | hgt
    · exact absurd hg (hk.2 j hlt)
    · exact heq
    · exact absurd hg.symm (hj.2 k hgt)
  rw [key f h, key g fun j k _ _ => Iff.rfl]

theorem toFinset_eq_image_getD {α : Type} [DecidableEq α] (l : List α) (dflt : α) :
    l.toFinset = (Finset.range l.length).image fun j => l.getD j dflt := by
  ext x
  simp only [List.mem_toFinset, Finset.mem_image, Finset.mem_range]
  constructor
  · intro hx
    obtain ⟨j, hj, hje⟩ := List.getElem_of_mem hx
    exact ⟨j, hj, by rw [List.getD_eq_getElem _ _ hj]; exact hje⟩
  · rintro ⟨j, hj, rfl⟩
    rw [List.getD_eq_getElem _ _ hj]
    exact List.getElem_mem _

theorem partition_class_count (d : DataFile) (m : InputMatrix) (ids : List Nat) (C : Nat)
    (sc : List (Nat × Nat)) (σ : Nat → Nat) (h : PartitionSpec d m ids C sc σ)
    (hlen : d.learningSetPfeatures.length = d.learningSetLen) :
    d.learningSetPfeatures.toFinset.card = C := by
  rw [toFinset_eq_image_getD d.learningSetPfeatures [], hlen,
    card_image_eq_of_same_kernel d.learningSetLen (fun j => d.learningSetPfeatures.getD j [])
      (fun j => ids.getD j 0) fun j k hj hk => (h.same_id_iff j k hj hk).symm]
  have : (Finset.range d.learningSetLen).image (fun j => ids.getD j 0) = Finset.range C := by
    ext c
    simp only [Finset.mem_image, Finset.mem_range]
    constructor
    · rintro ⟨j, hj, rfl⟩
      exact h.ids_lt j hj
    · intro hc
      exact h.ids_used c hc
  rw [this, Finset.card_range]

theorem partition_offsets (d : DataFile) (m : InputMatrix) (ids : List Nat) (C : Nat)
    (sc : List (Nat × Nat)) (σ : Nat → Nat) (h : PartitionSpec d m ids C sc σ) :
    m._r2Indexes.length = C ∧ m._r2Counts.length = C ∧
    ∀ c < C, m._r2Indexes.getD c 0 = prefixSum sc c ∧
      m._r2Counts.getD c 0 = (sc.getD c (0, 0)).2 ∧
      m._r2Indexes.getD c 0 + m._r2Counts.getD c 0 = prefixSum sc (c + 1) := by
  rw [h.r2Indexes_eq, h.r2Counts_eq]
  refine ⟨by simp, by simp [h.sorted_counts.length_eq], fun c hc => ?_⟩
  rw [getD_map_range _ _ _ hc, getD_map_snd]
  exact ⟨rfl, rfl, (prefixSum_succ sc c (by rw [h.sorted_counts.length_eq]; exact hc)).symm⟩

theorem partition_same_class_iff (d : DataFile) (m : InputMatrix) (ids : List Nat) (C : Nat)
    (sc : List (Nat × Nat)) (σ : Nat → Nat) (h : PartitionSpec d m ids C sc σ)
    (j k : Nat) (hj : j < d.learningSetLen) (hk : k < d.learningSetLen) :
    (∃ c < C, (prefixSum sc c ≤ σ j ∧ σ j < prefixSum sc (c + 1)) ∧
      (prefixSum sc c ≤ σ k ∧ σ k < prefixSum sc (c + 1))) ↔
    d.learningSetPfeatures.getD j [] = d.learningSetPfeatures.getD k [] := by
  obtain ⟨p1, hp1, hc1, he1, hl1⟩ := h.new_indexes.in_block j hj
  obtain ⟨p2, hp2, hc2, he2, hl2⟩ := h.new_indexes.in_block k hk
  have hlen := h.sorted_counts.length_eq
  rw [← h.same_id_iff j k hj hk]
  constructor
  · rintro ⟨c, hc, ⟨a1, a2⟩, ⟨b1, b2⟩⟩
    have e1 : c = p1 := block_unique sc c p1 (σ j) (by omega) (by omega) a1 a2 (by omega) hl1
    have e2 : c = p2 := block_unique sc c p2 (σ k) (by omega) (by omega) b1 b2 (by omega) hl2
    rw [← hc1, ← hc2, ← e1, ← e2]
  · intro he
    have hpp : p1 = p2 := h.sorted_counts.id_inj p1 p2 hp1 hp2 (by rw [hc1, hc2, he])
    subst hpp
    exact ⟨p1, hp1, ⟨by omega, hl1⟩, ⟨by omega, hl2⟩⟩

/-- C6. Classes are exactly the label-equality classes: after the constructor has
partitioned a non-empty well-formed dataset, two positions of the reordered storage lie
in the same class range `[offset[c], offset[c] + count[c])` iff the label rows stored
there are identical; the number of classes is the number of distinct label vectors of
the dataset; and the class id stored for a position is the class whose range contains
the position. -/
theorem classes_are_label_classes (sort : List (Nat × Nat) → List (Nat × Nat))
    (hsort : IsStdSort sort) (d : DataFile) (hwf : d.WellFormed) (hn : 0 < d.learningSetLen) :
    (∀ p q, p < d.learningSetLen → q < d.learningSetLen →
      ((∃ c < (InputMatrix.create sort d)._r2Indexes.length,
          ((InputMatrix.create sort d)._r2Indexes.getD c 0 ≤ p ∧
            p < (InputMatrix.create sort d)._r2Indexes.getD c 0
              + (InputMatrix.create sort d)._r2Counts.getD c 0) ∧
          ((InputMatrix.create sort d)._r2Indexes.getD c 0 ≤ q ∧
            q < (InputMatrix.create sort d)._r2Indexes.getD c 0
              + (InputMatrix.create sort d)._r2Counts.getD c 0)) ↔
        (InputMatrix.create sort d)._rMatrix.getD p [] =
          (InputMatrix.create sort d)._rMatrix.getD q [])) ∧
    (InputMatrix.create sort d)._r2Indexes.length = d.learningSetPfeatures.toFinset.card ∧
    (InputMatrix.create sort d)._r2Counts.length = d.learningSetPfeatures.toFinset.card ∧
    (∀ p, p < d.learningSetLen →
      (InputMatrix.create sort d)._r2Matrix.getD p 0
          < (InputMatrix.create sort d)._r2Indexes.length ∧
        (InputMatrix.create sort d)._r2Indexes.getD
            ((InputMatrix.create sort d)._r2Matrix.getD p 0) 0 ≤ p ∧
        p < (InputMatrix.create sort d)._r2Indexes.getD
              ((InputMatrix.create sort d)._r2Matrix.getD p 0) 0
            + (InputMatrix.create sort d)._r2Counts.getD
              ((InputMatrix.create sort d)._r2Matrix.getD p 0) 0) := by
  obtain ⟨ids, C, σ, h⟩ := create_spec sort hsort d hn
  generalize sort (sortMatrixTuples C (sortMatrixCounts d.learningSetLen C ids)) = sc at h
  generalize InputMatrix.create sort d = m at h
  obtain ⟨hl1, hl2, hoff⟩ := partition_offsets d m ids C sc σ h
  have hcard := partition_class_count d m ids C sc σ h hwf.2.1
  rw [hl1, hl2, hcard]
  refine ⟨?_, rfl, rfl, ?_⟩
  · intro p q hp hq
    obtain ⟨j, hj, rfl⟩ := h.new_indexes.surj p hp
    obtain ⟨k, hk, rfl⟩ := h.new_indexes.surj q hq
    rw [h.rMatrix_moved j hj, h.rMatrix_moved k hk,
      ← partition_same_class_iff d m ids C sc σ h j k hj hk]
    constructor
    · rintro ⟨c, hc, h1, h2⟩
      obtain ⟨e1, _, e3⟩ := hoff c hc
      rw [e3, e1] at h1 h2
      exact ⟨c, hc, h1, h2⟩
    · rintro ⟨c, hc, h1, h2⟩
      obtain ⟨e1, _, e3⟩ := hoff c hc
      refine ⟨c, hc, ?_, ?_⟩
      · rw [e3, e1]; exact h1
      · rw [e3, e1]; exact h2
  · intro p hp
    obtain ⟨r1, r2, r3⟩ := h.renumbered p hp
    obtain ⟨e1, _, e3⟩ := hoff _ r1
    refine ⟨r1, ?_, ?_⟩
    · rw [e1]; exact r2
    · rw [e3]; exact r3

theorem classes_are_label_classes_witness :
    (InputMatrix.create insertionSortDesc
      ⟨5, 2, 1, [[1, 1], [2, 2], [1, 2], [2, 1], [DASH, 1]], [[0], [1], [0], [2], [1]],
        [1, 1], [2, 2]⟩)._r2Indexes.length
      = (DataFile.mk 5 2 1 [[1, 1], [2, 2], [1, 2], [2, 1], [DASH, 1]]
          [[0], [1], [0], [2], [1]] [1, 1] [2, 2]).learningSetPfeatures.toFinset.card ∧
    (InputMatrix.create insertionSortDesc
      ⟨5, 2, 1, [[1, 1], [2, 2], [1, 2], [2, 1], [DASH, 1]], [[0], [1], [0], [2], [1]],
        [1, 1], [2, 2]⟩)._rMatrix = [[0], [0], [1], [1], [2]] :=
  ⟨(classes_are_label_classes insertionSortDesc insertionSortDesc_isStdSort
      ⟨5, 2, 1, [[1, 1], [2, 2], [1, 2], [2, 1], [DASH, 1]], [[0], [1], [0], [2], [1]],
        [1, 1], [2, 2]⟩
      ⟨by decide, by decide, by decide, by decide, by decide, by decide⟩ (by decide)).2.1,
    by decide⟩
/-! ## The order of the classes -/

theorem reverseInsertionSortDesc_isStdSort : IsStdSort reverseInsertionSortDesc := by
  intro l
  obtain ⟨h1, h2⟩ := insertionSortDesc_isStdSort l.reverse
  exact ⟨h1.trans (List.reverse_perm l), h2⟩

theorem orderedInsert_filter_size (a : Nat × Nat) (k : Nat) (l : List (Nat × Nat)) :
    (l.orderedInsert (fun a b => a.2 ≥ b.2) a).filter (fun x => x.2 = k)
      = (if a.2 = k then [a] else []) ++ l.filter (fun x => x.2 = k) := by
  induction l with
  | nil => by_cases h : a.2 = k <;> simp [h]
  | cons b l ih =>
    by_cases hab : a.2 ≥ b.2
    · have hins : (b :: l).orderedInsert (fun a b => a.2 ≥ b.2) a = a :: b :: l := by
        simp only [List.orderedInsert]
        rw [if_pos hab]
      rw [hins]
      by_cases h : a.2 = k <;> simp [List.filter_cons, h]
    · have hins : (b :: l).orderedInsert (fun a b => a.2 ≥ b.2) a
          = b :: l.orderedInsert (fun a b => a.2 ≥ b.2) a := by
        simp only [List.orderedInsert]
        rw [if_neg hab]
      rw [hins, List.filter_cons, ih, List.filter_cons]
      by_cases ha : a.2 = k <;> by_cases hb : b.2 = k
      · omega
      · simp [ha, hb]
      · simp [ha, hb]
      · simp [ha, hb]

theorem insertionSortDesc_isStableSort : IsStableSort insertionSortDesc := by
  intro l k
  induction l with
  | nil => rfl
  | cons a l ih =>
    unfold insertionSortDesc at ih ⊢
    rw [List.insertionSort, orderedInsert_filter_size, ih, List.filter_cons]
    by_cases ha : a.2 = k <;> simp [ha]

theorem partition_renumbered_block (d : DataFile) (m : InputMatrix) (ids : List Nat) (C : Nat)
    (sc : List (Nat × Nat)) (σ : Nat → Nat) (h : PartitionSpec d m ids C sc σ)
    (j : Nat) (hj : j < d.learningSetLen) :
    m._r2Matrix.getD (σ j) 0 < C ∧
    (sc.getD (m._r2Matrix.getD (σ j) 0) (0, 0)).1 = ids.getD j 0 := by
  obtain ⟨p, hp, hc, he, hl⟩ := h.new_indexes.in_block j hj
  obtain ⟨r1, r2, r3⟩ := h.renumbered (σ j) (h.new_indexes.lt j hj)
  have hlen := h.sorted_counts.length_eq
  have : m._r2Matrix.getD (σ j) 0 = p :=
    block_unique sc _ p (σ j) (by omega) (by omega) r2 r3 (by omega) hl
  rw [this]
  exact ⟨hp, hc⟩

theorem prefixSum_lt_of_lt (ids : List Nat) (n C : Nat) (sc : List (Nat × Nat))
    (hsc : SortedCountsSpec ids n C sc) (p q : Nat) (hpq : p < q) (hq : q < C) :
    prefixSum sc p < prefixSum sc q := by
  have h1 := prefixSum_succ sc p (by rw [hsc.length_eq]; omega)
  have h2 := hsc.size_pos p (by omega)
  have h3 := prefixSum_mono sc (show p + 1 ≤ q from hpq) (by rw [hsc.length_eq]; omega)
  omega

theorem stable_tie_break (sort : List (Nat × Nat) → List (Nat × Nat)) (hsort : IsStdSort sort)
    (hstable : IsStableSort sort) (d : DataFile) (hn : 0 < d.learningSetLen) :
    FirstAppearanceTieBreak sort d := by
  obtain ⟨ids, C, σ, h⟩ := create_spec sort hsort d hn
  have hst := hstable (sortMatrixTuples C (sortMatrixCounts d.learningSetLen C ids))
  generalize hscd : sort (sortMatrixTuples C (sortMatrixCounts d.learningSetLen C ids)) = sc
    at h hst
  unfold FirstAppearanceTieBreak
  generalize InputMatrix.create sort d = m at h
  obtain ⟨hl1, hl2, hoff⟩ := partition_offsets d m ids C sc σ h
  have hsc := h.sorted_counts
  intro p q hp hq htie ⟨j0, hj0, hlab, hfirst⟩
  obtain ⟨j, hj, rfl⟩ := h.new_indexes.surj p hp
  obtain ⟨k, hk, rfl⟩ := h.new_indexes.surj q hq
  obtain ⟨hP, hPid⟩ := partition_renumbered_block d m ids C sc σ h j hj
  obtain ⟨hQ, hQid⟩ := partition_renumbered_block d m ids C sc σ h k hk
  generalize m._r2Matrix.getD (σ j) 0 = P at hP hPid htie ⊢
  generalize m._r2Matrix.getD (σ k) 0 = Q at hQ hQid htie ⊢
  rw [(hoff P hP).2.1, (hoff Q hQ).2.1] at htie
  rw [(hoff P hP).1, (hoff Q hQ).1]
  rw [h.rMatrix_moved j hj] at hlab
  rw [h.rMatrix_moved k hk] at hfirst
  -- the first-seen id of the class of `p` is smaller
  have hid0 : ids.getD j0 0 = ids.getD j 0 := (h.same_id_iff j0 j hj0 hj).2 hlab
  have hlt : ids.getD j 0 < ids.getD k 0 := by
    by_contra hc
    rcases Nat.lt_or_eq_of_le (Nat.le_of_not_lt hc) with h1 | h1
    · rw [← hid0] at h1
      obtain ⟨i, hi, hie⟩ := h.first_seen j0 hj0 _ h1
      have hi2 : i < d.learningSetLen := by omega
      have := hfirst i hi2 ((h.same_id_iff i k hi2 hk).1 hie)
      omega
    · have := hfirst j0 hj0 ((h.same_id_iff j0 k hj0 hk).1 (by rw [hid0, h1]))
      omega
  -- entries of equal size keep the order of the unsorted array, which is by class id
  have hpw : sc.Pairwise fun x y => x.2 = (sc.getD P (0, 0)).2 → y.2 = (sc.getD P (0, 0)).2 →
      x.1 < y.1 := by
    rw [← List.pairwise_filter, hst (sc.getD P (0, 0)).2]
    apply List.Pairwise.sublist (List.filter_sublist _)
    unfold sortMatrixTuples
    rw [List.pairwise_map]
    exact List.pairwise_lt_range C
  have hPQ : P < Q := by
    by_contra hc
    have hPl : P < sc.length := by rw [hsc.length_eq]; exact hP
    have hQl : Q < sc.length := by rw [hsc.length_eq]; exact hQ
    have eP := List.getD_eq_getElem sc (0, 0) hPl
    have eQ := List.getD_eq_getElem sc (0, 0) hQl
    rw [eP] at hPid htie hpw
    rw [eQ] at hQid htie
    rcases Nat.lt_or_eq_of_le (Nat.le_of_not_lt hc) with h1 | h1
    · have := List.pairwise_iff_getElem.1 hpw Q P hQl hPl h1 htie.symm rfl
      omega
    · subst h1
      omega
  exact ⟨hPQ, prefixSum_lt_of_lt ids d.learningSetLen C sc hsc P Q hPQ hQ⟩

/-- C7, as the code has it. Classes are ordered by descending size for every behaviour
of `std::sort` that the C++ standard allows: a class with more rows than another gets
the smaller class id and the smaller offset. Among classes of equal size the class whose
label vector appears first gets the smaller class id and offset when the sort keeps the
relative order of equal entries (is stable), which `std::sort` need not do. -/
theorem class_order_descending_size (sort : List (Nat × Nat) → List (Nat × Nat))
    (hsort : IsStdSort sort) (d : DataFile) (hn : 0 < d.learningSetLen) :
    (∀ c c2, c < (InputMatrix.create sort d)._r2Counts.length →
      c2 < (InputMatrix.create sort d)._r2Counts.length →
      (InputMatrix.create sort d)._r2Counts.getD c2 0
        < (InputMatrix.create sort d)._r2Counts.getD c 0 →
      c < c2 ∧ (InputMatrix.create sort d)._r2Indexes.getD c 0
        < (InputMatrix.create sort d)._r2Indexes.getD c2 0) ∧
    (IsStableSort sort → FirstAppearanceTieBreak sort d) := by
  refine ⟨?_, fun hstable => stable_tie_break sort hsort hstable d hn⟩
  obtain ⟨ids, C, σ, h⟩ := create_spec sort hsort d hn
  generalize sort (sortMatrixTuples C (sortMatrixCounts d.learningSetLen C ids)) = sc at h
  generalize InputMatrix.create sort d = m at h
  obtain ⟨hl1, hl2, hoff⟩ := partition_offsets d m ids C sc σ h
  have hsc := h.sorted_counts
  rw [hl2]
  intro c c2 hc hc2 hlt
  rw [(hoff c hc).2.1, (hoff c2 hc2).2.1] at hlt
  rw [(hoff c hc).1, (hoff c2 hc2).1]
  have hcc : c < c2 := by
    by_contra hcon
    have := hsc.sorted c2 c (Nat.le_of_not_lt hcon) hc
    omega
  exact ⟨hcc, prefixSum_lt_of_lt ids d.learningSetLen C sc hsc c c2 hcc hc2⟩

theorem class_order_descending_size_witness :
    IsStableSort insertionSortDesc ∧
    FirstAppearanceTieBreak insertionSortDesc
      ⟨5, 2, 1, [[1, 1], [2, 2], [1, 2], [2, 1], [DASH, 1]], [[0], [1], [0], [2], [1]],
        [1, 1], [2, 2]⟩ :=
  ⟨insertionSortDesc_isStableSort,
    (class_order_descending_size insertionSortDesc insertionSortDesc_isStdSort
      ⟨5, 2, 1, [[1, 1], [2, 2], [1, 2], [2, 1], [DASH, 1]], [[0], [1], [0], [2], [1]],
        [1, 1], [2, 2]⟩ (by decide)).2 insertionSortDesc_isStableSort⟩

/-- C7, counterexample. Seventeen rows with pairwise different label vectors make
seventeen classes of size 1. With a `std::sort` that meets the standard's contract but
leaves equal entries in reverse order, the class of the label `[0]`, which appears
first, gets a larger class id than the class of the label `[8]`. -/
theorem tie_break_not_by_first_appearance :
    IsStdSort reverseInsertionSortDesc ∧
    (∃ p q, p < 17 ∧ q < 17 ∧
      (InputMatrix.create reverseInsertionSortDesc (singletonClasses 17))._rMatrix.getD p []
        = [0] ∧
      (InputMatrix.create reverseInsertionSortDesc (singletonClasses 17))._rMatrix.getD q []
        = [8] ∧
      (InputMatrix.create reverseInsertionSortDesc (singletonClasses 17))._r2Matrix.getD q 0
        < (InputMatrix.create reverseInsertionSortDesc (singletonClasses 17))._r2Matrix.getD p 0) ∧
    ¬ FirstAppearanceTieBreak reverseInsertionSortDesc (singletonClasses 17) := by
  refine ⟨reverseInsertionSortDesc_isStdSort,
    ⟨16, 8, by decide, by decide, by decide, by decide, by decide⟩, fun h => ?_⟩
  have h1 := h 16 8 (by decide) (by decide) (by decide) ⟨0, by decide, by decide, by decide⟩
  revert h1
  decide

/-! ## `processBlock` and `calculate` as a sequence of `addRow` calls -/

theorem foldl_flatMap_eq {α β σ : Type} (f : σ → β → σ) (g : α → List β) (l : List α) (s : σ) :
    (l.flatMap g).foldl f s = l.foldl (fun acc x => (g x).foldl f acc) s := by
  induction l generalizing s with
  | nil => rfl
  | cons x l ih => simp [List.flatMap_cons, List.foldl_append, ih]

theorem foldl_map_eq {α β σ : Type} (f : σ → β → σ) (g : α → β) (l : List α) (s : σ) :
    (l.map g).foldl f s = l.foldl (fun acc x => f acc (g x)) s := by
  induction l generalizing s with
  | nil => rfl
  | cons x l ih => simp [ih]

theorem processBlock_eq_calls (m : InputMatrix) (acc : IrredundantMatrix)
    (offset1 length1 offset2 length2 : Nat) :
    m.processBlock acc offset1 length1 offset2 length2
      = (m.blockCalls offset1 length1 offset2 length2).foldl
          (fun acc c => acc.addRow c.1 c.2) acc := by
  unfold InputMatrix.processBlock InputMatrix.blockCalls
  rw [foldl_flatMap_eq]
  simp only [foldl_map_eq]

theorem calculate_eq_calls (m : InputMatrix) (acc : IrredundantMatrix) :
    m.calculate acc = m.calculateCalls.foldl (fun acc c => acc.addRow c.1 c.2) acc := by
  unfold InputMatrix.calculate InputMatrix.calculateCalls
  rw [foldl_flatMap_eq]
  simp only [foldl_flatMap_eq, processBlock_eq_calls]

/-! ## Column weights -/

theorem addRow_r (m : IrredundantMatrix) (row : Row) (r : List Int)
    (hlen : m._r.length = m._width) :
    (m.addRow row r)._r.length = m._width ∧
    ∀ k < m._width, (m.addRow row r)._r.getD k 0 = m._r.getD k 0 + r.getD k 0 := by
  unfold IrredundantMatrix.addRow
  rw [addRowInternal_r]
  have h := foldl_range_inv (fun i (acc : IrredundantMatrix) =>
      acc._r.length = m._width ∧
      (∀ k < i, acc._r.getD k 0 = m._r.getD k 0 + r.getD k 0) ∧
      ∀ k, i ≤ k → acc._r.getD k 0 = m._r.getD k 0)
    (fun acc i => { acc with _r := acc._r.set i (acc._r.getD i 0 + r.getD i 0) }) m m._width
    ⟨hlen, fun k hk => absurd hk (Nat.not_lt_zero k), fun _ _ => rfl⟩
    (by
      rintro i acc hi ⟨h1, h2, h3⟩
      refine ⟨by simpa using h1, fun k hk => ?_, fun k hk => ?_⟩
      · simp only
        by_cases hki : k = i
        · subst hki
          rw [getD_set_self _ _ _ _ (by rw [h1]; exact hi), h3 k (Nat.le_refl k)]
        · rw [getD_set_ne _ _ _ _ _ (Ne.symm hki)]
          exact h2 k (by omega)
      · simp only
        rw [getD_set_ne _ _ _ _ _ (by omega)]
        exact h3 k (by omega))
  exact ⟨h.1, h.2.1⟩

theorem foldl_addRow_r (calls : List (Row × List Int)) (m : IrredundantMatrix)
    (hlen : m._r.length = m._width) (k : Nat) (hk : k < m._width) :
    (calls.foldl (fun acc c => acc.addRow c.1 c.2) m)._r.getD k 0
      = m._r.getD k 0 + (calls.map fun c => c.2.getD k 0).sum := by
  induction calls generalizing m with
  | nil => simp
  | cons c calls ih =>
    have h := addRow_r m c.1 c.2 hlen
    have hw := addRow_width m c.1 c.2
    simp only [List.foldl_cons, List.map_cons, List.sum_cons]
    rw [ih (m.addRow c.1 c.2) (by rw [hw]; exact h.1) (by rw [hw]; exact hk), h.2 k hk]
    ring

theorem sum_map_flatMap {α β : Type} (f : β → Int) (g : α → List β) (l : List α) :
    ((l.flatMap g).map f).sum = (l.map fun x => ((g x).map f).sum).sum := by
  induction l with
  | nil => rfl
  | cons x l ih => simp [List.flatMap_cons, ih]

theorem sum_map_range_int (f : Nat → Int) (n : Nat) :
    ((List.range n).map f).sum = ∑ c in Finset.range n, f c := by
  induction n with
  | zero => simp
  | succ n ih => rw [List.range_succ, List.map_append, List.sum_append, ih, Finset.sum_range_succ]; simp

theorem sum_map_range'_int (f : Nat → Int) (s n : Nat) :
    ((List.range' s n).map f).sum = ∑ c in Finset.Ico s (s + n), f c := by
  rw [List.range'_eq_map_range, List.map_map, sum_map_range_int, Finset.sum_Ico_eq_sum_range]
  simp

/-- C4. Weights are the sum of all contributions: after the sequential `calculate` on a
fresh accumulator, every column weight is the sum, over the pairs of classes `i < j` and
the pairs of a row of class `i` and a row of class `j`, of the weight delta that
`calcRVector` computes for the two rows; each pair contributes once, whatever the filter
did with its difference row. -/
theorem weights_are_sum_of_contributions (m : InputMatrix) (k : Nat) (hk : k < m._qColsCount) :
    ((m.calculate (IrredundantMatrix.create m._qColsCount))._r).getD k 0
      = ∑ i in Finset.range m._r2Indexes.length,
          ∑ j in Finset.Ico (i + 1) m._r2Indexes.length,
            ∑ a in Finset.range (m._r2Counts.getD i 0),
              ∑ b in Finset.range (m._r2Counts.getD j 0),
                (m.calcRVector (m._r2Indexes.getD i 0 + a) (m._r2Indexes.getD j 0 + b)).getD k 0 := by
  rw [calculate_eq_calls, foldl_addRow_r _ _ (by simp [IrredundantMatrix.create]) k hk]
  have h0 : (IrredundantMatrix.create m._qColsCount)._r.getD k 0 = 0 := by
    simp [IrredundantMatrix.create, List.getElem?_replicate, hk]
  rw [h0, zero_add]
  unfold InputMatrix.calculateCalls InputMatrix.blockCalls
  simp only [sum_map_flatMap, List.map_map, sum_map_range_int, sum_map_range'_int,
    Function.comp_def]
  rcases Nat.eq_zero_or_pos m._r2Indexes.length with h | h
  · simp [h]
  · have hsplit : m._r2Indexes.length = (m._r2Indexes.length - 1) + 1 := by omega
    conv_rhs => rw [hsplit, Finset.sum_range_succ]
    rw [← hsplit]
    rw [Finset.Ico_self, Finset.sum_empty, add_zero]
    apply Finset.sum_congr rfl
    intro i hi
    have hi2 : i + 1 + (m._r2Indexes.length - (i + 1)) = m._r2Indexes.length := by
      have := Finset.mem_range.1 hi
      omega
    rw [hi2]
theorem weights_are_sum_of_contributions_witness :
    (((InputMatrix.create insertionSortDesc
        ⟨2, 2, 1, [[1, 2], [2, 1]], [[0], [1]], [1, 1], [2, 2]⟩).calculate
        (IrredundantMatrix.create (InputMatrix.create insertionSortDesc
          ⟨2, 2, 1, [[1, 2], [2, 1]], [[0], [1]], [1, 1], [2, 2]⟩)._qColsCount))._r).getD 0 0
      = ∑ i in Finset.range (InputMatrix.create insertionSortDesc
          ⟨2, 2, 1, [[1, 2], [2, 1]], [[0], [1]], [1, 1], [2, 2]⟩)._r2Indexes.length,
          ∑ j in Finset.Ico (i + 1) (InputMatrix.create insertionSortDesc
            ⟨2, 2, 1, [[1, 2], [2, 1]], [[0], [1]], [1, 1], [2, 2]⟩)._r2Indexes.length,
            ∑ a in Finset.range ((InputMatrix.create insertionSortDesc
              ⟨2, 2, 1, [[1, 2], [2, 1]], [[0], [1]], [1, 1], [2, 2]⟩)._r2Counts.getD i 0),
              ∑ b in Finset.range ((InputMatrix.create insertionSortDesc
                ⟨2, 2, 1, [[1, 2], [2, 1]], [[0], [1]], [1, 1], [2, 2]⟩)._r2Counts.getD j 0),
                ((InputMatrix.create insertionSortDesc
                  ⟨2, 2, 1, [[1, 2], [2, 1]], [[0], [1]], [1, 1], [2, 2]⟩).calcRVector
                  ((InputMatrix.create insertionSortDesc
                    ⟨2, 2, 1, [[1, 2], [2, 1]], [[0], [1]], [1, 1], [2, 2]⟩)._r2Indexes.getD i 0 + a)
                  ((InputMatrix.create insertionSortDesc
                    ⟨2, 2, 1, [[1, 2], [2, 1]], [[0], [1]], [1, 1], [2, 2]⟩)._r2Indexes.getD j 0
                      + b)).getD 0 0 :=
  weights_are_sum_of_contributions
    (InputMatrix.create insertionSortDesc ⟨2, 2, 1, [[1, 2], [2, 1]], [[0], [1]], [1, 1], [2, 2]⟩)
    0 (by decide)

/-! ## The stored rows after `calculate` -/

theorem addRowInternal_rows_congr (m m2 : IrredundantMatrix) (h : m._rows = m2._rows)
    (row : Row) : (m.addRowInternal row)._rows = (m2.addRowInternal row)._rows := by
  unfold IrredundantMatrix.addRowInternal
  rw [h]
  split <;> rfl

theorem foldl_addRow_rows (calls : List (Row × List Int)) (m m2 : IrredundantMatrix)
    (h : m._rows = m2._rows) :
    (calls.foldl (fun acc c => acc.addRow c.1 c.2) m)._rows
      = ((calls.map Prod.fst).foldl IrredundantMatrix.addRowInternal m2)._rows := by
  induction calls generalizing m m2 with
  | nil => exact h
  | cons c calls ih =>
    simp only [List.foldl_cons, List.map_cons]
    apply ih
    rw [addRow_rows]
    exact addRowInternal_rows_congr m m2 h c.1

theorem createAsDifference_comm (a b : Row) :
    Row.createAsDifference a b = Row.createAsDifference b a := by
  unfold Row.createAsDifference
  induction a generalizing b with
  | nil => cases b <;> rfl
  | cons x a ih =>
    cases b with
    | nil => rfl
    | cons y b =>
      simp only [List.zipWith_cons_cons, ih b]
      congr 1
      by_cases h : x = y
      · subst h; rfl
      · rw [if_neg h, if_neg (Ne.symm h), abs_sub_comm]

theorem createAsDifference_length (a b : Row) (Q : Nat) (ha : a.length = Q) (hb : b.length = Q) :
    (Row.createAsDifference a b).length = Q := by
  simp [Row.createAsDifference, ha, hb]

theorem mem_blockCalls (m : InputMatrix) (o1 l1 o2 l2 : Nat) (c : Row × List Int) :
    c ∈ m.blockCalls o1 l1 o2 l2 ↔
      ∃ a < l1, ∃ b < l2,
        c = (Row.createAsDifference (m._qMatrix.getD (o1 + a) []) (m._qMatrix.getD (o2 + b) []),
          m.calcRVector (o1 + a) (o2 + b)) := by
  unfold InputMatrix.blockCalls
  simp only [List.mem_flatMap, List.mem_map, List.mem_range]
  constructor
  · rintro ⟨a, ha, b, hb, rfl⟩
    exact ⟨a, ha, b, hb, rfl⟩
  · rintro ⟨a, ha, b, hb, rfl⟩
    exact ⟨a, ha, b, hb, rfl⟩

theorem mem_calculateCalls (m : InputMatrix) (c : Row × List Int) :
    c ∈ m.calculateCalls ↔
      ∃ i j, i < j ∧ j < m._r2Indexes.length ∧
        ∃ a < m._r2Counts.getD i 0, ∃ b < m._r2Counts.getD j 0,
          c = (Row.createAsDifference (m._qMatrix.getD (m._r2Indexes.getD i 0 + a) [])
              (m._qMatrix.getD (m._r2Indexes.getD j 0 + b) []),
            m.calcRVector (m._r2Indexes.getD i 0 + a) (m._r2Indexes.getD j 0 + b)) := by
  unfold InputMatrix.calculateCalls
  simp only [List.mem_flatMap, List.mem_range, List.mem_range'_1, mem_blockCalls]
  constructor
  · rintro ⟨i, hi, j, ⟨hj1, hj2⟩, h⟩
    exact ⟨i, j, by omega, by omega, h⟩
  · rintro ⟨i, j, hij, hj, h⟩
    exact ⟨i, by omega, j, ⟨by omega, by omega⟩, h⟩
theorem calls_rows_iff_isDifference (d : DataFile) (m : InputMatrix) (ids : List Nat) (C : Nat)
    (sc : List (Nat × Nat)) (σ : Nat → Nat) (h : PartitionSpec d m ids C sc σ) (x : Row) :
    x ∈ m.calculateCalls.map Prod.fst ↔ IsDifference d x := by
  obtain ⟨hl1, hl2, hoff⟩ := partition_offsets d m ids C sc σ h
  have hsc := h.sorted_counts
  have hlen := hsc.length_eq
  have hend : ∀ c < C, prefixSum sc (c + 1) ≤ d.learningSetLen := by
    intro c hc
    have := prefixSum_mono sc (show c + 1 ≤ C from hc) (by rw [hlen])
    rw [hsc.total] at this
    exact this
  simp only [List.mem_map, mem_calculateCalls, hl1]
  constructor
  · rintro ⟨c, ⟨i, j, hij, hj, a, ha, b, hb, rfl⟩, rfl⟩
    have hi : i < C := by omega
    obtain ⟨ei1, ei2, ei3⟩ := hoff i hi
    obtain ⟨ej1, ej2, ej3⟩ := hoff j hj
    have hp1 : prefixSum sc i ≤ m._r2Indexes.getD i 0 + a := by omega
    have hp2 : m._r2Indexes.getD i 0 + a < prefixSum sc (i + 1) := by omega
    have hq1 : prefixSum sc j ≤ m._r2Indexes.getD j 0 + b := by omega
    have hq2 : m._r2Indexes.getD j 0 + b < prefixSum sc (j + 1) := by omega
    have hpn := hend i hi
    have hqn := hend j hj
    obtain ⟨j1, hj1, hje⟩ := h.new_indexes.surj (m._r2Indexes.getD i 0 + a) (by omega)
    obtain ⟨k1, hk1, hke⟩ := h.new_indexes.surj (m._r2Indexes.getD j 0 + b) (by omega)
    refine ⟨j1, k1, hj1, hk1, ?_, ?_⟩
    · intro hlab
      obtain ⟨c, hc, ⟨a1, a2⟩, ⟨b1, b2⟩⟩ :=
        (partition_same_class_iff d m ids C sc σ h j1 k1 hj1 hk1).2 hlab
      rw [hje] at a1 a2
      rw [hke] at b1 b2
      have e1 : c = i := block_unique sc c i _ (by omega) (by omega) a1 a2 hp1 hp2
      have e2 : c = j := block_unique sc c j _ (by omega) (by omega) b1 b2 hq1 hq2
      omega
    · simp only
      rw [← hje, ← hke, h.qMatrix_moved j1 hj1, h.qMatrix_moved k1 hk1]
  · rintro ⟨j1, k1, hj1, hk1, hlab, rfl⟩
    obtain ⟨P, hP, _, heP, hlP⟩ := h.new_indexes.in_block j1 hj1
    obtain ⟨Q, hQ, _, heQ, hlQ⟩ := h.new_indexes.in_block k1 hk1
    obtain ⟨eP1, eP2, eP3⟩ := hoff P hP
    obtain ⟨eQ1, eQ2, eQ3⟩ := hoff Q hQ
    have hPQ : P ≠ Q := by
      intro he
      subst he
      exact hlab ((partition_same_class_iff d m ids C sc σ h j1 k1 hj1 hk1).1
        ⟨P, hP, ⟨by omega, hlP⟩, ⟨by omega, hlQ⟩⟩)
    have hpa : m._r2Indexes.getD P 0 + (σ j1 - prefixSum sc P) = σ j1 := by omega
    have hqb : m._r2Indexes.getD Q 0 + (σ k1 - prefixSum sc Q) = σ k1 := by omega
    rcases Nat.lt_or_gt_of_ne hPQ with hlt | hgt
    · refine ⟨_, ⟨P, Q, hlt, hQ, σ j1 - prefixSum sc P, by omega, σ k1 - prefixSum sc Q,
        by omega, rfl⟩, ?_⟩
      simp only
      rw [hpa, hqb, h.qMatrix_moved j1 hj1, h.qMatrix_moved k1 hk1]
    · refine ⟨_, ⟨Q, P, hgt, hP, σ k1 - prefixSum sc Q, by omega, σ j1 - prefixSum sc P,
        by omega, rfl⟩, ?_⟩
      simp only
      rw [hpa, hqb, h.qMatrix_moved j1 hj1, h.qMatrix_moved k1 hk1]
      exact createAsDifference_comm _ _

theorem isDifference_length (d : DataFile) (hwf : d.WellFormed) (x : Row)
    (hx : IsDifference d x) : x.length = d.featuresLen := by
  obtain ⟨j, k, hj, hk, _, rfl⟩ := hx
  have hrow : ∀ i < d.learningSetLen, (d.learningSetFeatures.getD i []).length = d.featuresLen := by
    intro i hi
    have hil : i < d.learningSetFeatures.length := by rw [hwf.1]; exact hi
    rw [List.getD_eq_getElem _ _ hil]
    exact hwf.2.2.1 _ (List.getElem_mem _)
  exact createAsDifference_length _ _ _ (hrow j hj) (hrow k hk)

theorem eq_singleton_of_nodup_of_mem_iff {α : Type} (l : List α) (a : α) (hnd : l.Nodup)
    (hmem : ∀ x, x ∈ l ↔ x = a) : l = [a] := by
  cases l with
  | nil => exact absurd ((hmem a).2 rfl) (List.not_mem_nil a)
  | cons b t =>
    have hb : b = a := (hmem b).1 (List.mem_cons_self b t)
    subst hb
    cases t with
    | nil => rfl
    | cons c t =>
      have hc : c = b := (hmem c).1 (List.mem_cons_of_mem _ (List.mem_cons_self c t))
      subst hc
      exact absurd (List.mem_cons_self c t) (List.nodup_cons.1 hnd).1

theorem calculate_rows_iff (sort : List (Nat × Nat) → List (Nat × Nat)) (hsort : IsStdSort sort)
    (d : DataFile) (hwf : d.WellFormed) (hn : 0 < d.learningSetLen) :
    ((InputMatrix.create sort d).calculate
        (IrredundantMatrix.create (InputMatrix.create sort d)._qColsCount))._rows.Nodup ∧
    ∀ x, x ∈ ((InputMatrix.create sort d).calculate
        (IrredundantMatrix.create (InputMatrix.create sort d)._qColsCount))._rows ↔
      IsDifference d x ∧ ∀ y, IsDifference d y → y ≠ x → Row.isInclude y x = false := by
  obtain ⟨ids, C, σ, h⟩ := create_spec sort hsort d hn
  generalize sort (sortMatrixTuples C (sortMatrixCounts d.learningSetLen C ids)) = sc at h
  generalize InputMatrix.create sort d = m at h
  have hmem := calls_rows_iff_isDifference d m ids C sc σ h
  have hwidth : ∀ r ∈ m.calculateCalls.map Prod.fst, r.length = d.featuresLen :=
    fun r hr => isDifference_length d hwf r ((hmem r).1 hr)
  rw [calculate_eq_calls, h.qColsCount_eq]
  constructor
  · apply noDominance_nodup
    refine (foldl_addRow_inv m.calculateCalls (IrredundantMatrix.create d.featuresLen)
      (create_inv _) fun c hc => hwidth c.1 (List.mem_map_of_mem _ hc)).2
  · intro x
    rw [foldl_addRow_rows _ _ _ rfl,
      insert_all_iff_undominated d.featuresLen (m.calculateCalls.map Prod.fst) hwidth x, hmem x]
    constructor
    · rintro ⟨h1, h2⟩
      exact ⟨h1, fun y hy => h2 y ((hmem y).2 hy)⟩
    · rintro ⟨h1, h2⟩
      exact ⟨h1, fun y hy => h2 y ((hmem y).1 hy)⟩

/-- C3. End-to-end result of the sequential `calculate`: for a well-formed non-empty
dataset, the rows stored in a fresh accumulator after `calculate` are exactly the
differences of the feature rows of two training rows with different label vectors that
no other such difference includes; two singleton classes with features `[1,2]` and
`[2,1]` leave the one row `difference([1,2],[2,1])`. -/
theorem calculate_rows_are_undominated_differences
    (sort : List (Nat × Nat) → List (Nat × Nat)) (hsort : IsStdSort sort) (d : DataFile)
    (hwf : d.WellFormed) (hn : 0 < d.learningSetLen) :
    (∀ x, x ∈ ((InputMatrix.create sort d).calculate
        (IrredundantMatrix.create (InputMatrix.create sort d)._qColsCount))._rows ↔
      IsDifference d x ∧ ∀ y, IsDifference d y → y ≠ x → Row.isInclude y x = false) ∧
    ((InputMatrix.create sort ⟨2, 2, 1, [[1, 2], [2, 1]], [[0], [1]], [1, 1], [2, 2]⟩).calculate
        (IrredundantMatrix.create 2))._rows = [Row.createAsDifference [1, 2] [2, 1]] := by
  constructor
  · exact (calculate_rows_iff sort hsort d hwf hn).2
  · have hex := calculate_rows_iff sort hsort
      ⟨2, 2, 1, [[1, 2], [2, 1]], [[0], [1]], [1, 1], [2, 2]⟩
      ⟨by decide, by decide, by decide, by decide, by decide, by decide⟩ (by decide)
    have hq : (InputMatrix.create sort
        ⟨2, 2, 1, [[1, 2], [2, 1]], [[0], [1]], [1, 1], [2, 2]⟩)._qColsCount = 2 := rfl
    rw [hq] at hex
    have hdiff : ∀ y, IsDifference ⟨2, 2, 1, [[1, 2], [2, 1]], [[0], [1]], [1, 1], [2, 2]⟩ y ↔
        y = Row.createAsDifference [1, 2] [2, 1] := by
      intro y
      constructor
      · rintro ⟨j, k, hj, hk, hlab, rfl⟩
        have hj2 : j < 2 := hj
        have hk2 : k < 2 := hk
        interval_cases j <;> interval_cases k
        · exact absurd rfl hlab
        · rfl
        · decide
        · exact absurd rfl hlab
      · rintro rfl
        exact ⟨0, 1, by decide, by decide, by decide, rfl⟩
    apply eq_singleton_of_nodup_of_mem_iff
    · exact hex.1
    · intro x
      rw [hex.2 x, hdiff x]
      constructor
      · exact fun hx => hx.1
      · intro hx
        refine ⟨hx, fun y hy hne => ?_⟩
        rw [hdiff y] at hy
        exact absurd (hy.trans hx.symm) hne
theorem calculate_rows_are_undominated_differences_witness :
    (([DASH, 1] : Row) ∈ ((InputMatrix.create insertionSortDesc
        ⟨5, 2, 1, [[1, 1], [2, 2], [1, 2], [2, 1], [DASH, 1]], [[0], [1], [0], [2], [1]],
          [1, 1], [2, 2]⟩).calculate
        (IrredundantMatrix.create (InputMatrix.create insertionSortDesc
          ⟨5, 2, 1, [[1, 1], [2, 2], [1, 2], [2, 1], [DASH, 1]], [[0], [1], [0], [2], [1]],
            [1, 1], [2, 2]⟩)._qColsCount))._rows ↔
      IsDifference
          ⟨5, 2, 1, [[1, 1], [2, 2], [1, 2], [2, 1], [DASH, 1]], [[0], [1], [0], [2], [1]],
            [1, 1], [2, 2]⟩ [DASH, 1] ∧
        ∀ y, IsDifference
            ⟨5, 2, 1, [[1, 1], [2, 2], [1, 2], [2, 1], [DASH, 1]], [[0], [1], [0], [2], [1]],
              [1, 1], [2, 2]⟩ y →
          y ≠ [DASH, 1] → Row.isInclude y [DASH, 1] = false) ∧
    ([DASH, 1] : Row) ∈ ((InputMatrix.create insertionSortDesc
        ⟨5, 2, 1, [[1, 1], [2, 2], [1, 2], [2, 1], [DASH, 1]], [[0], [1], [0], [2], [1]],
          [1, 1], [2, 2]⟩).calculate
        (IrredundantMatrix.create (InputMatrix.create insertionSortDesc
          ⟨5, 2, 1, [[1, 1], [2, 2], [1, 2], [2, 1], [DASH, 1]], [[0], [1], [0], [2], [1]],
            [1, 1], [2, 2]⟩)._qColsCount))._rows :=
  ⟨(calculate_rows_are_undominated_differences insertionSortDesc insertionSortDesc_isStdSort
      ⟨5, 2, 1, [[1, 1], [2, 2], [1, 2], [2, 1], [DASH, 1]], [[0], [1], [0], [2], [1]],
        [1, 1], [2, 2]⟩
      ⟨by decide, by decide, by decide, by decide, by decide, by decide⟩ (by decide)).1 [DASH, 1],
    by decide⟩
/-! ## Laws of inclusion and difference -/

/-- C13. Inclusion is a preorder on rows of equal width: every row includes itself, and
if `a` includes `b` and `b` includes `c` (all of one width) then `a` includes `c`. -/
theorem includes_is_preorder :
    (∀ a : Row, Row.isInclude a a = true) ∧
    ∀ a b c : Row, a.length = b.length → b.length = c.length →
      Row.isInclude a b = true → Row.isInclude b c = true → Row.isInclude a c = true :=
  ⟨Row.isInclude_refl, Row.isInclude_trans⟩

theorem includes_is_preorder_witness :
    Row.isInclude [DASH, DASH] [DASH, 1] = true ∧ Row.isInclude [DASH, 1] [2, 1] = true ∧
    Row.isInclude [DASH, DASH] [2, 1] = true :=
  ⟨by decide, by decide,
    includes_is_preorder.2 [DASH, DASH] [DASH, 1] [2, 1] rfl rfl (by decide) (by decide)⟩

/-- C14, as the definition has it. Inclusion is antisymmetric on rows of equal width: two
rows that include each other are the same row, so two rows that differ, in the placement
of `DASH` or elsewhere, never include each other mutually. -/
theorem includes_is_antisymmetric (a b : Row) (hlen : a.length = b.length)
    (hab : Row.isInclude a b = true) (hba : Row.isInclude b a = true) : a = b :=
  Row.isInclude_antisymm a b hlen hab hba

theorem includes_is_antisymmetric_witness :
    Row.isInclude [DASH, 1] [DASH, 1] = true ∧ ([DASH, 1] : Row) = [DASH, 1] :=
  ⟨by decide, includes_is_antisymmetric [DASH, 1] [DASH, 1] rfl (by decide) (by decide)⟩

/-- C14, counterexample. No two distinct rows of one width include each other; the rows
`[DASH, 1]` and `[1, DASH]`, which differ only in where they hold `DASH`, include each
other in neither direction. -/
theorem no_mutual_inclusion_of_distinct_rows :
    (¬ ∃ a b : Row, a.length = b.length ∧ a ≠ b ∧
      Row.isInclude a b = true ∧ Row.isInclude b a = true) ∧
    Row.isInclude [DASH, 1] [1, DASH] = false ∧ Row.isInclude [1, DASH] [DASH, 1] = false := by
  refine ⟨?_, by decide, by decide⟩
  rintro ⟨a, b, hlen, hne, hab, hba⟩
  exact hne (Row.isInclude_antisymm a b hlen hab hba)

theorem createAsDifference_self (a : Row) :
    Row.createAsDifference a a = List.replicate a.length DASH := by
  unfold Row.createAsDifference
  induction a with
  | nil => rfl
  | cons x a ih => simp [List.replicate_succ, ih]

theorem isInclude_allDash (Q : Nat) (b : Row) (hb : b.length = Q) :
    Row.isInclude (List.replicate Q DASH) b = true := by
  induction Q generalizing b with
  | zero => simp [Row.isInclude]
  | succ Q ih =>
    cases b with
    | nil => simp at hb
    | cons y b =>
      rw [List.replicate_succ, Row.isInclude_cons, ih b (by simpa using hb)]
      simp

theorem foldl_addRowInternal_rows_of_allDash (rows : List Row) (m : IrredundantMatrix)
    (hinv : AccInv m) (hrows : ∀ r ∈ rows, r.length = m._width)
    (hmem : List.replicate m._width DASH ∈ m._rows) :
    (rows.foldl IrredundantMatrix.addRowInternal m)._rows = m._rows := by
  induction rows generalizing m with
  | nil => rfl
  | cons row rows ih =>
    have hrow : row.length = m._width := hrows row (List.mem_cons_self _ _)
    have h1 : (m.addRowInternal row)._rows = m._rows :=
      addRowInternal_rows_of_dominated m row hinv hrow
        ⟨_, hmem, isInclude_allDash m._width row hrow⟩
    have hw := addRowInternal_width m row
    simp only [List.foldl_cons]
    rw [ih (m.addRowInternal row) (addRowInternal_inv m row hinv hrow)
      (fun r hr => by rw [hw]; exact hrows r (List.mem_cons_of_mem _ hr))
      (by rw [hw, h1]; exact hmem), h1]

/-- C15. The difference of a row with itself is the all-`DASH` row of its width; the
all-`DASH` row of width `Q` includes every row of width `Q`; and once the all-`DASH` row
is stored in an accumulator (reached from empty by insertions), every later insertion of
rows of the accumulator's width is discarded: the stored rows stay as they are. -/
theorem all_dash_row_absorbs :
    (∀ a : Row, Row.createAsDifference a a = List.replicate a.length DASH) ∧
    (∀ (Q : Nat) (b : Row), b.length = Q → Row.isInclude (List.replicate Q DASH) b = true) ∧
    ∀ (m : IrredundantMatrix) (rows : List Row), Reachable m →
      (∀ r ∈ rows, r.length = m._width) → List.replicate m._width DASH ∈ m._rows →
      (rows.foldl IrredundantMatrix.addRowInternal m)._rows = m._rows ∧
      ∀ (row : Row) (r : List Int), row.length = m._width → (m.addRow row r)._rows = m._rows := by
  refine ⟨createAsDifference_self, isInclude_allDash, fun m rows hm hrows hmem => ⟨?_, ?_⟩⟩
  · exact foldl_addRowInternal_rows_of_allDash rows m (reachable_inv m hm) hrows hmem
  · intro row r hrow
    rw [addRow_rows]
    exact addRowInternal_rows_of_dominated m row (reachable_inv m hm) hrow
      ⟨_, hmem, isInclude_allDash m._width row hrow⟩

theorem all_dash_row_absorbs_witness :
    Row.createAsDifference [1, 2] [1, 2] = [DASH, DASH] ∧
    (([[1, 1], [2, DASH]] : List Row).foldl IrredundantMatrix.addRowInternal
      ((IrredundantMatrix.create 2).addRowInternal [DASH, DASH]))._rows
      = ((IrredundantMatrix.create 2).addRowInternal [DASH, DASH])._rows :=
  ⟨all_dash_row_absorbs.1 [1, 2],
    (all_dash_row_absorbs.2.2 ((IrredundantMatrix.create 2).addRowInternal [DASH, DASH])
      [[1, 1], [2, DASH]] (Reachable.addRowInternal _ _ (Reachable.empty 2) (by decide))
      (by decide) (by decide)).1⟩
/-! ## `addMatrixConcurrent` and `clear` -/

theorem foldl_addWeights_r (r : List Int) (m : IrredundantMatrix) (hlen : m._r.length = m._width) :
    ((List.range m._width).foldl
        (fun acc i => { acc with _r := acc._r.set i (acc._r.getD i 0 + r.getD i 0) }) m)._r.length
      = m._width ∧
    ∀ k < m._width, ((List.range m._width).foldl
        (fun acc i => { acc with _r := acc._r.set i (acc._r.getD i 0 + r.getD i 0) }) m)._r.getD k 0
      = m._r.getD k 0 + r.getD k 0 := by
  have h := addRow_r m [] r hlen
  unfold IrredundantMatrix.addRow at h
  rw [addRowInternal_r] at h
  exact h

theorem reachable_r_length (m : IrredundantMatrix) (h : Reachable m) : m._r.length = m._width := by
  induction h with
  | empty width => simp [IrredundantMatrix.create]
  | addRow m row r _ _ ih => rw [addRow_width]; exact (addRow_r m row r ih).1
  | addRowInternal m row _ _ ih => rw [addRowInternal_r, addRowInternal_width]; exact ih

theorem foldl_addRowInternal_r (rows : List Row) (m : IrredundantMatrix) :
    (rows.foldl IrredundantMatrix.addRowInternal m)._r = m._r ∧
    (rows.foldl IrredundantMatrix.addRowInternal m)._width = m._width := by
  induction rows generalizing m with
  | nil => exact ⟨rfl, rfl⟩
  | cons row rows ih =>
    simp only [List.foldl_cons]
    rw [(ih _).1, (ih _).2, addRowInternal_r, addRowInternal_width]
    exact ⟨rfl, rfl⟩

theorem self_covers (rows : List Row) :
    ∀ p ∈ rows, ∃ s ∈ rows, Row.isInclude s p = true :=
  fun p hp => ⟨p, hp, Row.isInclude_refl p⟩

theorem addMatrixConcurrent_spec (A B : IrredundantMatrix) (hA : AccInv A)
    (hAr : A._r.length = A._width) (hB : ∀ r ∈ B._rows, r.length = A._width) :
    AccInv (A.addMatrixConcurrent B) ∧
    (A.addMatrixConcurrent B)._width = A._width ∧
    (A.addMatrixConcurrent B)._r.length = A._width ∧
    (∀ k < A._width, (A.addMatrixConcurrent B)._r.getD k 0 = A._r.getD k 0 + B._r.getD k 0) ∧
    (∀ s ∈ (A.addMatrixConcurrent B)._rows, s ∈ A._rows ++ B._rows) ∧
    (∀ p ∈ A._rows ++ B._rows,
      ∃ s ∈ (A.addMatrixConcurrent B)._rows, Row.isInclude s p = true) := by
  unfold IrredundantMatrix.addMatrixConcurrent
  have hw := foldl_addWeights_r B._r A hAr
  have hf := addWeights_fields B._r (List.range A._width) A
  generalize (List.range A._width).foldl
    (fun acc i => { acc with _r := acc._r.set i (acc._r.getD i 0 + B._r.getD i 0) }) A = A1
    at hw hf
  have hA1 : AccInv A1 := by
    unfold AccInv
    rw [hf.1, hf.2]
    exact hA
  have hc := foldl_addRowInternal_covers B._rows A1 A._rows hA1
    (fun r hr => by rw [hf.2]; exact hB r hr) (fun p hp => by rw [hf.2]; exact hA.1 p hp)
    (fun s hs => by rw [hf.1] at hs; exact hs)
    (fun p hp => by rw [hf.1]; exact self_covers A._rows p hp)
  have hr := foldl_addRowInternal_r B._rows A1
  refine ⟨hc.1, by rw [hr.2, hf.2], by rw [hr.1]; exact hw.1, fun k hk => ?_, hc.2.2.1, hc.2.2.2⟩
  rw [hr.1]
  exact hw.2 k hk

/-- C11. `addMatrixConcurrent` folds another accumulator: for accumulators `A` and `B` of
equal width, both reached from empty by insertions, after `A.addMatrixConcurrent(B)` run
by one thread every column weight of `A` is its old value plus the weight of `B`, the
stored rows of `A` are the rows of `A_old.rows ∪ B.rows` that no different row of that
union includes, and no stored row includes a stored row at another position. -/
theorem addMatrix_folds_accumulator (A B : IrredundantMatrix) (hA : Reachable A)
    (hB : Reachable B) (hw : A._width = B._width) :
    (∀ k < A._width, (A.addMatrixConcurrent B)._r.getD k 0 = A._r.getD k 0 + B._r.getD k 0) ∧
    (∀ x, x ∈ (A.addMatrixConcurrent B)._rows ↔
      x ∈ A._rows ++ B._rows ∧
        ∀ y ∈ A._rows ++ B._rows, y ≠ x → Row.isInclude y x = false) ∧
    ∀ i j (hi : i < (A.addMatrixConcurrent B)._rows.length)
      (hj : j < (A.addMatrixConcurrent B)._rows.length), i ≠ j →
      Row.isInclude ((A.addMatrixConcurrent B)._rows[i]) ((A.addMatrixConcurrent B)._rows[j])
        = false := by
  have hAinv := reachable_inv A hA
  have hBinv := reachable_inv B hB
  have h := addMatrixConcurrent_spec A B hAinv (reachable_r_length A hA)
    (fun r hr => by rw [hw]; exact hBinv.1 r hr)
  refine ⟨h.2.2.2.1, fun x => ?_, fun i j hi hj hij => ?_⟩
  · refine stored_iff_undominated A._width _ (A._rows ++ B._rows) ?_ h.1.2 h.2.2.2.2.1
      h.2.2.2.2.2 x
    intro p hp
    rcases List.mem_append.1 hp with hp1 | hp1
    · exact hAinv.1 p hp1
    · rw [hw]; exact hBinv.1 p hp1
  · have hp := List.pairwise_iff_getElem.1 h.1.2
    rcases Nat.lt_or_gt_of_ne hij with hlt | hgt
    · exact (hp i j hi hj hlt).1
    · exact (hp j i hj hi hgt).2

theorem addMatrix_folds_accumulator_witness :
    (∀ k < 2, ((((IrredundantMatrix.create 2).addRow [DASH, 1] [1, 2]).addRow [2, 2]
          [1, 1]).addMatrixConcurrent
        (((IrredundantMatrix.create 2).addRow [DASH, DASH] [3, 4])))._r.getD k 0
      = (((IrredundantMatrix.create 2).addRow [DASH, 1] [1, 2]).addRow [2, 2] [1, 1])._r.getD k 0
        + ((IrredundantMatrix.create 2).addRow [DASH, DASH] [3, 4])._r.getD k 0) ∧
    ((((IrredundantMatrix.create 2).addRow [DASH, 1] [1, 2]).addRow [2, 2]
          [1, 1]).addMatrixConcurrent
        (((IrredundantMatrix.create 2).addRow [DASH, DASH] [3, 4])))
      = ⟨2, [5, 7], [[DASH, DASH]]⟩ :=
  ⟨(addMatrix_folds_accumulator
      (((IrredundantMatrix.create 2).addRow [DASH, 1] [1, 2]).addRow [2, 2] [1, 1])
      ((IrredundantMatrix.create 2).addRow [DASH, DASH] [3, 4])
      (Reachable.addRow _ _ _ (Reachable.addRow _ _ _ (Reachable.empty 2) (by decide))
        (by decide))
      (Reachable.addRow _ _ _ (Reachable.empty 2) (by decide)) (by decide)).1,
    by decide⟩

/-! ## A single class -/

/-- C12. A single class yields nothing: when all rows of a non-empty dataset have the
same label vector there is one class, the sequential `calculate` makes no `processBlock`
and no `addRow` call and returns the accumulator it was given, so a fresh accumulator
stays without rows and with zero weights; so it is for `N = 3`, features
`[[1,1],[2,2],[1,2]]` and labels all `[0]`. -/
theorem single_class_yields_nothing (sort : List (Nat × Nat) → List (Nat × Nat))
    (hsort : IsStdSort sort) (d : DataFile) (hn : 0 < d.learningSetLen)
    (hsame : ∀ j < d.learningSetLen, ∀ k < d.learningSetLen,
      d.learningSetPfeatures.getD j [] = d.learningSetPfeatures.getD k []) :
    (InputMatrix.create sort d)._r2Indexes.length = 1 ∧
    (InputMatrix.create sort d).classPairs = [] ∧
    (InputMatrix.create sort d).calculateCalls = [] ∧
    (∀ acc, (InputMatrix.create sort d).calculate acc = acc) ∧
    (InputMatrix.create sort d).calculate
        (IrredundantMatrix.create (InputMatrix.create sort d)._qColsCount)
      = { _width := d.featuresLen, _r := List.replicate d.featuresLen 0, _rows := [] } ∧
    (InputMatrix.create sort
        ⟨3, 2, 1, [[1, 1], [2, 2], [1, 2]], [[0], [0], [0]], [1, 1], [2, 2]⟩).calculate
        (IrredundantMatrix.create 2)
      = { _width := 2, _r := [0, 0], _rows := [] } := by
  have key : ∀ (d : DataFile), 0 < d.learningSetLen →
      (∀ j < d.learningSetLen, ∀ k < d.learningSetLen,
        d.learningSetPfeatures.getD j [] = d.learningSetPfeatures.getD k []) →
      (InputMatrix.create sort d)._r2Indexes.length = 1 := by
    intro d hn hsame
    obtain ⟨ids, C, σ, h⟩ := create_spec sort hsort d hn
    generalize sort (sortMatrixTuples C (sortMatrixCounts d.learningSetLen C ids)) = sc at h
    rw [(partition_offsets d _ ids C sc σ h).1]
    have h0 : ids.getD 0 0 < C := h.ids_lt 0 hn
    have hall : ∀ c < C, c = ids.getD 0 0 := by
      intro c hc
      obtain ⟨j, hj, hjc⟩ := h.ids_used c hc
      rw [← hjc]
      exact (h.same_id_iff j 0 hj hn).2 (hsame j hj 0 hn)
    have := hall 0 (by omega)
    by_contra hne
    have := hall 1 (by omega)
    omega
  have hcalc : ∀ (d : DataFile), (InputMatrix.create sort d)._r2Indexes.length = 1 →
      ∀ acc, (InputMatrix.create sort d).calculate acc = acc := by
    intro d h1 acc
    unfold InputMatrix.calculate
    rw [h1]
    rfl
  have h1 := key d hn hsame
  refine ⟨h1, ?_, ?_, hcalc d h1, ?_, ?_⟩
  · unfold InputMatrix.classPairs
    rw [h1]
    rfl
  · unfold InputMatrix.calculateCalls
    rw [h1]
    rfl
  · rw [hcalc d h1]
    rfl
  · rw [hcalc _ (key _ (by decide) (by decide))]
    rfl

theorem single_class_yields_nothing_witness :
    (InputMatrix.create insertionSortDesc
      ⟨3, 2, 1, [[1, 1], [2, 2], [1, 2]], [[0], [0], [0]], [1, 1], [2, 2]⟩)._r2Indexes.length
      = 1 ∧
    (InputMatrix.create insertionSortDesc
      ⟨3, 2, 1, [[1, 1], [2, 2], [1, 2]], [[0], [0], [0]], [1, 1], [2, 2]⟩)._r2Counts = [3] :=
  ⟨(single_class_yields_nothing insertionSortDesc insertionSortDesc_isStdSort
      ⟨3, 2, 1, [[1, 1], [2, 2], [1, 2]], [[0], [0], [0]], [1, 1], [2, 2]⟩ (by decide)
      (by decide)).1, by decide⟩
/-! ## Sign and growth of the column weights -/

theorem specDashProduct_nonneg (m : InputMatrix) (row k : Nat)
    (hrange : ∀ c < m._qColsCount, m._qMinimum.getD c 0 ≤ m._qMaximum.getD c 0) :
    0 ≤ specDashProduct m row k := by
  unfold specDashProduct
  apply Finset.prod_nonneg
  intro c hc
  exact (valuesCount_pos m c (hrange c (Finset.mem_range.1 (Finset.mem_filter.1 hc).1))).le

theorem calcRVector_nonneg (m : InputMatrix)
    (hrange : ∀ c < m._qColsCount, m._qMinimum.getD c 0 ≤ m._qMaximum.getD c 0)
    (row1 row2 k : Nat) : 0 ≤ (m.calcRVector row1 row2).getD k 0 := by
  by_cases hk : k < m._qColsCount
  · rw [calcRVector_getD m row1 row2 k hk, (calcMultiplier_eq m row1 row2 k hrange hk).1]
    apply mul_nonneg
    · exact mul_nonneg (specDashProduct_nonneg m row1 k hrange)
        (specDashProduct_nonneg m row2 k hrange)
    · exact Finset.sum_nonneg fun i _ => Finset.sum_nonneg fun j _ => abs_nonneg _
  · have hlen : (m.calcRVector row1 row2).length = m._qColsCount := by
      simp [InputMatrix.calcRVector]
    rw [List.getD_eq_default _ _ (by rw [hlen]; omega)]

theorem foldl_addRow_r_length (calls : List (Row × List Int)) (m : IrredundantMatrix)
    (hlen : m._r.length = m._width) :
    (calls.foldl (fun acc c => acc.addRow c.1 c.2) m)._r.length = m._width ∧
    (calls.foldl (fun acc c => acc.addRow c.1 c.2) m)._width = m._width := by
  induction calls generalizing m with
  | nil => exact ⟨hlen, rfl⟩
  | cons c calls ih =>
    have h := addRow_r m c.1 c.2 hlen
    have hw := addRow_width m c.1 c.2
    simp only [List.foldl_cons]
    have := ih (m.addRow c.1 c.2) (by rw [hw]; exact h.1)
    rw [hw] at this
    exact this

/-- C16. Column weights are nonnegative and never decrease: when `max[c] ≥ min[c]` in
every column, every weight delta that `calcRVector` produces is `≥ 0`; an `addRow` with
such a delta leaves every column weight at least as large as before; and along the
`addRow` calls that `calculate` makes through `processBlock` on a fresh accumulator
every column weight is `≥ 0` and `≥` its previous value after each call. -/
theorem weights_nonnegative_and_monotone (m : InputMatrix)
    (hrange : ∀ c < m._qColsCount, m._qMinimum.getD c 0 ≤ m._qMaximum.getD c 0) :
    (∀ row1 row2 k, 0 ≤ (m.calcRVector row1 row2).getD k 0) ∧
    (∀ (acc : IrredundantMatrix) (row : Row) (row1 row2 : Nat), acc._r.length = acc._width →
      ∀ k < acc._width,
        acc._r.getD k 0 ≤ (acc.addRow row (m.calcRVector row1 row2))._r.getD k 0) ∧
    ∀ n, ∀ k < m._qColsCount,
      0 ≤ ((m.calculateCalls.take n).foldl (fun acc c => acc.addRow c.1 c.2)
          (IrredundantMatrix.create m._qColsCount))._r.getD k 0 ∧
      ((m.calculateCalls.take n).foldl (fun acc c => acc.addRow c.1 c.2)
          (IrredundantMatrix.create m._qColsCount))._r.getD k 0
        ≤ ((m.calculateCalls.take (n + 1)).foldl (fun acc c => acc.addRow c.1 c.2)
          (IrredundantMatrix.create m._qColsCount))._r.getD k 0 := by
  have hdelta := calcRVector_nonneg m hrange
  have hstep : ∀ (acc : IrredundantMatrix) (row : Row) (row1 row2 : Nat),
      acc._r.length = acc._width → ∀ k < acc._width,
        acc._r.getD k 0 ≤ (acc.addRow row (m.calcRVector row1 row2))._r.getD k 0 := by
    intro acc row row1 row2 hlen k hk
    rw [(addRow_r acc row _ hlen).2 k hk]
    have := hdelta row1 row2 k
    omega
  refine ⟨hdelta, hstep, fun n k hk => ?_⟩
  have hfresh : (IrredundantMatrix.create m._qColsCount)._r.length
      = (IrredundantMatrix.create m._qColsCount)._width := by
    simp [IrredundantMatrix.create]
  have hcall : ∀ c ∈ m.calculateCalls, ∀ k, 0 ≤ c.2.getD k 0 := by
    intro c hc k
    obtain ⟨i, j, _, _, a, _, b, _, rfl⟩ := (mem_calculateCalls m c).1 hc
    exact hdelta _ _ k
  constructor
  · rw [foldl_addRow_r _ _ hfresh k hk]
    have h0 : (IrredundantMatrix.create m._qColsCount)._r.getD k 0 = 0 := by
      simp [IrredundantMatrix.create, List.getElem?_replicate, hk]
    rw [h0, zero_add]
    apply List.sum_nonneg
    intro x hx
    obtain ⟨c, hc, rfl⟩ := List.mem_map.1 hx
    exact hcall c (List.mem_of_mem_take hc) k
  · rw [List.take_succ, List.foldl_append]
    cases hget : m.calculateCalls[n]? with
    | none => simp
    | some c =>
      have hc : c ∈ m.calculateCalls := List.getElem?_mem hget
      obtain ⟨i, j, _, _, a, _, b, _, rfl⟩ := (mem_calculateCalls m c).1 hc
      simp only [Option.toList_some, List.foldl_cons, List.foldl_nil]
      have hl := foldl_addRow_r_length (m.calculateCalls.take n)
        (IrredundantMatrix.create m._qColsCount) hfresh
      exact hstep _ _ _ _ (by rw [hl.1, hl.2]) k (by rw [hl.2]; exact hk)

theorem weights_nonnegative_and_monotone_witness :
    0 ≤ ((InputMatrix.create insertionSortDesc
        ⟨5, 2, 1, [[1, 1], [2, 2], [1, 2], [2, 1], [DASH, 1]], [[0], [1], [0], [2], [1]],
          [1, 1], [2, 2]⟩).calcRVector 0 3).getD 0 0 ∧
    (InputMatrix.create insertionSortDesc
        ⟨5, 2, 1, [[1, 1], [2, 2], [1, 2], [2, 1], [DASH, 1]], [[0], [1], [0], [2], [1]],
          [1, 1], [2, 2]⟩).calcRVector 0 3 = [1, 0] :=
  ⟨(weights_nonnegative_and_monotone
      (InputMatrix.create insertionSortDesc
        ⟨5, 2, 1, [[1, 1], [2, 2], [1, 2], [2, 1], [DASH, 1]], [[0], [1], [0], [2], [1]],
          [1, 1], [2, 2]⟩) (by decide)).1 0 3 0, by decide⟩
/-! ## Overflow of the weight arithmetic -/

theorem wrapInt32_range (x : Int) : -2147483648 ≤ wrapInt32 x ∧ wrapInt32 x < 2147483648 := by
  unfold wrapInt32
  omega

theorem addRow32_r (m : IrredundantMatrix) (row : Row) (r : List Int)
    (hlen : m._r.length = m._width) :
    (m.addRow32 row r)._r.length = m._width ∧
    ∀ k < m._width, (m.addRow32 row r)._r.getD k 0 = wrapInt32 (m._r.getD k 0 + r.getD k 0) := by
  unfold IrredundantMatrix.addRow32
  rw [addRowInternal_r]
  have h := foldl_range_inv (fun i (acc : IrredundantMatrix) =>
      acc._r.length = m._width ∧
      (∀ k < i, acc._r.getD k 0 = wrapInt32 (m._r.getD k 0 + r.getD k 0)) ∧
      ∀ k, i ≤ k → acc._r.getD k 0 = m._r.getD k 0)
    (fun acc i => { acc with _r := acc._r.set i (wrapInt32 (acc._r.getD i 0 + r.getD i 0)) })
    m m._width
    ⟨hlen, fun k hk => absurd hk (Nat.not_lt_zero k), fun _ _ => rfl⟩
    (by
      rintro i acc hi ⟨h1, h2, h3⟩
      refine ⟨by simpa using h1, fun k hk => ?_, fun k hk => ?_⟩
      · simp only
        by_cases hki : k = i
        · subst hki
          rw [getD_set_self _ _ _ _ (by rw [h1]; exact hi), h3 k (Nat.le_refl k)]
        · rw [getD_set_ne _ _ _ _ _ (Ne.symm hki)]
          exact h2 k (by omega)
      · simp only
        rw [getD_set_ne _ _ _ _ _ (by omega)]
        exact h3 k (by omega))
  exact ⟨h.1, h.2.1⟩

/-- With the largest `int` as upper bound the loop does not end, whatever the number of
iterations followed: the wrapped counter never exceeds the bound. -/
theorem forLoop32_at_int_max {σ : Type} (body : σ → Int → Option σ) (fuel : Nat) :
    ∀ (i : Int) (s : σ), i ≤ 2147483647 → forLoop32 2147483647 body fuel i s = none := by
  induction fuel with
  | zero =>
    intro i s hi
    rw [forLoop32, if_pos hi]
  | succ fuel ih =>
    intro i s hi
    rw [forLoop32, if_pos hi]
    cases body s i with
    | none => rfl
    | some s2 =>
      have := (wrapInt32_range (i + 1)).2
      exact ih _ s2 (by omega)

set_option maxRecDepth 100000

/-- With a range that ends at the largest `int` the value loops of `calcRVector` do not
end on 32-bit `int`: whatever the number of iterations followed, there is no result. -/
theorem calcRVector32_at_largest_int (fuel : Nat) :
    largestIntColumn.calcRVector32 fuel 0 1 = none := by
  have hM : largestIntColumn.calcMultiplier32 0 1 0 = some 1 := by decide
  have hl : largestIntColumn.calcLimits 0 0 = (2147483647, 2147483647) := by decide
  have hc : largestIntColumn.calcRColumn32 fuel 0 1 0 = none := by
    unfold InputMatrix.calcRColumn32
    rw [hM, hl]
    exact forLoop32_at_int_max _ fuel 2147483647 0 (le_refl _)
  have hq : largestIntColumn._qColsCount = 1 := rfl
  unfold InputMatrix.calcRVector32
  rw [hq]
  simp only [List.range_succ, List.range_zero, List.nil_append, List.map_cons, List.map_nil, hc]
  rfl

theorem clear_eq_create (m : IrredundantMatrix) (hlen : m._r.length = m._width) :
    m.clear = IrredundantMatrix.create m._width := by
  unfold IrredundantMatrix.clear
  have h := foldl_range_inv (fun i (acc : IrredundantMatrix) =>
      acc._width = m._width ∧ acc._r.length = m._width ∧ ∀ k < i, acc._r.getD k 0 = 0)
    (fun acc i => { acc with _r := acc._r.set i 0 }) m m._width
    ⟨rfl, hlen, fun k hk => absurd hk (Nat.not_lt_zero k)⟩
    (by
      rintro i acc hi ⟨h1, h2, h3⟩
      refine ⟨h1, by simpa using h2, fun k hk => ?_⟩
      simp only
      by_cases hki : k = i
      · subst hki
        exact getD_set_self _ _ _ _ (by rw [h2]; exact hi)
      · rw [getD_set_ne _ _ _ _ _ (Ne.symm hki)]
        exact h3 k (by omega))
  generalize (List.range m._width).foldl (fun acc i => { acc with _r := acc._r.set i 0 }) m = A
    at h
  obtain ⟨h1, h2, h3⟩ := h
  unfold IrredundantMatrix.create
  have hr : A._r = List.replicate m._width 0 := by
    apply List.ext_getElem (by simp [h2])
    intro k hk1 hk2
    have := h3 k (by rw [← h2]; exact hk1)
    rw [List.getD_eq_getElem _ _ hk1] at this
    simp [this]
  show ({ _width := A._width, _r := A._r, _rows := [] } : IrredundantMatrix) = _
  rw [h1, hr]

theorem calculateDifferentMatrices_eq_pairs (m : InputMatrix) (acc : IrredundantMatrix) :
    m.calculateDifferentMatrices acc
      = (m.classPairs.foldl (fun s b => m.differentMatricesStep s b.1 b.2)
          (IrredundantMatrix.create m._qColsCount, acc)).2 := by
  unfold InputMatrix.calculateDifferentMatrices InputMatrix.classPairs
  rw [foldl_flatMap_eq]
  simp only [foldl_map_eq]

theorem calculateCalls_eq_pairs (m : InputMatrix) :
    m.calculateCalls = m.classPairs.flatMap fun b =>
      m.blockCalls (m._r2Indexes.getD b.1 0) (m._r2Counts.getD b.1 0)
        (m._r2Indexes.getD b.2 0) (m._r2Counts.getD b.2 0) := by
  unfold InputMatrix.calculateCalls InputMatrix.classPairs
  rw [List.flatMap_assoc]
  simp only [List.flatMap_map]

theorem differentMatricesStep_inv (m : InputMatrix) (Q : Nat)
    (s : IrredundantMatrix × IrredundantMatrix) (P : List (Row × List Int)) (i j : Nat)
    (hP : ∀ c ∈ P, c.1.length = Q)
    (hB : ∀ c ∈ m.blockCalls (m._r2Indexes.getD i 0) (m._r2Counts.getD i 0)
      (m._r2Indexes.getD j 0) (m._r2Counts.getD j 0), c.1.length = Q)
    (h : DifferentMatricesInv Q s P) :
    DifferentMatricesInv Q (m.differentMatricesStep s i j)
      (P ++ m.blockCalls (m._r2Indexes.getD i 0) (m._r2Counts.getD i 0)
        (m._r2Indexes.getD j 0) (m._r2Counts.getD j 0)) := by
  unfold InputMatrix.differentMatricesStep
  rw [processBlock_eq_calls, clear_eq_create s.1 h.private_length, h.private_width]
  generalize m.blockCalls (m._r2Indexes.getD i 0) (m._r2Counts.getD i 0)
    (m._r2Indexes.getD j 0) (m._r2Counts.getD j 0) = B at hB
  have hfresh : (IrredundantMatrix.create Q)._r.length = (IrredundantMatrix.create Q)._width := by
    simp [IrredundantMatrix.create]
  -- the private accumulator after the block
  have hpl := foldl_addRow_r_length B (IrredundantMatrix.create Q) hfresh
  have hpinv := foldl_addRow_inv B (IrredundantMatrix.create Q) (create_inv Q) hB
  have hpw : ∀ k < Q, (B.foldl (fun acc c => acc.addRow c.1 c.2)
      (IrredundantMatrix.create Q))._r.getD k 0 = (B.map fun c => c.2.getD k 0).sum := by
    intro k hk
    rw [foldl_addRow_r B _ hfresh k hk]
    simp [IrredundantMatrix.create, List.getElem?_replicate, hk]
  have hprows := foldl_addRowInternal_covers (B.map Prod.fst) (IrredundantMatrix.create Q) []
    (create_inv Q) (fun r hr => by
      obtain ⟨c, hc, rfl⟩ := List.mem_map.1 hr
      exact hB c hc) (by simp) (by simp [IrredundantMatrix.create]) (by simp)
  rw [← foldl_addRow_rows B (IrredundantMatrix.create Q) (IrredundantMatrix.create Q) rfl,
    List.nil_append] at hprows
  generalize B.foldl (fun acc c => acc.addRow c.1 c.2) (IrredundantMatrix.create Q) = priv
    at hpl hpinv hpw hprows
  have hpwidth : priv._width = Q := hpl.2
  -- the shared accumulator after the fold
  have hsh := addMatrixConcurrent_spec s.2 priv h.shared_inv
    (by rw [h.shared_length, h.shared_width])
    (fun r hr => by rw [h.shared_width, ← hpwidth]; exact hpinv.1 r hr)
  rw [h.shared_width] at hsh
  have hwidthP : ∀ p ∈ P.map Prod.fst, p.length = Q := by
    intro p hp
    obtain ⟨c, hc, rfl⟩ := List.mem_map.1 hp
    exact hP c hc
  have hwidthB : ∀ p ∈ B.map Prod.fst, p.length = Q := by
    intro p hp
    obtain ⟨c, hc, rfl⟩ := List.mem_map.1 hp
    exact hB c hc
  have hwidthS : ∀ x ∈ (s.2.addMatrixConcurrent priv)._rows, x.length = Q := by
    intro x hx
    have := hsh.1.1 x hx
    rw [hsh.2.1] at this
    exact this
  refine ⟨by rw [hpl.1, hpl.2], hpwidth, hsh.1, hsh.2.1, hsh.2.2.1, fun k hk => ?_,
    fun x hx => ?_, fun p hp => ?_⟩
  · simp only
    rw [hsh.2.2.2.1 k hk, h.weights k hk, hpw k hk, List.map_append, List.sum_append]
  · simp only at hx
    rw [List.map_append]
    rcases List.mem_append.1 (hsh.2.2.2.2.1 x hx) with h1 | h1
    · exact List.mem_append_left _ (h.stored_from x h1)
    · exact List.mem_append_right _ (hprows.2.2.1 x h1)
  · simp only
    rw [List.map_append] at hp
    have hmid : ∃ y, (y ∈ s.2._rows ∨ y ∈ priv._rows) ∧ y.length = Q ∧
        Row.isInclude y p = true ∧ p.length = Q := by
      rcases List.mem_append.1 hp with h1 | h1
      · obtain ⟨y, hy, hyp⟩ := h.covered p h1
        exact ⟨y, Or.inl hy, by rw [← h.shared_width]; exact h.shared_inv.1 y hy, hyp,
          hwidthP p h1⟩
      · obtain ⟨y, hy, hyp⟩ := hprows.2.2.2 p h1
        exact ⟨y, Or.inr hy, by rw [← hpwidth]; exact hpinv.1 y hy, hyp, hwidthB p h1⟩
    obtain ⟨y, hy, hylen, hyp, hplen⟩ := hmid
    obtain ⟨x, hx, hxy⟩ := hsh.2.2.2.2.2 y (List.mem_append.2 hy)
    exact ⟨x, hx, Row.isInclude_trans x y p (by rw [hwidthS x hx, hylen])
      (by rw [hylen, hplen]) hxy hyp⟩

theorem foldl_differentMatricesStep_inv (m : InputMatrix) (Q : Nat) (pairs : List (Nat × Nat))
    (s : IrredundantMatrix × IrredundantMatrix) (P : List (Row × List Int))
    (hP : ∀ c ∈ P, c.1.length = Q)
    (hB : ∀ b ∈ pairs, ∀ c ∈ m.blockCalls (m._r2Indexes.getD b.1 0) (m._r2Counts.getD b.1 0)
      (m._r2Indexes.getD b.2 0) (m._r2Counts.getD b.2 0), c.1.length = Q)
    (h : DifferentMatricesInv Q s P) :
    DifferentMatricesInv Q (pairs.foldl (fun s b => m.differentMatricesStep s b.1 b.2) s)
      (P ++ pairs.flatMap fun b =>
        m.blockCalls (m._r2Indexes.getD b.1 0) (m._r2Counts.getD b.1 0)
          (m._r2Indexes.getD b.2 0) (m._r2Counts.getD b.2 0)) := by
  induction pairs generalizing s P with
  | nil => simpa using h
  | cons b pairs ih =>
    simp only [List.foldl_cons, List.flatMap_cons]
    rw [← List.append_assoc]
    apply ih
    · intro c hc
      rcases List.mem_append.1 hc with h1 | h1
      · exact hP c h1
      · exact hB b (List.mem_cons_self _ _) c h1
    · exact fun b2 hb2 => hB b2 (List.mem_cons_of_mem _ hb2)
    · exact differentMatricesStep_inv m Q s P b.1 b.2 hP (hB b (List.mem_cons_self _ _)) h

theorem calculateDifferentMatrices_inv (m : InputMatrix)
    (hwidth : ∀ c ∈ m.calculateCalls, c.1.length = m._qColsCount) :
    DifferentMatricesInv m._qColsCount
      (m.classPairs.foldl (fun s b => m.differentMatricesStep s b.1 b.2)
        (IrredundantMatrix.create m._qColsCount, IrredundantMatrix.create m._qColsCount))
      m.calculateCalls := by
  have h := foldl_differentMatricesStep_inv m m._qColsCount m.classPairs
    (IrredundantMatrix.create m._qColsCount, IrredundantMatrix.create m._qColsCount) []
    (by simp) (by
      intro b hb c hc
      apply hwidth
      rw [calculateCalls_eq_pairs]
      exact List.mem_flatMap.2 ⟨b, hb, hc⟩)
    ⟨by simp [IrredundantMatrix.create], rfl, create_inv _, rfl,
      by simp [IrredundantMatrix.create],
      fun k hk => by simp [IrredundantMatrix.create, List.getElem?_replicate, hk],
      by simp [IrredundantMatrix.create], by simp⟩
  rw [List.nil_append, ← calculateCalls_eq_pairs] at h
  exact h
theorem calculateDifferentMatrices_agrees (m : InputMatrix)
    (hwidth : ∀ c ∈ m.calculateCalls, c.1.length = m._qColsCount) :
    (∀ x, x ∈ (m.calculateDifferentMatrices (IrredundantMatrix.create m._qColsCount))._rows ↔
      x ∈ (m.calculate (IrredundantMatrix.create m._qColsCount))._rows) ∧
    (m.calculateDifferentMatrices (IrredundantMatrix.create m._qColsCount))._r
      = (m.calculate (IrredundantMatrix.create m._qColsCount))._r := by
  have h := calculateDifferentMatrices_inv m hwidth
  rw [calculateDifferentMatrices_eq_pairs]
  generalize m.classPairs.foldl (fun s b => m.differentMatricesStep s b.1 b.2)
    (IrredundantMatrix.create m._qColsCount, IrredundantMatrix.create m._qColsCount) = s at h
  have hrowsw : ∀ r ∈ m.calculateCalls.map Prod.fst, r.length = m._qColsCount := by
    intro r hr
    obtain ⟨c, hc, rfl⟩ := List.mem_map.1 hr
    exact hwidth c hc
  have hfresh : (IrredundantMatrix.create m._qColsCount)._r.length
      = (IrredundantMatrix.create m._qColsCount)._width := by
    simp [IrredundantMatrix.create]
  rw [calculate_eq_calls]
  constructor
  · intro x
    rw [stored_iff_undominated m._qColsCount s.2._rows (m.calculateCalls.map Prod.fst) hrowsw
        h.shared_inv.2 h.stored_from h.covered x,
      foldl_addRow_rows _ _ _ rfl,
      insert_all_iff_undominated m._qColsCount (m.calculateCalls.map Prod.fst) hrowsw x]
  · have hl := foldl_addRow_r_length m.calculateCalls (IrredundantMatrix.create m._qColsCount)
      hfresh
    apply List.ext_getElem
    · rw [h.shared_length, hl.1]
      rfl
    · intro k hk1 hk2
      have hk : k < m._qColsCount := by rw [← h.shared_length]; exact hk1
      have e1 := h.weights k hk
      have e2 := foldl_addRow_r m.calculateCalls (IrredundantMatrix.create m._qColsCount)
        hfresh k hk
      have h0 : (IrredundantMatrix.create m._qColsCount)._r.getD k 0 = 0 := by
        simp [IrredundantMatrix.create, List.getElem?_replicate, hk]
      rw [h0, zero_add, ← e1, List.getD_eq_getElem _ _ hk2, List.getD_eq_getElem _ _ hk1] at e2
      exact e2.symm

theorem create_calls_width (sort : List (Nat × Nat) → List (Nat × Nat)) (hsort : IsStdSort sort)
    (d : DataFile) (hwf : d.WellFormed) (hn : 0 < d.learningSetLen) :
    ∀ c ∈ (InputMatrix.create sort d).calculateCalls,
      c.1.length = (InputMatrix.create sort d)._qColsCount := by
  obtain ⟨ids, C, σ, h⟩ := create_spec sort hsort d hn
  generalize sort (sortMatrixTuples C (sortMatrixCounts d.learningSetLen C ids)) = sc at h
  generalize InputMatrix.create sort d = m at h
  intro c hc
  rw [h.qColsCount_eq]
  exact isDifference_length d hwf c.1
    ((calls_rows_iff_isDifference d m ids C sc σ h c.1).1 (List.mem_map_of_mem _ hc))

/-- C18. The "different matrices" mode agrees with the shared mode: for a well-formed
non-empty dataset, the sequential `calculate` that fills a private accumulator per pair
of classes (`clear`, `processBlock`, then `addMatrixConcurrent` into the shared
accumulator) ends with the same set of stored rows and the same column weights as the
sequential `calculate` that calls `addRow` on the shared accumulator. -/
theorem different_matrices_agrees_with_shared (sort : List (Nat × Nat) → List (Nat × Nat))
    (hsort : IsStdSort sort) (d : DataFile) (hwf : d.WellFormed) (hn : 0 < d.learningSetLen) :
    (∀ x, x ∈ ((InputMatrix.create sort d).calculateDifferentMatrices
        (IrredundantMatrix.create (InputMatrix.create sort d)._qColsCount))._rows ↔
      x ∈ ((InputMatrix.create sort d).calculate
        (IrredundantMatrix.create (InputMatrix.create sort d)._qColsCount))._rows) ∧
    ((InputMatrix.create sort d).calculateDifferentMatrices
        (IrredundantMatrix.create (InputMatrix.create sort d)._qColsCount))._r
      = ((InputMatrix.create sort d).calculate
        (IrredundantMatrix.create (InputMatrix.create sort d)._qColsCount))._r :=
  calculateDifferentMatrices_agrees (InputMatrix.create sort d)
    (create_calls_width sort hsort d hwf hn)

theorem different_matrices_agrees_with_shared_witness :
    ((InputMatrix.create insertionSortDesc
        ⟨5, 2, 1, [[1, 1], [2, 2], [1, 2], [2, 1], [DASH, 1]], [[0], [1], [0], [2], [1]],
          [1, 1], [2, 2]⟩).calculateDifferentMatrices
        (IrredundantMatrix.create (InputMatrix.create insertionSortDesc
          ⟨5, 2, 1, [[1, 1], [2, 2], [1, 2], [2, 1], [DASH, 1]], [[0], [1], [0], [2], [1]],
            [1, 1], [2, 2]⟩)._qColsCount))._r
      = ((InputMatrix.create insertionSortDesc
        ⟨5, 2, 1, [[1, 1], [2, 2], [1, 2], [2, 1], [DASH, 1]], [[0], [1], [0], [2], [1]],
          [1, 1], [2, 2]⟩).calculate
        (IrredundantMatrix.create (InputMatrix.create insertionSortDesc
          ⟨5, 2, 1, [[1, 1], [2, 2], [1, 2], [2, 1], [DASH, 1]], [[0], [1], [0], [2], [1]],
            [1, 1], [2, 2]⟩)._qColsCount))._r ∧
    ((InputMatrix.create insertionSortDesc
        ⟨5, 2, 1, [[1, 1], [2, 2], [1, 2], [2, 1], [DASH, 1]], [[0], [1], [0], [2], [1]],
          [1, 1], [2, 2]⟩).calculateDifferentMatrices (IrredundantMatrix.create 2))._r = [7, 5] :=
  ⟨(different_matrices_agrees_with_shared insertionSortDesc insertionSortDesc_isStdSort
      ⟨5, 2, 1, [[1, 1], [2, 2], [1, 2], [2, 1], [DASH, 1]], [[0], [1], [0], [2], [1]],
        [1, 1], [2, 2]⟩
      ⟨by decide, by decide, by decide, by decide, by decide, by decide⟩ (by decide)).2,
    by decide⟩
/-! ## The bisection step -/

/-- C20, the code at a failing input. For the class sizes `[4, 3, 3, 1, 1, 1]` the
constructor leaves `_indexes = [0, 1, 2, 3, 4, 5]`, and `FindNextStep(0, 5)` returns the
median `2` and leaves `_indexes = [0, 3, 4, 5, 2, 5]`: the first part took a fourth class
id and wrote it over position `3` of the second part, so class id `1` is lost and class
id `5` occurs twice. -/
theorem findNextStep_loses_class_id :
    (FastPlan.create [4, 3, 3, 1, 1, 1] 6)._indexes = [0, 1, 2, 3, 4, 5] ∧
    ((FastPlan.create [4, 3, 3, 1, 1, 1] 6).FindNextStep 0 5).1 = 2 ∧
    ((FastPlan.create [4, 3, 3, 1, 1, 1] 6).FindNextStep 0 5).2._indexes = [0, 3, 4, 5, 2, 5] ∧
    1 ∉ ((FastPlan.create [4, 3, 3, 1, 1, 1] 6).FindNextStep 0 5).2._indexes ∧
    ¬ (((FastPlan.create [4, 3, 3, 1, 1, 1] 6).FindNextStep 0 5).2._indexes).Perm
      (FastPlan.create [4, 3, 3, 1, 1, 1] 6)._indexes := by
  refine ⟨by decide, by decide, by decide, by decide, fun h => ?_⟩
  have := h.mem_iff (a := 1)
  revert this
  decide

/-! ## Symmetry of the weight delta -/

theorem calcMultipliers_swap (m : InputMatrix) (row1 row2 : Nat) :
    m.calcMultipliers row1 row2
      = ((m.calcMultipliers row2 row1).2, (m.calcMultipliers row2 row1).1) := by
  unfold InputMatrix.calcMultipliers
  rw [calcMultipliers_loop, calcMultipliers_loop]

theorem calcMultiplier_comm (m : InputMatrix) (row1 row2 k : Nat) :
    m.calcMultiplier row1 row2 k = m.calcMultiplier row2 row1 k := by
  unfold InputMatrix.calcMultiplier
  rw [calcMultipliers_swap m row1 row2]
  simp only [mul_comm (m.calcMultipliers row2 row1).2 (m.calcMultipliers row2 row1).1]
  by_cases h1 : m.getFeature row1 k = DASH <;> by_cases h2 : m.getFeature row2 k = DASH <;>
    simp [h1, h2]

theorem calcRVector_comm (m : InputMatrix) (row1 row2 : Nat) :
    m.calcRVector row1 row2 = m.calcRVector row2 row1 := by
  have hlen : ∀ a b, (m.calcRVector a b).length = m._qColsCount := by
    intro a b
    simp [InputMatrix.calcRVector]
  apply List.ext_getElem (by rw [hlen, hlen])
  intro k h1 h2
  have hk : k < m._qColsCount := by rw [hlen] at h1; exact h1
  rw [← List.getD_eq_getElem _ 0 h1, ← List.getD_eq_getElem _ 0 h2,
    calcRVector_getD m row1 row2 k hk, calcRVector_getD m row2 row1 k hk,
    calcMultiplier_comm m row1 row2 k, Finset.sum_comm]
  congr 1
  apply Finset.sum_congr rfl
  intro i _
  apply Finset.sum_congr rfl
  intro j _
  exact abs_sub_comm j i

theorem blockCalls_weights_comm (m : InputMatrix) (offset1 length1 offset2 length2 k : Nat) :
    ((m.blockCalls offset1 length1 offset2 length2).map fun c => c.2.getD k 0).sum
      = ((m.blockCalls offset2 length2 offset1 length1).map fun c => c.2.getD k 0).sum := by
  unfold InputMatrix.blockCalls
  simp only [sum_map_flatMap, List.map_map, sum_map_range_int, Function.comp_def]
  rw [Finset.sum_comm]
  apply Finset.sum_congr rfl
  intro j _
  apply Finset.sum_congr rfl
  intro i _
  rw [calcRVector_comm]

/-- C25. The weight delta is symmetric in its two rows: `calcRVector(row1, row2)` and
`calcRVector(row2, row1)` are the same vector, column by column, for every pair of rows
(integers without overflow; nothing is asked of the ranges). Hence a block processed as
`(offset1, length1, offset2, length2)` or with the two ranges exchanged adds the same
amount to every column weight. -/
theorem weight_delta_is_symmetric (m : InputMatrix) (row1 row2 : Nat) :
    m.calcRVector row1 row2 = m.calcRVector row2 row1 ∧
    (∀ k, (m.calcRVector row1 row2).getD k 0 = (m.calcRVector row2 row1).getD k 0) ∧
    (∀ (acc : IrredundantMatrix) (offset1 length1 offset2 length2 : Nat),
      acc._r.length = acc._width →
      (m.processBlock acc offset1 length1 offset2 length2)._r
        = (m.processBlock acc offset2 length2 offset1 length1)._r) := by
  refine ⟨calcRVector_comm m row1 row2, fun k => by rw [calcRVector_comm], ?_⟩
  intro acc offset1 length1 offset2 length2 hlen
  rw [processBlock_eq_calls, processBlock_eq_calls]
  have h1 := foldl_addRow_r_length (m.blockCalls offset1 length1 offset2 length2) acc hlen
  have h2 := foldl_addRow_r_length (m.blockCalls offset2 length2 offset1 length1) acc hlen
  apply List.ext_getElem (by rw [h1.1, h2.1])
  intro k hk1 hk2
  have hk : k < acc._width := by rw [h1.1] at hk1; exact hk1
  rw [← List.getD_eq_getElem _ 0 hk1, ← List.getD_eq_getElem _ 0 hk2,
    foldl_addRow_r _ acc hlen k hk, foldl_addRow_r _ acc hlen k hk,
    blockCalls_weights_comm]

theorem weight_delta_is_symmetric_witness :
    (InputMatrix.create insertionSortDesc
        ⟨2, 2, 1, [[1, DASH], [DASH, 2]], [[0], [1]], [0, 0], [2, 2]⟩).calcRVector 0 1
      = (InputMatrix.create insertionSortDesc
        ⟨2, 2, 1, [[1, DASH], [DASH, 2]], [[0], [1]], [0, 0], [2, 2]⟩).calcRVector 1 0 ∧
    ((InputMatrix.create insertionSortDesc
        ⟨2, 2, 1, [[1, DASH], [DASH, 2]], [[0], [1]], [0, 0], [2, 2]⟩).processBlock
        (IrredundantMatrix.create 2) 0 1 1 1)._r
      = ((InputMatrix.create insertionSortDesc
        ⟨2, 2, 1, [[1, DASH], [DASH, 2]], [[0], [1]], [0, 0], [2, 2]⟩).processBlock
        (IrredundantMatrix.create 2) 1 1 0 1)._r :=
  ⟨(weight_delta_is_symmetric _ 0 1).1,
    (weight_delta_is_symmetric _ 0 1).2.2 (IrredundantMatrix.create 2) 0 1 1 1 (by decide)⟩

/-! ## The reordering of `sortMatrix` -/

theorem perm_of_moved {α : Type} (n : Nat) (σ : Nat → Nat) (old new : List α) (dflt : α)
    (hold : old.length = n) (hnew : new.length = n) (hlt : ∀ j < n, σ j < n)
    (hinj : ∀ j k, j < n → k < n → σ j = σ k → j = k)
    (hmoved : ∀ j < n, new.getD (σ j) dflt = old.getD j dflt) : new.Perm old := by
  subst hnew
  let f : Fin new.length → Fin new.length := fun i => ⟨σ i.1, hlt i.1 i.2⟩
  have hf : Function.Injective f := by
    intro a b hab
    have h1 : σ a.1 = σ b.1 := congrArg Fin.val hab
    exact Fin.ext (hinj a.1 b.1 a.2 b.2 h1)
  have hb : Function.Bijective f := Finite.injective_iff_bijective.1 hf
  have hperm := Equiv.Perm.ofFn_comp_perm (Equiv.ofBijective f hb) (fun i => new.get i)
  have h1 : List.ofFn (fun i => new.get i) = new := List.ofFn_get new
  have h2 : List.ofFn ((fun i => new.get i) ∘ (Equiv.ofBijective f hb)) = old := by
    apply List.ext_getElem
    · simp [hold]
    · intro i hi1 hi2
      have hi : i < new.length := by rw [← hold]; exact hi2
      have hm := hmoved i hi
      rw [List.getD_eq_getElem _ _ (hlt i hi), List.getD_eq_getElem _ _ hi2] at hm
      simp [f, hm]
  rw [h1, h2] at hperm
  exact hperm.symm

theorem occ_lt_occ (ids : List Nat) (i j : Nat) (hij : i < j)
    (hc : ids.getD i 0 = ids.getD j 0) : occ ids (ids.getD i 0) i < occ ids (ids.getD j 0) j := by
  rw [← hc]
  exact occ_lt_of_mem ids i j hij

theorem getD_zip {α β : Type} (a : List α) (b : List β) (i : Nat) (da : α) (db : β)
    (ha : i < a.length) (hb : i < b.length) :
    (List.zip a b).getD i (da, db) = (a.getD i da, b.getD i db) := by
  rw [List.getD_eq_getElem _ _ (by simp [ha, hb]), List.getD_eq_getElem _ _ ha,
    List.getD_eq_getElem _ _ hb, List.getElem_zip]

theorem create_eq_load (sort : List (Nat × Nat) → List (Nat × Nat)) (d : DataFile) :
    InputMatrix.create sort d
      = InputMatrix.calcR2Indexes
          (InputMatrix.sortMatrix sort (InputMatrix.calcR2Matrix (InputMatrix.load d))) :=
  rfl

/-- C24. Reordering is a permutation that keeps each row intact: for every dataset (with
matrices of the declared sizes) and every behaviour of `std::sort` that the standard
allows, the array `newIndexes` of `sortMatrix` has `N` entries and is a bijection of
`0..N-1`; the feature row, the label row and the class id that `sortMatrix` stores at
position `newIndexes[i]` are those of row `i` before; the list of (feature row, label
row) pairs afterwards is a permutation of the one before; and of two rows with the same
label vector the earlier one stays the earlier one. -/
theorem reordering_is_row_permutation (sort : List (Nat × Nat) → List (Nat × Nat))
    (hsort : IsStdSort sort) (d : DataFile) (hd : d.WellFormed) :
    ((InputMatrix.calcR2Matrix (InputMatrix.load d)).newIndexes sort).length
      = d.learningSetLen ∧
    (∀ i < d.learningSetLen,
      ((InputMatrix.calcR2Matrix (InputMatrix.load d)).newIndexes sort).getD i 0
        < d.learningSetLen) ∧
    (∀ i j, i < d.learningSetLen → j < d.learningSetLen →
      ((InputMatrix.calcR2Matrix (InputMatrix.load d)).newIndexes sort).getD i 0
        = ((InputMatrix.calcR2Matrix (InputMatrix.load d)).newIndexes sort).getD j 0 →
      i = j) ∧
    (∀ q < d.learningSetLen, ∃ i < d.learningSetLen,
      ((InputMatrix.calcR2Matrix (InputMatrix.load d)).newIndexes sort).getD i 0 = q) ∧
    (∀ i < d.learningSetLen,
      (InputMatrix.sortMatrix sort (InputMatrix.calcR2Matrix (InputMatrix.load d)))._qMatrix.getD
          (((InputMatrix.calcR2Matrix (InputMatrix.load d)).newIndexes sort).getD i 0) []
        = d.learningSetFeatures.getD i [] ∧
      (InputMatrix.sortMatrix sort (InputMatrix.calcR2Matrix (InputMatrix.load d)))._rMatrix.getD
          (((InputMatrix.calcR2Matrix (InputMatrix.load d)).newIndexes sort).getD i 0) []
        = d.learningSetPfeatures.getD i [] ∧
      (InputMatrix.sortMatrix sort (InputMatrix.calcR2Matrix (InputMatrix.load d)))._r2Matrix.getD
          (((InputMatrix.calcR2Matrix (InputMatrix.load d)).newIndexes sort).getD i 0) 0
        = (InputMatrix.calcR2Matrix (InputMatrix.load d))._r2Matrix.getD i 0) ∧
    (List.zip
        (InputMatrix.sortMatrix sort (InputMatrix.calcR2Matrix (InputMatrix.load d)))._qMatrix
        (InputMatrix.sortMatrix sort
          (InputMatrix.calcR2Matrix (InputMatrix.load d)))._rMatrix).Perm
      (List.zip d.learningSetFeatures d.learningSetPfeatures) ∧
    (∀ i j, i < j → j < d.learningSetLen →
      d.learningSetPfeatures.getD i [] = d.learningSetPfeatures.getD j [] →
      ((InputMatrix.calcR2Matrix (InputMatrix.load d)).newIndexes sort).getD i 0
        < ((InputMatrix.calcR2Matrix (InputMatrix.load d)).newIndexes sort).getD j 0) := by
  have h1 := calcR2Matrix_loop_inv d.learningSetPfeatures d.learningSetLen
    (List.replicate d.learningSetLen 0) (by simp)
  generalize hs1 : (List.range d.learningSetLen).foldl (calcR2MatrixStep d.learningSetPfeatures)
    { currentId := 0, mappings := [], r2Matrix := List.replicate d.learningSetLen 0 } = s1 at h1
  have hsc := sortedCounts_spec sort hsort s1.r2Matrix d.learningSetLen s1.currentId
    h1.id_lt h1.id_used
  generalize hscd : sort (sortMatrixTuples s1.currentId
    (sortMatrixCounts d.learningSetLen s1.currentId s1.r2Matrix)) = sc at hsc
  have hni := newIndexes_spec s1.r2Matrix d.learningSetLen s1.currentId sc hsc h1.id_lt
  have hidx := sortMatrixIndexes_spec s1.currentId sc hsc.length_eq hsc.id_lt hsc.id_inj
  have hnl := (sortMatrixNewIndexes_spec d.learningSetLen s1.currentId s1.r2Matrix
    (sortMatrixIndexes s1.currentId sc) hidx.1 h1.id_lt).1
  generalize hnid : sortMatrixNewIndexes d.learningSetLen s1.r2Matrix
    (sortMatrixIndexes s1.currentId sc) = ni at hni hnl
  have hmq := sortMatrixMove_spec d.learningSetLen ni d.learningSetFeatures [] hni.lt hni.inj
  have hmr := sortMatrixMove_spec d.learningSetLen ni d.learningSetPfeatures [] hni.lt hni.inj
  have hm2 := sortMatrixMove_spec d.learningSetLen ni s1.r2Matrix 0 hni.lt hni.inj
  have e0 : (InputMatrix.calcR2Matrix (InputMatrix.load d))._r2Matrix = s1.r2Matrix := by
    simp only [InputMatrix.calcR2Matrix, InputMatrix.load, hs1]
  have e1 : (InputMatrix.calcR2Matrix (InputMatrix.load d)).newIndexes sort = ni := by
    simp only [InputMatrix.calcR2Matrix, InputMatrix.load, InputMatrix.newIndexes, hs1, hscd,
      hnid]
  have e2 : (InputMatrix.sortMatrix sort (InputMatrix.calcR2Matrix (InputMatrix.load d)))._qMatrix
      = sortMatrixMove d.learningSetLen ni d.learningSetFeatures [] := by
    simp only [InputMatrix.sortMatrix, e1]
    simp only [InputMatrix.calcR2Matrix, InputMatrix.load]
  have e3 : (InputMatrix.sortMatrix sort (InputMatrix.calcR2Matrix (InputMatrix.load d)))._rMatrix
      = sortMatrixMove d.learningSetLen ni d.learningSetPfeatures [] := by
    simp only [InputMatrix.sortMatrix, e1]
    simp only [InputMatrix.calcR2Matrix, InputMatrix.load]
  have e4 : (InputMatrix.sortMatrix sort (InputMatrix.calcR2Matrix (InputMatrix.load d)))._r2Matrix
      = sortMatrixMove d.learningSetLen ni s1.r2Matrix 0 := by
    simp only [InputMatrix.sortMatrix, e1]
    simp only [InputMatrix.calcR2Matrix, InputMatrix.load, hs1]
  rw [e0, e1, e2, e3, e4]
  refine ⟨hnl, hni.lt, hni.inj, hni.surj, fun i hi => ⟨hmq.2 i hi, hmr.2 i hi, hm2.2 i hi⟩,
    ?_, ?_⟩
  · obtain ⟨hq, hr, -⟩ := hd
    apply perm_of_moved d.learningSetLen (fun j => ni.getD j 0) _ _ ([], [])
      (by simp [hq, hr]) (by simp [hmq.1, hmr.1]) hni.lt hni.inj
    intro j hj
    have hσ := hni.lt j hj
    rw [getD_zip _ _ _ _ _ (by rw [hmq.1]; exact hσ) (by rw [hmr.1]; exact hσ),
      getD_zip _ _ _ _ _ (by rw [hq]; exact hj) (by rw [hr]; exact hj), hmq.2 j hj,
      hmr.2 j hj]
  · intro i j hij hj hlab
    have hi : i < d.learningSetLen := by omega
    have hc : s1.r2Matrix.getD i 0 = s1.r2Matrix.getD j 0 := (h1.same_id_iff i j hi hj).2 hlab
    obtain ⟨p, hp, hpc, hpe, -⟩ := hni.in_block i hi
    obtain ⟨q, hq, hqc, hqe, -⟩ := hni.in_block j hj
    have hpq : p = q := hsc.id_inj p q hp hq (by rw [hpc, hqc, hc])
    subst hpq
    have := occ_lt_occ s1.r2Matrix i j hij hc
    omega

theorem reordering_is_row_permutation_witness :
    (InputMatrix.calcR2Matrix (InputMatrix.load
        ⟨5, 2, 1, [[1, 1], [2, 2], [1, 2], [2, 1], [DASH, 1]], [[0], [1], [1], [2], [1]],
          [1, 1], [2, 2]⟩)).newIndexes insertionSortDesc = [3, 0, 1, 4, 2] ∧
    (InputMatrix.sortMatrix insertionSortDesc (InputMatrix.calcR2Matrix (InputMatrix.load
        ⟨5, 2, 1, [[1, 1], [2, 2], [1, 2], [2, 1], [DASH, 1]], [[0], [1], [1], [2], [1]],
          [1, 1], [2, 2]⟩)))._qMatrix = [[2, 2], [1, 2], [DASH, 1], [1, 1], [2, 1]] ∧
    (List.zip
        (InputMatrix.sortMatrix insertionSortDesc (InputMatrix.calcR2Matrix (InputMatrix.load
          ⟨5, 2, 1, [[1, 1], [2, 2], [1, 2], [2, 1], [DASH, 1]], [[0], [1], [1], [2], [1]],
            [1, 1], [2, 2]⟩)))._qMatrix
        (InputMatrix.sortMatrix insertionSortDesc (InputMatrix.calcR2Matrix (InputMatrix.load
          ⟨5, 2, 1, [[1, 1], [2, 2], [1, 2], [2, 1], [DASH, 1]], [[0], [1], [1], [2], [1]],
            [1, 1], [2, 2]⟩)))._rMatrix).Perm
      (List.zip [[1, 1], [2, 2], [1, 2], [2, 1], [DASH, 1]] [[0], [1], [1], [2], [1]]) :=
  ⟨by decide, by decide,
    (reordering_is_row_permutation insertionSortDesc insertionSortDesc_isStdSort
      ⟨5, 2, 1, [[1, 1], [2, 2], [1, 2], [2, 1], [DASH, 1]], [[0], [1], [1], [2], [1]],
        [1, 1], [2, 2]⟩
      ⟨by decide, by decide, by decide, by decide, by decide, by decide⟩).2.2.2.2.2.1⟩

/-! ## The vector storage variant against the list storage variant -/

theorem getD_append_cons_length {α : Type} (pre : List α) (x : α) (post : List α) (dflt : α) :
    (pre ++ x :: post).getD pre.length dflt = x := by
  rw [List.getD_eq_getElem _ _ (by simp)]
  exact List.getElem_append_right (Nat.le_refl _) |>.trans (by simp)

theorem swapWithLast_spec (pre : List Row) (x : Row) (post : List Row) :
    ∃ post2, (if pre.length ≠ (pre ++ x :: post).length - 1 then
        ((pre ++ x :: post).set pre.length
          ((pre ++ x :: post).getD ((pre ++ x :: post).length - 1) [])).dropLast
        else (pre ++ x :: post).dropLast) = pre ++ post2 ∧ post2.Perm post := by
  rcases List.eq_nil_or_concat post with h | ⟨mid, last, h⟩
  · subst h
    refine ⟨[], ?_, List.Perm.refl _⟩
    simp
  · rw [List.concat_eq_append] at h
    subst h
    refine ⟨last :: mid, ?_, ?_⟩
    · have hne : pre.length ≠ (pre ++ x :: (mid ++ [last])).length - 1 := by
        simp only [List.length_append, List.length_cons, List.length_nil]
        omega
      rw [if_pos hne]
      have hlast : (pre ++ x :: (mid ++ [last])).getD
          ((pre ++ x :: (mid ++ [last])).length - 1) [] = last := by
        have e : pre ++ x :: (mid ++ [last]) = (pre ++ x :: mid) ++ [last] := by simp
        rw [e]
        have e2 : ((pre ++ x :: mid) ++ [last]).length - 1 = (pre ++ x :: mid).length := by simp
        rw [e2, getD_append_cons_length]
      rw [hlast]
      have hset : (pre ++ x :: (mid ++ [last])).set pre.length last
          = (pre ++ last :: mid) ++ [last] := by
        simp
      rw [hset, List.dropLast_concat]
    · exact (List.perm_append_singleton last mid).symm

theorem vectorScan_at_end (row : Row) (fuel : Nat) (rows : List Row) :
    vectorScan row fuel rows rows.length = some (false, rows) := by
  cases fuel with
  | zero => simp [vectorScan]
  | succ fuel => simp [vectorScan]

theorem vectorScan_of_not_dominated (row : Row) (fuel : Nat) :
    ∀ (pre post : List Row), post.length ≤ fuel →
      (∀ x ∈ post, Row.isInclude x row = false) →
      ∃ rows2, vectorScan row fuel (pre ++ post) pre.length = some (false, rows2) ∧
        rows2.Perm (pre ++ post.filter fun x => !Row.isInclude row x) := by
  induction fuel with
  | zero =>
    intro pre post hlen _
    have hp : post = [] := List.eq_nil_of_length_eq_zero (Nat.le_zero.1 hlen)
    subst hp
    refine ⟨pre, ?_, by simp⟩
    rw [List.append_nil]
    exact vectorScan_at_end row 0 pre
  | succ fuel ih =>
    intro pre post hlen hnd
    cases post with
    | nil =>
      refine ⟨pre, ?_, by simp⟩
      rw [List.append_nil]
      exact vectorScan_at_end row (fuel + 1) pre
    | cons x rest =>
      have hlt : pre.length < (pre ++ x :: rest).length := by simp
      have hx : Row.isInclude x row = false := hnd x (List.mem_cons_self _ _)
      have hrest : ∀ y ∈ rest, Row.isInclude y row = false := fun y hy =>
        hnd y (List.mem_cons_of_mem _ hy)
      have hfuel : rest.length ≤ fuel := by
        simp only [List.length_cons] at hlen
        omega
      rw [vectorScan, if_pos hlt, getD_append_cons_length, hx]
      simp only [Bool.false_eq_true, if_false]
      by_cases hinc : Row.isInclude row x = true
      · rw [if_pos hinc]
        obtain ⟨post2, he, hperm⟩ := swapWithLast_spec pre x rest
        rw [he]
        obtain ⟨rows2, h1, h2⟩ := ih pre post2 (by rw [hperm.length_eq]; exact hfuel)
          (fun y hy => hrest y (hperm.mem_iff.1 hy))
        refine ⟨rows2, h1, h2.trans ?_⟩
        apply List.Perm.append_left
        rw [List.filter_cons, hinc]
        simpa using hperm.filter _
      · rw [if_neg hinc]
        have e : pre ++ x :: rest = (pre ++ [x]) ++ rest := by simp
        have e2 : pre.length + 1 = (pre ++ [x]).length := by simp
        rw [e, e2]
        obtain ⟨rows2, h1, h2⟩ := ih (pre ++ [x]) rest hfuel hrest
        refine ⟨rows2, h1, ?_⟩
        rw [List.filter_cons]
        simpa [hinc] using h2

theorem vectorScan_of_dominated (row : Row) (fuel : Nat) :
    ∀ (pre post : List Row), post.length ≤ fuel →
      (∀ x ∈ post, Row.isInclude row x = true → Row.isInclude x row = true) →
      (∃ x ∈ post, Row.isInclude x row = true) →
      vectorScan row fuel (pre ++ post) pre.length = some (true, pre ++ post) := by
  induction fuel with
  | zero =>
    intro pre post hlen _ hd
    have hp : post = [] := List.eq_nil_of_length_eq_zero (Nat.le_zero.1 hlen)
    subst hp
    obtain ⟨x, hx, _⟩ := hd
    exact absurd hx (List.not_mem_nil x)
  | succ fuel ih =>
    intro pre post hlen hback hd
    cases post with
    | nil =>
      obtain ⟨x, hx, _⟩ := hd
      exact absurd hx (List.not_mem_nil x)
    | cons x rest =>
      have hlt : pre.length < (pre ++ x :: rest).length := by simp
      have hfuel : rest.length ≤ fuel := by
        simp only [List.length_cons] at hlen
        omega
      rw [vectorScan, if_pos hlt, getD_append_cons_length]
      by_cases hx : Row.isInclude x row = true
      · rw [if_pos hx]
      · rw [if_neg hx]
        have hinc : ¬ Row.isInclude row x = true := fun h =>
          hx (hback x (List.mem_cons_self _ _) h)
        rw [if_neg hinc]
        have e : pre ++ x :: rest = (pre ++ [x]) ++ rest := by simp
        have e2 : pre.length + 1 = (pre ++ [x]).length := by simp
        rw [e, e2]
        apply ih (pre ++ [x]) rest hfuel (fun y hy => hback y (List.mem_cons_of_mem _ hy))
        obtain ⟨y, hy, hyr⟩ := hd
        rcases List.mem_cons.1 hy with h | h
        · rw [h] at hyr; exact absurd hyr hx
        · exact ⟨y, h, hyr⟩

theorem addRowInternalVector_agrees (l v : IrredundantMatrix) (row : Row) (hinv : AccInv l)
    (hperm : v._rows.Perm l._rows) (hrow : row.length = l._width) :
    ∃ v2, v.addRowInternalVector row = some v2 ∧
      v2._rows.Perm (l.addRowInternal row)._rows ∧ v2._width = v._width ∧ v2._r = v._r ∧
      (v.discardsVector row = true ↔ (addRowScan row l._rows).1 = false) := by
  rcases dominated_or_not row l._rows with hd | hnd
  · have hback := dominated_includes_back l._width l._rows row hinv.1 hinv.2 hrow hd
    have hscan := vectorScan_of_dominated row v._rows.length [] v._rows (Nat.le_refl _)
      (fun x hx => hback x (hperm.mem_iff.1 hx))
      (by
        obtain ⟨x, hx, hxr⟩ := hd
        exact ⟨x, hperm.mem_iff.2 hx, hxr⟩)
    simp only [List.nil_append, List.length_nil] at hscan
    refine ⟨v, ?_, ?_, rfl, rfl, ?_⟩
    · unfold IrredundantMatrix.addRowInternalVector
      rw [hscan]
    · rw [addRowInternal_rows_of_dominated l row hinv hrow hd]
      exact hperm
    · unfold IrredundantMatrix.discardsVector
      rw [hscan, addRowScan_of_dominated row l._rows hd hback]
      simp
  · obtain ⟨rows2, hscan, hp2⟩ := vectorScan_of_not_dominated row v._rows.length [] v._rows
      (Nat.le_refl _) (fun x hx => hnd x (hperm.mem_iff.1 hx))
    simp only [List.nil_append, List.length_nil] at hscan hp2
    refine ⟨{ v with _rows := rows2 ++ [row] }, ?_, ?_, rfl, rfl, ?_⟩
    · unfold IrredundantMatrix.addRowInternalVector
      rw [hscan]
    · rw [addRowInternal_rows_of_not_dominated l row hnd]
      exact (List.perm_append_singleton row rows2).trans
        (List.Perm.cons row (hp2.trans (hperm.filter _)))
    · unfold IrredundantMatrix.discardsVector
      rw [hscan, addRowScan_of_not_dominated row l._rows hnd]
      simp

theorem addRowsVector_agrees (rows : List Row) :
    ∀ (l v : IrredundantMatrix), AccInv l → v._rows.Perm l._rows →
      (∀ r ∈ rows, r.length = l._width) →
      ∃ v2, v.addRowsVector rows = some v2 ∧
        v2._rows.Perm (rows.foldl IrredundantMatrix.addRowInternal l)._rows ∧
        v2._width = v._width ∧ v2._r = v._r ∧
        AccInv (rows.foldl IrredundantMatrix.addRowInternal l) ∧
        (rows.foldl IrredundantMatrix.addRowInternal l)._width = l._width := by
  induction rows with
  | nil =>
    intro l v hinv hperm _
    exact ⟨v, rfl, hperm, rfl, rfl, hinv, rfl⟩
  | cons row rest ih =>
    intro l v hinv hperm hw
    have hrow : row.length = l._width := hw row (List.mem_cons_self _ _)
    obtain ⟨v1, h1, hp1, hw1, hr1, -⟩ := addRowInternalVector_agrees l v row hinv hperm hrow
    have hlw := addRowInternal_width l row
    obtain ⟨v2, h2, hp2, hw2, hr2, hinv2, hlw2⟩ := ih (l.addRowInternal row) v1
      (addRowInternal_inv l row hinv hrow) hp1
      (fun r hr => by rw [hlw]; exact hw r (List.mem_cons_of_mem _ hr))
    refine ⟨v2, ?_, hp2, by rw [hw2, hw1], by rw [hr2, hr1], hinv2, hlw2.trans hlw⟩
    rw [IrredundantMatrix.addRowsVector, h1]
    exact h2

/-- C23. The vector storage variant agrees with the list storage variant: for every
sequence of rows of one width inserted into an empty accumulator, the vector
`addRowInternal` (overwrite with the last row and `pop_back`, `push_back` at the end)
returns from every call, and it leaves a permutation of the rows that the `std::list`
`addRowInternal` leaves, hence the same set of stored rows; and whatever row of that
width comes next, the one variant discards it exactly when the other one does. Every
prefix of a sequence is a sequence, so this holds after every insertion. -/
theorem vector_variant_agrees_with_list (Q : Nat) (rows : List Row)
    (hw : ∀ r ∈ rows, r.length = Q) :
    ∃ v, (IrredundantMatrix.create Q).addRowsVector rows = some v ∧
      v._rows.Perm (rows.foldl IrredundantMatrix.addRowInternal
        (IrredundantMatrix.create Q))._rows ∧
      (∀ x, x ∈ v._rows ↔
        x ∈ (rows.foldl IrredundantMatrix.addRowInternal (IrredundantMatrix.create Q))._rows) ∧
      (∀ row : Row, row.length = Q →
        (v.discardsVector row = true ↔
          (addRowScan row (rows.foldl IrredundantMatrix.addRowInternal
            (IrredundantMatrix.create Q))._rows).1 = false)) ∧
      (∀ row : Row, row.length = Q → ∃ v2, v.addRowInternalVector row = some v2 ∧
        v2._rows.Perm ((rows.foldl IrredundantMatrix.addRowInternal
          (IrredundantMatrix.create Q)).addRowInternal row)._rows) := by
  obtain ⟨v, h1, hp, -, -, hinv, hlw⟩ := addRowsVector_agrees rows (IrredundantMatrix.create Q)
    (IrredundantMatrix.create Q) (create_inv Q) (List.Perm.refl _) hw
  have hQ : (rows.foldl IrredundantMatrix.addRowInternal (IrredundantMatrix.create Q))._width
      = Q := hlw
  refine ⟨v, h1, hp, fun x => hp.mem_iff, fun row hrow => ?_, fun row hrow => ?_⟩
  · obtain ⟨_, _, _, _, _, hdisc⟩ := addRowInternalVector_agrees _ v row hinv hp
      (by rw [hQ]; exact hrow)
    exact hdisc
  · obtain ⟨v2, h2, hp2, _⟩ := addRowInternalVector_agrees _ v row hinv hp
      (by rw [hQ]; exact hrow)
    exact ⟨v2, h2, hp2⟩

theorem vector_variant_agrees_with_list_witness :
    ∃ v, (IrredundantMatrix.create 2).addRowsVector [[1, 2], [3, 4], [5, 5], [DASH, 2], [1, 2]]
        = some v ∧
      v._rows.Perm (([[1, 2], [3, 4], [5, 5], [DASH, 2], [1, 2]] : List Row).foldl
        IrredundantMatrix.addRowInternal (IrredundantMatrix.create 2))._rows ∧
      v._rows = [[5, 5], [3, 4], [DASH, 2]] ∧
      (([[1, 2], [3, 4], [5, 5], [DASH, 2], [1, 2]] : List Row).foldl
        IrredundantMatrix.addRowInternal (IrredundantMatrix.create 2))._rows
        = [[DASH, 2], [5, 5], [3, 4]] := by
  obtain ⟨v, h1, h2, -⟩ := vector_variant_agrees_with_list 2
    [[1, 2], [3, 4], [5, 5], [DASH, 2], [1, 2]] (by decide)
  refine ⟨v, h1, h2, ?_, by decide⟩
  have h3 : (IrredundantMatrix.create 2).addRowsVector
      [[1, 2], [3, 4], [5, 5], [DASH, 2], [1, 2]]
      = some ⟨2, [0, 0], [[5, 5], [3, 4], [DASH, 2]]⟩ := by decide
  rw [h3] at h1
  rw [← Option.some.inj h1]

/-! ## The fine-grained variant run by one thread -/

theorem traverse_sublist (row : Row) (a : Int) (nodes : List IrredundantRowNode) :
    (LocalLock.traverse row a nodes).2.Sublist nodes := by
  induction nodes with
  | nil => exact List.Sublist.refl _
  | cons c rest ih =>
    rw [LocalLock.traverse]
    split
    · exact List.Sublist.refl _
    · split
      · exact List.Sublist.refl _
      · split
        · exact List.Sublist.cons _ ih
        · exact List.Sublist.cons₂ _ ih

theorem traverse_eq_scan (row : Row) (a : Int) (nodes : List IrredundantRowNode)
    (hage : ∀ n ∈ nodes, a ≤ n.age) :
    (LocalLock.traverse row a nodes).1 = !(addRowScan row (nodes.map IrredundantRowNode.data)).1 ∧
    (LocalLock.traverse row a nodes).2.map IrredundantRowNode.data
      = (addRowScan row (nodes.map IrredundantRowNode.data)).2 := by
  induction nodes with
  | nil => simp [LocalLock.traverse, addRowScan]
  | cons c rest ih =>
    have hc : ¬ c.age < a := by
      have := hage c (List.mem_cons_self _ _)
      omega
    have ih2 := ih (fun n hn => hage n (List.mem_cons_of_mem _ hn))
    rw [LocalLock.traverse, if_neg hc, List.map_cons, addRowScan]
    by_cases h1 : Row.isInclude c.data row = true
    · rw [if_pos h1, if_pos h1]
      simp
    · rw [if_neg h1, if_neg h1]
      by_cases h2 : Row.isInclude row c.data = true
      · rw [if_pos h2, if_pos h2]
        exact ih2
      · rw [if_neg h2, if_neg h2]
        exact ⟨ih2.1, by rw [List.map_cons, ih2.2]⟩

theorem traverse_stops (row : Row) (a : Int) (nodes : List IrredundantRowNode)
    (h : ∀ n ∈ nodes.head?, n.age < a) : LocalLock.traverse row a nodes = (false, nodes) := by
  cases nodes with
  | nil => rfl
  | cons c rest =>
    rw [LocalLock.traverse, if_pos (h c (by simp))]

theorem traverse_head_changed (row : Row) (a : Int) (first : IrredundantRowNode)
    (rest : List IrredundantRowNode)
    (hret : (LocalLock.traverse row a (first :: rest)).1 = false)
    (hhead : LocalLock.firstAddr (LocalLock.traverse row a (first :: rest)).2
      ≠ LocalLock.firstAddr (first :: rest)) :
    (LocalLock.traverse row a (first :: rest)).2.Sublist rest ∧
    Row.isInclude row first.data = true := by
  rw [LocalLock.traverse] at hret hhead ⊢
  by_cases h0 : first.age < a
  · rw [if_pos h0] at hhead
    exact absurd rfl hhead
  · rw [if_neg h0] at hret hhead ⊢
    by_cases h1 : Row.isInclude first.data row = true
    · rw [if_pos h1] at hret
      exact absurd hret (by simp)
    · rw [if_neg h1] at hret hhead ⊢
      by_cases h2 : Row.isInclude row first.data = true
      · rw [if_pos h2]
        exact ⟨traverse_sublist row a rest, h2⟩
      · rw [if_neg h2] at hhead
        exact absurd rfl hhead

theorem traverse_removes_first (row : Row) (a : Int) (first : IrredundantRowNode)
    (rest : List IrredundantRowNode) (hage : a ≤ first.age)
    (hnodup : ((first :: rest).map IrredundantRowNode.addr).Nodup)
    (hret : (LocalLock.traverse row a (first :: rest)).1 = false)
    (hinc : Row.isInclude row first.data = true) :
    LocalLock.firstAddr (LocalLock.traverse row a (first :: rest)).2
      ≠ LocalLock.firstAddr (first :: rest) := by
  have h0 : ¬ first.age < a := by omega
  rw [LocalLock.traverse, if_neg h0] at hret ⊢
  by_cases h1 : Row.isInclude first.data row = true
  · rw [if_pos h1] at hret
    exact absurd hret (by simp)
  · rw [if_neg h1, if_pos hinc]
    have hsub := traverse_sublist row a rest
    rw [List.map_cons, List.nodup_cons] at hnodup
    intro he
    cases hres : (LocalLock.traverse row a rest).2 with
    | nil => rw [hres] at he; simp [LocalLock.firstAddr] at he
    | cons n tail =>
      rw [hres] at he hsub
      simp only [LocalLock.firstAddr, List.head?_cons, Option.map_some', Option.some.injEq] at he
      have hn : n ∈ rest := hsub.subset (List.mem_cons_self _ _)
      exact hnodup.1 (by rw [← he]; exact List.mem_map_of_mem _ hn)

theorem addRowInternalLoop_returned (alloc : List Nat → Nat) (row : Row) (fuel : Nat) (a : Int)
    (m : LocalLock.IrredundantMatrix) (h : (LocalLock.traverse row a m._nodes).1 = true) :
    LocalLock.addRowInternalLoop alloc row (fuel + 1) a m
      = some ({ m with _nodes := (LocalLock.traverse row a m._nodes).2 }, [a]) := by
  rw [LocalLock.addRowInternalLoop, if_pos h]

theorem addRowInternalLoop_appended (alloc : List Nat → Nat) (row : Row) (fuel : Nat) (a : Int)
    (m : LocalLock.IrredundantMatrix) (h1 : (LocalLock.traverse row a m._nodes).1 = false)
    (h2 : LocalLock.firstAddr (LocalLock.traverse row a m._nodes).2
      = LocalLock.firstAddr m._nodes) :
    LocalLock.addRowInternalLoop alloc row (fuel + 1) a m
      = some ({ m with
          _headAge := m._headAge + 1
          _nodes :=
            { addr := alloc ((LocalLock.traverse row a m._nodes).2.map IrredundantRowNode.addr)
              data := row
              age := m._headAge + 1 } :: (LocalLock.traverse row a m._nodes).2 }, [a]) := by
  rw [LocalLock.addRowInternalLoop, if_neg (by rw [h1]; simp), if_pos h2]

theorem addRowInternalLoop_retried (alloc : List Nat → Nat) (row : Row) (fuel : Nat) (a : Int)
    (m : LocalLock.IrredundantMatrix) (h1 : (LocalLock.traverse row a m._nodes).1 = false)
    (h2 : LocalLock.firstAddr (LocalLock.traverse row a m._nodes).2
      ≠ LocalLock.firstAddr m._nodes) :
    LocalLock.addRowInternalLoop alloc row (fuel + 1) a m
      = (LocalLock.addRowInternalLoop alloc row fuel m._headAge
          { m with _nodes := (LocalLock.traverse row a m._nodes).2 }).map
          fun res => (res.1, a :: res.2) := by
  rw [LocalLock.addRowInternalLoop, if_neg (by rw [h1]; simp), if_neg h2]

theorem wellFormed_of_sublist (m : LocalLock.IrredundantMatrix)
    (nodes : List IrredundantRowNode) (hm : LocalLock.WellFormed m)
    (hsub : nodes.Sublist m._nodes) : LocalLock.WellFormed { m with _nodes := nodes } :=
  { addr_nodup := hm.addr_nodup.sublist (hsub.map _)
    age_sorted := hm.age_sorted.sublist hsub
    age_pos := fun n hn => hm.age_pos n (hsub.subset hn)
    age_le := fun n hn => hm.age_le n (hsub.subset hn)
    head_age_nonneg := hm.head_age_nonneg }

theorem wellFormed_of_append (alloc : List Nat → Nat) (halloc : IsAllocator alloc)
    (m : LocalLock.IrredundantMatrix) (row : Row)
    (nodes : List IrredundantRowNode) (hm : LocalLock.WellFormed m)
    (hsub : nodes.Sublist m._nodes) :
    LocalLock.WellFormed { m with
      _headAge := m._headAge + 1
      _nodes := { addr := alloc (nodes.map IrredundantRowNode.addr), data := row,
                  age := m._headAge + 1 } :: nodes } := by
  have h := wellFormed_of_sublist m nodes hm hsub
  have h0 := hm.head_age_nonneg
  refine ⟨?_, ?_, ?_, ?_, ?_⟩
  · simp only [List.map_cons]
    exact List.nodup_cons.2 ⟨halloc _, h.addr_nodup⟩
  · refine List.pairwise_cons.2 ⟨fun n hn => ?_, h.age_sorted⟩
    have := h.age_le n hn
    simp only at this ⊢
    omega
  · intro n hn
    rcases List.mem_cons.1 hn with he | he
    · rw [he]
      simp only
      omega
    · exact h.age_pos n he
  · intro n hn
    rcases List.mem_cons.1 hn with he | he
    · rw [he]
    · have := h.age_le n he
      simp only at this ⊢
      omega
  · simp only
    omega

theorem create_wellFormed (width : Nat) (age0 : Int) (h0 : 0 ≤ age0) :
    LocalLock.WellFormed (LocalLock.IrredundantMatrix.create width age0) :=
  { addr_nodup := List.nodup_nil
    age_sorted := List.Pairwise.nil
    age_pos := fun n hn => absurd hn (List.not_mem_nil n)
    age_le := fun n hn => absurd hn (List.not_mem_nil n)
    head_age_nonneg := h0 }

theorem addRowInternal_fine_spec (alloc : List Nat → Nat) (fuel : Nat)
    (m : LocalLock.IrredundantMatrix) (row : Row) (hm : LocalLock.WellFormed m)
    (hfuel : 2 ≤ fuel) :
    ∃ m2 trace, LocalLock.IrredundantMatrix.addRowInternal alloc fuel m row = some (m2, trace) ∧
      m2._nodes.map IrredundantRowNode.data
        = (if (addRowScan row (m._nodes.map IrredundantRowNode.data)).1 then
            row :: (addRowScan row (m._nodes.map IrredundantRowNode.data)).2
          else (addRowScan row (m._nodes.map IrredundantRowNode.data)).2) ∧
      (IsAllocator alloc → LocalLock.WellFormed m2) ∧
      (trace = [0] ∨ trace = [0, m._headAge]) ∧
      (trace = [0, m._headAge] ↔
        (LocalLock.traverse row 0 m._nodes).1 = false ∧
          ∃ first rest, m._nodes = first :: rest ∧ Row.isInclude row first.data = true) ∧
      (trace = [0, m._headAge] → 0 < m._headAge ∧ ∀ first ∈ m._nodes.head?, first ∉ m2._nodes) := by
  obtain ⟨f, rfl⟩ : ∃ f, fuel = f + 1 + 1 := ⟨fuel - 2, by omega⟩
  have hage0 : ∀ n ∈ m._nodes, (0 : Int) ≤ n.age := fun n hn => le_of_lt (hm.age_pos n hn)
  have hscan := traverse_eq_scan row 0 m._nodes hage0
  have hsub := traverse_sublist row 0 m._nodes
  unfold LocalLock.IrredundantMatrix.addRowInternal
  by_cases hret : (LocalLock.traverse row 0 m._nodes).1 = true
  · -- a stored row includes the candidate: the function returns in the first pass
    have hs1 : (addRowScan row (m._nodes.map IrredundantRowNode.data)).1 = false := by
      have := hscan.1
      rw [hret] at this
      simpa using this
    refine ⟨_, _, addRowInternalLoop_returned alloc row (f + 1) 0 m hret, ?_,
      fun _ => wellFormed_of_sublist m _ hm hsub, Or.inl rfl, ?_, ?_⟩
    · rw [hs1]
      simpa using hscan.2
    · constructor
      · intro h; simp at h
      · rintro ⟨h, -⟩
        rw [hret] at h
        exact absurd h (by simp)
    · intro h; simp at h
  · have hret2 : (LocalLock.traverse row 0 m._nodes).1 = false := by simpa using hret
    have hs1 : (addRowScan row (m._nodes.map IrredundantRowNode.data)).1 = true := by
      have := hscan.1
      rw [hret2] at this
      simpa using this
    by_cases hhead : LocalLock.firstAddr (LocalLock.traverse row 0 m._nodes).2
        = LocalLock.firstAddr m._nodes
    · -- the head is unchanged: the node is appended in the first pass
      refine ⟨_, _, addRowInternalLoop_appended alloc row (f + 1) 0 m hret2 hhead, ?_,
        fun halloc => wellFormed_of_append alloc halloc m row _ hm hsub, Or.inl rfl, ?_, ?_⟩
      · rw [hs1]
        simpa using hscan.2
      · constructor
        · intro h; simp at h
        · rintro ⟨-, first, rest, hnodes, hinc⟩
          have hnd := hm.addr_nodup
          rw [hnodes] at hnd hret2 hhead
          exact absurd hhead (traverse_removes_first row 0 first rest
            (by
              have := hm.age_pos first (by rw [hnodes]; exact List.mem_cons_self _ _)
              omega)
            hnd hret2 hinc)
      · intro h; simp at h
    · -- the first node was removed: one retry, which stops at once
      have hex : ∃ first rest, m._nodes = first :: rest := by
        cases hn : m._nodes with
        | nil =>
          rw [hn] at hhead
          exact absurd rfl hhead
        | cons first rest => exact ⟨first, rest, rfl⟩
      obtain ⟨first, rest, hnodes⟩ := hex
      have hhc := hhead
      have hr := hret2
      rw [hnodes] at hhc hr
      obtain ⟨hsub2, hinc⟩ := traverse_head_changed row 0 first rest hr hhc
      rw [← hnodes] at hsub2
      have hfirst : first ∈ m._nodes := by rw [hnodes]; exact List.mem_cons_self _ _
      have hsorted := hm.age_sorted
      rw [hnodes] at hsorted
      have hlt : ∀ n ∈ (LocalLock.traverse row 0 m._nodes).2, n.age < m._headAge := by
        intro n hn
        have h1 := (List.pairwise_cons.1 hsorted).1 n (hsub2.subset hn)
        have h2 := hm.age_le first hfirst
        omega
      have hstop : LocalLock.traverse row m._headAge (LocalLock.traverse row 0 m._nodes).2
          = (false, (LocalLock.traverse row 0 m._nodes).2) :=
        traverse_stops row m._headAge _ (fun n hn => hlt n (List.mem_of_mem_head? hn))
      have hsecond := addRowInternalLoop_appended alloc row f m._headAge
        { m with _nodes := (LocalLock.traverse row 0 m._nodes).2 }
        (by simp only [hstop]) (by simp only [hstop])
      simp only [hstop] at hsecond
      have hloop := addRowInternalLoop_retried alloc row (f + 1) 0 m hret2 hhead
      rw [hsecond] at hloop
      simp only [Option.map_some'] at hloop
      have hpos : 0 < m._headAge := by
        have h1 := hm.age_pos first hfirst
        have h2 := hm.age_le first hfirst
        omega
      refine ⟨_, _, hloop, ?_,
        fun halloc => wellFormed_of_append alloc halloc m row _ hm hsub, Or.inr rfl, ?_, ?_⟩
      · rw [hs1]
        simpa using hscan.2
      · exact ⟨fun _ => ⟨hret2, first, rest, hnodes, hinc⟩, fun _ => rfl⟩
      · intro _
        refine ⟨hpos, fun x hx => ?_⟩
        rw [hnodes] at hx
        have hx2 : x = first := by simpa using hx.symm
        subst hx2
        simp only [List.mem_cons, not_or]
        constructor
        · intro he
          have h2 := hm.age_le x hfirst
          have h3 : x.age = m._headAge + 1 := by rw [he]
          omega
        · intro hmem
          have h1 := (List.pairwise_cons.1 hsorted).1 x (hsub2.subset hmem)
          omega

theorem addRowInternal_rows_eq (l : IrredundantMatrix) (row : Row) :
    (l.addRowInternal row)._rows
      = (if (addRowScan row l._rows).1 then row :: (addRowScan row l._rows).2
        else (addRowScan row l._rows).2) := by
  unfold IrredundantMatrix.addRowInternal
  split <;> rfl

theorem addRows_fine_agrees (alloc : List Nat → Nat) (halloc : IsAllocator alloc) (fuel : Nat)
    (hfuel : 2 ≤ fuel) (rows : List Row) :
    ∀ (m : LocalLock.IrredundantMatrix) (l : IrredundantMatrix), LocalLock.WellFormed m →
      m._nodes.map IrredundantRowNode.data = l._rows →
      ∃ m2, LocalLock.addRows alloc fuel m rows = some m2 ∧
        m2._nodes.map IrredundantRowNode.data
          = (rows.foldl IrredundantMatrix.addRowInternal l)._rows ∧
        LocalLock.WellFormed m2 := by
  induction rows with
  | nil =>
    intro m l hm hdata
    exact ⟨m, rfl, hdata, hm⟩
  | cons row rest ih =>
    intro m l hm hdata
    obtain ⟨m1, trace, h1, hd1, hwf1, -⟩ := addRowInternal_fine_spec alloc fuel m row hm hfuel
    rw [hdata, ← addRowInternal_rows_eq] at hd1
    obtain ⟨m2, h2, hd2, hwf2⟩ := ih m1 (l.addRowInternal row) (hwf1 halloc) hd1
    refine ⟨m2, ?_, hd2, hwf2⟩
    rw [LocalLock.addRows, h1]
    exact h2

/-- C21. The fine-grained variant run by one thread equals the single-threaded
algorithm: for every sequence of rows inserted into an empty accumulator (whose
`_head.age` starts at any value that is not negative) by calls of the linked-list
`addRowInternal` with no other thread, every call returns, within two passes, and the
rows stored in the list, read from the head on, are the rows that the `std::list`
`addRowInternal` leaves for the same sequence, in the same order; so the two hold the same
set of rows. The same holds for the next insertion of any row, whether it is settled in
the first pass or, after the candidate removed the first node and `_head.next == start`
failed, in the second. The list reached is well formed. Every prefix of a sequence is a
sequence, so this holds after each insertion. -/
theorem fine_grained_single_thread_agrees (alloc : List Nat → Nat) (halloc : IsAllocator alloc)
    (fuel : Nat) (hfuel : 2 ≤ fuel) (width : Nat) (age0 : Int) (h0 : 0 ≤ age0)
    (rows : List Row) :
    ∃ m, LocalLock.addRows alloc fuel (LocalLock.IrredundantMatrix.create width age0) rows
        = some m ∧
      m._nodes.map IrredundantRowNode.data
        = (rows.foldl IrredundantMatrix.addRowInternal (IrredundantMatrix.create width))._rows ∧
      (∀ x, x ∈ m._nodes.map IrredundantRowNode.data ↔
        x ∈ (rows.foldl IrredundantMatrix.addRowInternal
          (IrredundantMatrix.create width))._rows) ∧
      LocalLock.WellFormed m ∧
      ∀ row : Row, ∃ m2 trace,
        LocalLock.IrredundantMatrix.addRowInternal alloc fuel m row = some (m2, trace) ∧
        trace.length ≤ 2 ∧
        m2._nodes.map IrredundantRowNode.data
          = ((rows.foldl IrredundantMatrix.addRowInternal
              (IrredundantMatrix.create width)).addRowInternal row)._rows := by
  obtain ⟨m, h1, hd, hwf⟩ := addRows_fine_agrees alloc halloc fuel hfuel rows
    (LocalLock.IrredundantMatrix.create width age0) (IrredundantMatrix.create width)
    (create_wellFormed width age0 h0) rfl
  refine ⟨m, h1, hd, fun x => by rw [hd], hwf, fun row => ?_⟩
  obtain ⟨m2, trace, h2, hd2, -, ht, -⟩ := addRowInternal_fine_spec alloc fuel m row hwf hfuel
  refine ⟨m2, trace, h2, ?_, ?_⟩
  · rcases ht with h | h <;> rw [h] <;> simp
  · rw [hd2, hd, ← addRowInternal_rows_eq]

theorem bumpAllocator_isAllocator : IsAllocator bumpAllocator := by
  intro live hmem
  have hle : ∀ (l : List Nat) (a x : Nat), x ∈ l → x ≤ l.foldl max a := by
    intro l
    induction l with
    | nil => intro a x hx; exact absurd hx (List.not_mem_nil x)
    | cons y l ih =>
      intro a x hx
      have hmono : ∀ (l : List Nat) (a : Nat), a ≤ l.foldl max a := by
        intro l
        induction l with
        | nil => intro a; exact Nat.le_refl a
        | cons z l ih2 => intro a; exact Nat.le_trans (Nat.le_max_left a z) (ih2 (max a z))
      rcases List.mem_cons.1 hx with h | h
      · rw [h]
        exact Nat.le_trans (Nat.le_max_right a y) (hmono l (max a y))
      · exact ih (max a y) x h
  have := hle live 0 (bumpAllocator live) hmem
  unfold bumpAllocator at this
  omega

theorem fine_grained_single_thread_agrees_witness :
    ∃ m, LocalLock.addRows bumpAllocator 2 (LocalLock.IrredundantMatrix.create 2 0)
        [[1, 2], [3, 4], [3, DASH]] = some m ∧
      m._nodes.map IrredundantRowNode.data
        = (([[1, 2], [3, 4], [3, DASH]] : List Row).foldl IrredundantMatrix.addRowInternal
          (IrredundantMatrix.create 2))._rows ∧
      m._nodes = [⟨2, [3, DASH], 3⟩, ⟨1, [1, 2], 1⟩] := by
  obtain ⟨m, h1, h2, -⟩ := fine_grained_single_thread_agrees bumpAllocator
    bumpAllocator_isAllocator 2 (Nat.le_refl 2) 2 0 (Int.le_refl 0) [[1, 2], [3, 4], [3, DASH]]
  refine ⟨m, h1, h2, ?_⟩
  have h3 : LocalLock.addRows bumpAllocator 2 (LocalLock.IrredundantMatrix.create 2 0)
      [[1, 2], [3, 4], [3, DASH]]
      = some ⟨2, [0, 0], 3, [⟨2, [3, DASH], 3⟩, ⟨1, [1, 2], 1⟩]⟩ := by decide
  rw [h3] at h1
  rw [← Option.some.inj h1]

/-- C22. Termination of the fine-grained insertion run by one thread: on every well
formed list (every list reached from the empty one is) and for every candidate, the
linked-list `addRowInternal` returns after one or two passes, whatever bound of at least
two passes the embedding follows. The first pass runs with `ageBoundMin = 0`. There is a
second pass exactly when no stored row includes the candidate and the candidate includes
the row of the first node; that node is then gone from the list, and the second pass runs
with `ageBoundMin = _head.age`, which is greater than `0`. -/
theorem fine_grained_insertion_terminates (alloc : List Nat → Nat) (fuel : Nat)
    (m : LocalLock.IrredundantMatrix) (row : Row) (hm : LocalLock.WellFormed m)
    (hfuel : 2 ≤ fuel) :
    ∃ m2 trace, LocalLock.IrredundantMatrix.addRowInternal alloc fuel m row = some (m2, trace) ∧
      (1 ≤ trace.length ∧ trace.length ≤ 2) ∧
      trace.head? = some 0 ∧
      (trace.length = 2 ↔
        (LocalLock.traverse row 0 m._nodes).1 = false ∧
          ∃ first rest, m._nodes = first :: rest ∧ Row.isInclude row first.data = true) ∧
      (trace.length = 2 →
        trace = [0, m._headAge] ∧ 0 < m._headAge ∧
        ∃ first rest, m._nodes = first :: rest ∧ Row.isInclude row first.data = true ∧
          first ∉ m2._nodes) := by
  obtain ⟨m2, trace, h1, -, -, ht, hiff, himp⟩ := addRowInternal_fine_spec alloc fuel m row hm hfuel
  have hlen : trace.length = 2 ↔ trace = [0, m._headAge] := by
    rcases ht with h | h <;> rw [h] <;> simp
  refine ⟨m2, trace, h1, ?_, ?_, hlen.trans hiff, fun h2 => ?_⟩
  · rcases ht with h | h <;> rw [h] <;> simp
  · rcases ht with h | h <;> rw [h] <;> simp
  · have ht2 := hlen.1 h2
    obtain ⟨hpos, hgone⟩ := himp ht2
    obtain ⟨-, first, rest, hnodes, hinc⟩ := hiff.1 ht2
    exact ⟨ht2, hpos, first, rest, hnodes, hinc, hgone first (by rw [hnodes]; simp)⟩

theorem fine_grained_insertion_terminates_witness :
    ∃ m2 trace, LocalLock.IrredundantMatrix.addRowInternal bumpAllocator 2
        ⟨2, [0, 0], 2, [⟨2, [3, 4], 2⟩, ⟨1, [1, 2], 1⟩]⟩ [3, DASH] = some (m2, trace) ∧
      (1 ≤ trace.length ∧ trace.length ≤ 2) ∧ trace = [0, 2] := by
  obtain ⟨m2, trace, h1, h2, -⟩ := fine_grained_insertion_terminates bumpAllocator 2
    ⟨2, [0, 0], 2, [⟨2, [3, 4], 2⟩, ⟨1, [1, 2], 1⟩]⟩ [3, DASH]
    ⟨by decide, by decide, by decide, by decide, by decide⟩ (Nat.le_refl 2)
  refine ⟨m2, trace, h1, h2, ?_⟩
  have h3 : LocalLock.IrredundantMatrix.addRowInternal bumpAllocator 2
      ⟨2, [0, 0], 2, [⟨2, [3, 4], 2⟩, ⟨1, [1, 2], 1⟩]⟩ [3, DASH]
      = some (⟨2, [0, 0], 3, [⟨2, [3, DASH], 3⟩, ⟨1, [1, 2], 1⟩]⟩, [0, 2]) := by decide
  rw [h3] at h1
  rw [← (Prod.mk.inj (Option.some.inj h1)).2]
